import Mathlib

/-!
# Sync committee block storage

A shallow embedding of `nil/services/synccommittee/internal/storage/block_storage.go`
and of the task handler of `nil/services/synccommittee/core/task_state_change_handler.go`.

* Hashes, shard ids, block numbers, batch ids, timestamps and transactions are
  natural numbers; the all-zero hash is `0`.
* The key-value database is a record of four tables.  The `blocks` table is an
  association list whose order is the order of a full range scan; the three
  singleton tables only ever use the key `mainShardKey`, so each is an `Option`.
* Values are stored as typed entries: JSON encoding and decoding are taken to
  round-trip.  The one failure of the database that is modelled is that of
  `CreateRwTx`, with which every attempt of a write begins: the operations with
  the suffix `On` take the attempts in which it fails, and `SetBlockBatch`,
  `SetBlockAsProved` and `SetBlockAsProposed` are those operations over a
  database that does not fail.  Reads, writes and commits inside an open
  transaction do not fail.
* A read-write transaction works on a copy of the database.  A function that
  returns before `commit` gives back the database it started from (the deferred
  `Rollback`); a function that reaches `commit` gives back the working copy.
* The helpers of `scTypes` that the spec describes (`IdFromBlock`, `MainBlockRef`
  and its methods) are modelled from the spec; `ChildBlockIds` and
  `BlockTransactions`, which it does not describe, are parameters (`Env`), and the
  theorems hold for every instance of them.
* The timer is an argument of `SetBlockBatch`: the readings it gives, in order,
  during the call.
* The retry runner, whose code is in another package, is modelled from the spec
  (§4.6 and §7): it repeats an attempt only after a transient failure of the
  database that the policy of `NewBlockStorage` does not name.
* The handler takes its block setter as a function on the state behind it; the
  fields of `types.Task` and the outcome of `TaskResult.IsSuccess` are record
  fields, and logging is left out.
-/

namespace Storage

/-! ## Basic types -/

/-- A 32-byte hash (`common.Hash`), read as a number. -/
abbrev common.Hash := Nat

/-- The all-zero hash (`common.EmptyHash`). -/
def common.EmptyHash : common.Hash := 0

/-- The test `Hash.Empty()`: the hash is the all-zero hash. -/
def common.Hash.Empty (h : common.Hash) : Bool := h == common.EmptyHash

/-- A shard identifier (`types.ShardId`, an unsigned 32-bit integer). -/
abbrev types.ShardId := Nat

/-- The main shard (`types.MainShardId`). -/
def types.MainShardId : types.ShardId := 0

/-- A block number (`types.BlockNumber`). -/
abbrev types.BlockNumber := Nat

/-- A batch identifier (`scTypes.BatchId`). -/
abbrev BatchId := Nat

/-- A reading of the wall clock (`time.Time`). -/
abbrev Time := Nat

/-- A transaction as it is handed to the proposer. -/
abbrev Transaction := Nat

/-- The fields of `jsonrpc.RPCBlock` that the storage consumes. -/
structure RPCBlock where
  Hash : common.Hash
  ParentHash : common.Hash
  ShardId : types.ShardId
  Number : types.BlockNumber
  ChildBlocksRootHash : common.Hash
  Transactions : List Transaction
  ChildBlocks : List common.Hash
  deriving DecidableEq, Repr

/-- A block identifier (`scTypes.BlockId`): the shard and the hash of a block.  Its
byte encoding `Bytes()` is injective, so the identifier itself serves as the key
of the `blocks` table. -/
structure BlockId where
  ShardId : types.ShardId
  Hash : common.Hash
  deriving DecidableEq, Repr

/-- Modelled from the spec: `scTypes.NewBlockId`, the pair of a shard id and a
hash (§3 "BlockId: pair (ShardId, Hash)"). -/
def NewBlockId (shardId : types.ShardId) (hash : common.Hash) : BlockId :=
  ⟨shardId, hash⟩

/-- Modelled from the spec: `scTypes.IdFromBlock`, the identifier of a block is
its shard id paired with its hash (§3). -/
def IdFromBlock (block : RPCBlock) : BlockId :=
  NewBlockId block.ShardId block.Hash

/-- The stored value of the `blocks` table (`blockEntry`). -/
structure blockEntry where
  Block : RPCBlock
  IsProved : Bool
  BatchId : BatchId
  FetchedAt : Time
  deriving DecidableEq, Repr

/-- Modelled from the spec: `scTypes.MainBlockRef`, the compact pointer to the
latest fetched main-shard block (§3 "BlockRef"). -/
structure MainBlockRef where
  Hash : common.Hash
  ParentHash : common.Hash
  Number : types.BlockNumber
  ShardId : types.ShardId
  deriving DecidableEq, Repr

/-- A batch (`scTypes.BlockBatch`): a main-shard block with its child blocks. -/
structure BlockBatch where
  Id : BatchId
  MainShardBlock : RPCBlock
  ChildBlocks : List RPCBlock
  deriving DecidableEq, Repr

/-- The proposal handed to the L1 submitter (`scTypes.ProposalData`). -/
structure ProposalData where
  MainShardBlockHash : common.Hash
  Transactions : List Transaction
  OldProvedStateRoot : common.Hash
  NewProvedStateRoot : common.Hash
  MainBlockFetchedAt : Time
  deriving DecidableEq, Repr

/-- The errors of the storage, one constructor per `errors.New` / `fmt.Errorf`
site of the source, plus the sentinel `scTypes.ErrBlockMismatch` and the errors
of helpers that live outside the storage package. -/
inductive Error where
  | stateRootEmpty
  | batchNil
  | emptyParentHash (hash : common.Hash)
  | blockNotFound (id : BlockId)
  | stateRootNotInitialized
  | childBlockNotFound (id : BlockId)
  | notFromMainShard (id : BlockId)
  | notProved (id : BlockId)
  | nextToProposeNotSet
  | parentHashMismatch (blockParent stored : common.Hash)
  | blockMismatch
  | external (code : Nat)
  | transientKV
  deriving DecidableEq, Repr

/-! ## The key-value substrate -/

/-- Modelled from the spec: a table of the key-value substrate (§4.1), as an
association list.  The order of the list is the order in which a full range
scan visits the table. -/
abbrev Table (κ ν : Type) := List (κ × ν)

/-- Modelled from the spec: `get(table, key)` (§4.1); `none` stands for
`ErrKeyNotFound`. -/
def tableGet {κ ν : Type} [DecidableEq κ] : Table κ ν → κ → Option ν
  | [], _ => none
  | (k, v) :: rest, key => if k = key then some v else tableGet rest key

/-- Modelled from the spec: `put(table, key, bytes)` (§4.1).  An existing key
keeps its place in the scan order, a new key is added to the table. -/
def tablePut {κ ν : Type} [DecidableEq κ] : Table κ ν → κ → ν → Table κ ν
  | [], key, value => [(key, value)]
  | (k, v) :: rest, key, value =>
    if k = key then (key, value) :: rest else (k, v) :: tablePut rest key value

/-- Modelled from the spec: `delete(table, key)` (§4.1).  Deleting a key that is
not in the table is not an error and changes nothing. -/
def tableDelete {κ ν : Type} [DecidableEq κ] (t : Table κ ν) (key : κ) : Table κ ν :=
  t.filter (fun kv => decide (kv.1 ≠ key))

/-- The database: the four tables of the storage. -/
structure Store where
  blocks : Table BlockId blockEntry
  latestFetched : Option MainBlockRef
  stateRoot : Option common.Hash
  nextToPropose : Option common.Hash
  deriving DecidableEq, Repr

/-- The database before anything was written. -/
def Store.empty : Store :=
  ⟨[], none, none, none⟩

/-! ## Collaborators of the storage -/

/-- The collaborators of the storage whose code lives in other packages: the two
helpers of `scTypes` that read a block, and the number of further attempts the
retry runner makes after the first one. -/
structure Env where
  ChildBlockIds : RPCBlock → Except Error (List BlockId)
  BlockTransactions : RPCBlock → List Transaction
  retries : Nat

/-- The state behind a `BlockStorage`: the database, and the number of times the
metrics sink has received `RecordMainBlockProved`. -/
structure BlockStorage where
  database : Store
  metrics : Nat
  deriving DecidableEq, Repr

/-- A storage over an empty database whose metrics sink has seen nothing. -/
def BlockStorage.empty : BlockStorage :=
  ⟨Store.empty, 0⟩

/-- The policy `common.DoNotRetryIf(scTypes.ErrBlockMismatch)` installed by
`NewBlockStorage`: an error is final when it is the block mismatch. -/
def doNotRetry (err : Error) : Bool :=
  decide (err = Error.blockMismatch)

/-- Modelled from the spec: the column "Retryable?" of the table of error kinds
(§7).  The one kind that is retryable is the transient failure of the key-value
substrate; every other kind is not. -/
def Error.retryable : Error → Bool
  | Error.transientKV => true
  | _ => false

/-- Modelled from the spec: the retry executor (§4.6, §7), whose code (package
`common`) is not part of the sources.  The action runs once; a failed attempt is
repeated only while attempts remain, the policy does not name the error and the
error is a transient failure of the substrate; every other error is returned
after the attempt that met it, and the last error is returned when the attempts
are exhausted.  The action is told the number of the attempt. -/
def retryLoop (action : Nat → Store → Except Error Unit × Store) :
    Nat → Nat → Store → Except Error Unit × Store
  | 0, attempt, db => action attempt db
  | fuel + 1, attempt, db =>
    match action attempt db with
    | (Except.ok u, db') => (Except.ok u, db')
    | (Except.error err, db') =>
      if doNotRetry err || !err.retryable then (Except.error err, db')
      else retryLoop action fuel (attempt + 1) db'

/-- The call `bs.retryRunner.Do(ctx, action)`. -/
def retryRunnerDo (env : Env) (action : Nat → Store → Except Error Unit × Store)
    (db : Store) : Except Error Unit × Store :=
  retryLoop action env.retries 0 db

/-- The call `bs.database.CreateRwTx(ctx)` with which `setBlockBatchImpl`,
`setBlockAsProvedImpl` and `setBlockAsProposedImpl` begin, followed by the rest
of the function: when the substrate fails to open the transaction, the function
returns that error at once and the database is as it was. -/
def createRwTx {α : Type} (fails : Bool) (db : Store)
    (body : Store → Except Error α × Store) : Except Error α × Store :=
  if fails then (Except.error Error.transientKV, db) else body db

/-- A substrate that opens every transaction. -/
def noFaults : Nat → Bool :=
  fun _ => false

/-- The number of transactions that a call has opened before its attempt
`attempt`, when `kv n` tells whether `CreateRwTx` fails in attempt `n`. -/
def openedBefore (kv : Nat → Bool) : Nat → Nat
  | 0 => 0
  | attempt + 1 => openedBefore kv attempt + (if kv attempt then 0 else 1)

/-! ## Reading the tables -/

/-- The function `getProvedStateRoot`. -/
def getProvedStateRoot (tx : Store) : Option common.Hash :=
  tx.stateRoot

/-- The method `TryGetProvedStateRoot`. -/
def TryGetProvedStateRoot (bs : BlockStorage) : Except Error (Option common.Hash) :=
  Except.ok (getProvedStateRoot bs.database)

/-- The function `getLatestFetchedMainTx`. -/
def getLatestFetchedMainTx (tx : Store) : Option MainBlockRef :=
  tx.latestFetched

/-- The method `TryGetLatestFetched`. -/
def TryGetLatestFetched (bs : BlockStorage) : Except Error (Option MainBlockRef) :=
  Except.ok (getLatestFetchedMainTx bs.database)

/-- The function `getBlockEntry`. -/
def getBlockEntry (tx : Store) (id : BlockId) : Option blockEntry :=
  tableGet tx.blocks id

/-- The method `TryGetBlock`. -/
def TryGetBlock (bs : BlockStorage) (id : BlockId) : Except Error (Option RPCBlock) :=
  match getBlockEntry bs.database id with
  | none => Except.ok none
  | some entry => Except.ok (some entry.Block)

/-- The function `getParentOfNextToPropose`. -/
def getParentOfNextToPropose (tx : Store) : Option common.Hash :=
  tx.nextToPropose

/-- The function `setParentOfNextToPropose`. -/
def setParentOfNextToPropose (tx : Store) (hash : common.Hash) : Store :=
  { tx with nextToPropose := some hash }

/-- The loop of `iterateOverEntries` over the remaining entries of the scan.  The
callback of the source updates a variable it has captured; here that variable is
passed along as `st`. -/
def iterateLoop {σ : Type} (action : blockEntry → σ → Except Error (Bool × σ)) :
    List (BlockId × blockEntry) → σ → Except Error σ
  | [], st => Except.ok st
  | (_, entry) :: rest, st =>
    match action entry st with
    | Except.error err => Except.error err
    | Except.ok (shouldContinue, st') =>
      if shouldContinue then iterateLoop action rest st' else Except.ok st'

/-- The function `iterateOverEntries`: a full scan of the `blocks` table. -/
def iterateOverEntries {σ : Type} (tx : Store)
    (action : blockEntry → σ → Except Error (Bool × σ)) (init : σ) : Except Error σ :=
  iterateLoop action tx.blocks init

/-! ## The state root -/

/-- The method `SetProvedStateRoot`. -/
def SetProvedStateRoot (bs : BlockStorage) (stateRoot : common.Hash) :
    Except Error Unit × BlockStorage :=
  if stateRoot = common.EmptyHash then (Except.error Error.stateRootEmpty, bs)
  else (Except.ok (), { bs with database := { bs.database with stateRoot := some stateRoot } })

/-! ## Ingesting a batch -/

/-- The function `putBlockTx`, given the reading `currentTime` of the timer.  The
entry is built afresh from the block, so its `IsProved` flag is `false`. -/
def putBlockTx (tx : Store) (currentTime : Time) (batchId : BatchId) (block : RPCBlock) :
    Store :=
  let entry : blockEntry :=
    { Block := block, IsProved := false, BatchId := batchId, FetchedAt := currentTime }
  let blockId := IdFromBlock block
  { tx with blocks := tablePut tx.blocks blockId entry }

/-- Modelled from the spec: `MainBlockRef.Equals`, on a reference that may be
absent: the stored reference has the hash and the number of the block (§4.3
"same hash+number"). -/
def MainBlockRef.Equals (latestFetched : Option MainBlockRef) (block : RPCBlock) : Bool :=
  match latestFetched with
  | none => false
  | some ref => decide (ref.Hash = block.Hash) && decide (ref.Number = block.Number)

/-- Modelled from the spec: `MainBlockRef.ValidateChild`, on a reference that
may be absent: with no reference every block is accepted; otherwise the block
must be a main-shard block whose parent is the reference and whose number is
the next one, and the failure is the block mismatch (§4.3). -/
def MainBlockRef.ValidateChild (latestFetched : Option MainBlockRef) (block : RPCBlock) :
    Except Error Unit :=
  match latestFetched with
  | none => Except.ok ()
  | some ref =>
    if block.ParentHash = ref.Hash ∧ block.Number = ref.Number + 1
        ∧ block.ShardId = types.MainShardId then Except.ok ()
    else Except.error Error.blockMismatch

/-- Modelled from the spec: `scTypes.NewBlockRef`, the reference made of the
hash, parent hash, number and shard of a block (§3 "BlockRef"). -/
def NewBlockRef (block : RPCBlock) : Except Error MainBlockRef :=
  Except.ok
    { Hash := block.Hash, ParentHash := block.ParentHash, Number := block.Number,
      ShardId := block.ShardId }

/-- The function `putLatestFetchedBlockTx`.  It is only called with the main
shard, whose key is `mainShardKey`. -/
def putLatestFetchedBlockTx (tx : Store) (_shardId : types.ShardId) (block : MainBlockRef) :
    Store :=
  { tx with latestFetched := some block }

/-- The function `updateLatestFetched`. -/
def updateLatestFetched (tx : Store) (block : RPCBlock) : Except Error Store :=
  if block.ShardId ≠ types.MainShardId then Except.ok tx
  else
    let latestFetched := getLatestFetchedMainTx tx
    if MainBlockRef.Equals latestFetched block then Except.ok tx
    else
      match MainBlockRef.ValidateChild latestFetched block with
      | Except.error err => Except.error err
      | Except.ok _ =>
        match NewBlockRef block with
        | Except.error err => Except.error err
        | Except.ok newLatestFetched =>
          Except.ok (putLatestFetchedBlockTx tx block.ShardId newLatestFetched)

/-- The function `setProposeParentHash`. -/
def setProposeParentHash (tx : Store) (block : RPCBlock) : Except Error Store :=
  if block.ShardId ≠ types.MainShardId then Except.ok tx
  else
    match getParentOfNextToPropose tx with
    | some _ => Except.ok tx
    | none =>
      if block.Number > 0 ∧ common.Hash.Empty block.ParentHash = true then
        Except.error (Error.emptyParentHash block.Hash)
      else Except.ok (setParentOfNextToPropose tx block.ParentHash)

/-- The loop of `setBlockBatchImpl` over the child blocks; `timer n` is the
reading the timer gives at its `n`-th call of this attempt. -/
def putChildBlocks (timer : Nat → Time) (batchId : BatchId) :
    Store → Nat → List RPCBlock → Store
  | tx, _, [] => tx
  | tx, n, childBlock :: rest =>
    putChildBlocks timer batchId (putBlockTx tx (timer n) batchId childBlock) (n + 1) rest

/-- The function `setBlockBatchImpl`: the database it returns is the working copy
when the transaction commits and the database it was given otherwise. -/
def setBlockBatchImpl (timer : Nat → Time) (db : Store) (batch : BlockBatch) :
    Except Error Unit × Store :=
  let tx := putBlockTx db (timer 0) batch.Id batch.MainShardBlock
  let tx := putChildBlocks timer batch.Id tx 1 batch.ChildBlocks
  match setProposeParentHash tx batch.MainShardBlock with
  | Except.error err => (Except.error err, db)
  | Except.ok tx =>
    match updateLatestFetched tx batch.MainShardBlock with
    | Except.error err => (Except.error err, db)
    | Except.ok tx => (Except.ok (), tx)

/-- The readings of the timer that an attempt of a batch sees when `attempt`
attempts have read the timer before it: every attempt that opens its transaction
reads the timer once per block of the batch. -/
def attemptTimer (timer : Nat → Time) (batch : BlockBatch) (attempt : Nat) : Nat → Time :=
  fun n => timer (attempt * (1 + batch.ChildBlocks.length) + n)

/-- The method `SetBlockBatch` over a substrate that may fail: `kv n` tells
whether `CreateRwTx` fails in attempt `n` of the call, and `timer n` is the
reading the timer gives at its `n`-th call during this call of the method.  An
attempt whose transaction does not open reads no time. -/
def SetBlockBatchOn (kv : Nat → Bool) (env : Env) (bs : BlockStorage)
    (batch : Option BlockBatch) (timer : Nat → Time) : Except Error Unit × BlockStorage :=
  match batch with
  | none => (Except.error Error.batchNil, bs)
  | some batch =>
    let r := retryRunnerDo env
      (fun attempt db => createRwTx (kv attempt) db (fun db =>
        setBlockBatchImpl (attemptTimer timer batch (openedBefore kv attempt)) db batch))
      bs.database
    (r.1, { bs with database := r.2 })

/-- The method `SetBlockBatch` over a substrate that does not fail; `timer n` is
the reading the timer gives at its `n`-th call during this call of the method. -/
def SetBlockBatch (env : Env) (bs : BlockStorage) (batch : Option BlockBatch)
    (timer : Nat → Time) : Except Error Unit × BlockStorage :=
  SetBlockBatchOn noFaults env bs batch timer

/-! ## Marking a block as proved -/

/-- The function `setBlockAsProvedImpl`: the flag `wasSet` or the error, and the
database after the call. -/
def setBlockAsProvedImpl (db : Store) (id : BlockId) : Except Error Bool × Store :=
  match getBlockEntry db id with
  | none => (Except.error (Error.blockNotFound id), db)
  | some entry =>
    if entry.IsProved then (Except.ok false, db)
    else
      let entry := { entry with IsProved := true }
      let tx := { db with blocks := tablePut db.blocks id entry }
      (Except.ok true, tx)

/-- The method `SetBlockAsProved` over a substrate that may fail: `kv 0` tells
whether `CreateRwTx` fails in the one call of `setBlockAsProvedImpl` that the
method makes.  The metrics sink is notified when the flag was set. -/
def SetBlockAsProvedOn (kv : Nat → Bool) (bs : BlockStorage) (id : BlockId) :
    Except Error Unit × BlockStorage :=
  match createRwTx (kv 0) bs.database (fun db => setBlockAsProvedImpl db id) with
  | (Except.error err, _) => (Except.error err, bs)
  | (Except.ok wasSet, db) =>
    if wasSet then (Except.ok (), { database := db, metrics := bs.metrics + 1 })
    else (Except.ok (), { database := db, metrics := bs.metrics })

/-- The method `SetBlockAsProved` over a substrate that does not fail. -/
def SetBlockAsProved (bs : BlockStorage) (id : BlockId) : Except Error Unit × BlockStorage :=
  SetBlockAsProvedOn noFaults bs id

/-! ## Selecting the next proposal -/

/-- The function `isValidProposalCandidate`. -/
def isValidProposalCandidate (entry : blockEntry) (parentHash : common.Hash) : Bool :=
  decide (entry.Block.ShardId = types.MainShardId) &&
    entry.IsProved &&
    decide (entry.Block.ParentHash = parentHash)

/-- The callback that `TryGetNextProposalData` hands to `iterateOverEntries`: it
records the first candidate and stops the scan there. -/
def selectCandidate (parentHash : common.Hash) (entry : blockEntry)
    (mainShardEntry : Option blockEntry) : Except Error (Bool × Option blockEntry) :=
  if isValidProposalCandidate entry parentHash then Except.ok (false, some entry)
  else Except.ok (true, mainShardEntry)

/-- The loop of `TryGetNextProposalData` over the child ids: every child must
have an entry, and its transactions are appended to those gathered so far. -/
def appendChildTransactions (env : Env) (tx : Store) :
    List BlockId → List Transaction → Except Error (List Transaction)
  | [], transactions => Except.ok transactions
  | childId :: rest, transactions =>
    match getBlockEntry tx childId with
    | none => Except.error (Error.childBlockNotFound childId)
    | some childEntry =>
      appendChildTransactions env tx rest (transactions ++ env.BlockTransactions childEntry.Block)

/-- The method `TryGetNextProposalData`. -/
def TryGetNextProposalData (env : Env) (bs : BlockStorage) :
    Except Error (Option ProposalData) :=
  let tx := bs.database
  match getProvedStateRoot tx with
  | none => Except.error Error.stateRootNotInitialized
  | some currentProvedStateRoot =>
    match getParentOfNextToPropose tx with
    | none => Except.ok none
    | some parentHash =>
      match iterateOverEntries tx (selectCandidate parentHash) none with
      | Except.error err => Except.error err
      | Except.ok none => Except.ok none
      | Except.ok (some mainShardEntry) =>
        let transactions := env.BlockTransactions mainShardEntry.Block
        match env.ChildBlockIds mainShardEntry.Block with
        | Except.error err => Except.error err
        | Except.ok childIds =>
          match appendChildTransactions env tx childIds transactions with
          | Except.error err => Except.error err
          | Except.ok transactions =>
            Except.ok (some
              { MainShardBlockHash := mainShardEntry.Block.Hash,
                Transactions := transactions,
                OldProvedStateRoot := currentProvedStateRoot,
                NewProvedStateRoot := mainShardEntry.Block.ChildBlocksRootHash,
                MainBlockFetchedAt := mainShardEntry.FetchedAt })

/-! ## Marking a block as proposed -/

/-- The function `validateMainShardEntry`. -/
def validateMainShardEntry (tx : Store) (id : BlockId) (entry : Option blockEntry) :
    Except Error Unit :=
  match entry with
  | none => Except.error (Error.blockNotFound id)
  | some entry =>
    if entry.Block.ShardId ≠ types.MainShardId then Except.error (Error.notFromMainShard id)
    else if entry.IsProved = false then Except.error (Error.notProved id)
    else
      match getParentOfNextToPropose tx with
      | none => Except.error Error.nextToProposeNotSet
      | some parentHash =>
        if parentHash ≠ entry.Block.ParentHash then
          Except.error (Error.parentHashMismatch entry.Block.ParentHash parentHash)
        else Except.ok ()

/-- The loop of `setBlockAsProposedImpl` that deletes the child entries. -/
def deleteChildBlocks : Store → List BlockId → Store
  | tx, [] => tx
  | tx, childId :: rest =>
    deleteChildBlocks { tx with blocks := tableDelete tx.blocks childId } rest

/-- The function `setBlockAsProposedImpl`: the database it returns is the working
copy when the transaction commits and the database it was given otherwise.  The
entry is read only after `validateMainShardEntry` has accepted it, and that
function rejects an absent entry. -/
def setBlockAsProposedImpl (env : Env) (db : Store) (id : BlockId) :
    Except Error Unit × Store :=
  let mainShardEntry := getBlockEntry db id
  match validateMainShardEntry db id mainShardEntry with
  | Except.error err => (Except.error err, db)
  | Except.ok _ =>
    match mainShardEntry with
    | none => (Except.error (Error.blockNotFound id), db)
    | some mainShardEntry =>
      match env.ChildBlockIds mainShardEntry.Block with
      | Except.error err => (Except.error err, db)
      | Except.ok childIds =>
        let tx := deleteChildBlocks db childIds
        let mainBlockId := IdFromBlock mainShardEntry.Block
        let tx := { tx with blocks := tableDelete tx.blocks mainBlockId }
        let tx := { tx with stateRoot := some mainShardEntry.Block.ChildBlocksRootHash }
        let tx := setParentOfNextToPropose tx mainShardEntry.Block.Hash
        (Except.ok (), tx)

/-- The method `SetBlockAsProposed` over a substrate that may fail: `kv n` tells
whether `CreateRwTx` fails in attempt `n` of the call. -/
def SetBlockAsProposedOn (kv : Nat → Bool) (env : Env) (bs : BlockStorage) (id : BlockId) :
    Except Error Unit × BlockStorage :=
  let r := retryRunnerDo env
    (fun attempt db => createRwTx (kv attempt) db (fun db => setBlockAsProposedImpl env db id))
    bs.database
  (r.1, { bs with database := r.2 })

/-- The method `SetBlockAsProposed` over a substrate that does not fail. -/
def SetBlockAsProposed (env : Env) (bs : BlockStorage) (id : BlockId) :
    Except Error Unit × BlockStorage :=
  SetBlockAsProposedOn noFaults env bs id

/-! ## Sequences of calls -/

/-- A call of one of the four public operations that write to the storage. -/
inductive Op where
  | SetProvedStateRoot (stateRoot : common.Hash)
  | SetBlockBatch (batch : Option BlockBatch) (timer : Nat → Time)
  | SetBlockAsProved (id : BlockId)
  | SetBlockAsProposed (id : BlockId)

/-- The storage after a call, whether the call succeeded or failed. -/
def Op.apply (env : Env) (bs : BlockStorage) : Op → BlockStorage
  | Op.SetProvedStateRoot stateRoot => (Storage.SetProvedStateRoot bs stateRoot).2
  | Op.SetBlockBatch batch timer => (Storage.SetBlockBatch env bs batch timer).2
  | Op.SetBlockAsProved id => (Storage.SetBlockAsProved bs id).2
  | Op.SetBlockAsProposed id => (Storage.SetBlockAsProposed env bs id).2

/-- The storage after a sequence of calls, made one after the other. -/
def runOps (env : Env) (bs : BlockStorage) (ops : List Op) : BlockStorage :=
  ops.foldl (Op.apply env) bs

/-- The states that the public operations reach from the empty storage. -/
inductive Reachable (env : Env) : BlockStorage → Prop where
  | empty : Reachable env BlockStorage.empty
  | step (bs : BlockStorage) (op : Op) : Reachable env bs → Reachable env (op.apply env bs)

/-- The call writes an entry under the key `id`: it is a `SetBlockBatch` whose
main block or one of whose child blocks has that identifier. -/
def Op.ingests (id : BlockId) : Op → Prop
  | Op.SetBlockBatch (some batch) _ =>
    IdFromBlock batch.MainShardBlock = id ∨ ∃ b ∈ batch.ChildBlocks, IdFromBlock b = id
  | _ => False

/-! ## A sample of the collaborators -/

/-- The child identifiers of a list of child hashes, when the hash at position
`i` (counted from `shard`) names a block of shard `i + 1` and empty hashes stand
for shards without a block. -/
def positionalChildIds : types.ShardId → List common.Hash → List BlockId
  | _, [] => []
  | shard, h :: rest =>
    if common.Hash.Empty h then positionalChildIds (shard + 1) rest
    else NewBlockId (shard + 1) h :: positionalChildIds (shard + 1) rest

/-- A sample of the collaborators, on which the storage is evaluated at concrete
inputs: child identifiers are positional and asked of main-shard blocks only,
the transactions of a block are the ones it lists, and the retry runner makes
two further attempts. -/
def sampleEnv : Env where
  ChildBlockIds := fun block =>
    if block.ShardId ≠ types.MainShardId then Except.error (Error.external 0)
    else Except.ok (positionalChildIds 0 block.ChildBlocks)
  BlockTransactions := fun block => block.Transactions
  retries := 2

/-- The timer that reads `t` at every call. -/
def constTimer (t : Time) : Nat → Time :=
  fun _ => t

/-! ## Sample blocks and states -/

/-- A main-shard block with one child, the block of shard 1 with hash `0xC1`. -/
def blockA1 : RPCBlock :=
  { Hash := 0xA1, ParentHash := 0xA0, ShardId := 0, Number := 1, ChildBlocksRootHash := 0x22,
    Transactions := [1, 2], ChildBlocks := [0xC1] }

/-- The child block of `blockA1`. -/
def blockC1 : RPCBlock :=
  { Hash := 0xC1, ParentHash := 0xC0, ShardId := 1, Number := 1, ChildBlocksRootHash := 0,
    Transactions := [3], ChildBlocks := [] }

/-- The batch of `blockA1` with its child. -/
def batchA : BlockBatch :=
  { Id := 7, MainShardBlock := blockA1, ChildBlocks := [blockC1] }

/-- The identifier of `blockA1`. -/
def idA1 : BlockId := ⟨0, 0xA1⟩

/-- The storage after the state root was seeded and `batchA` was ingested. -/
def fetchedState : BlockStorage :=
  runOps sampleEnv BlockStorage.empty
    [Op.SetProvedStateRoot 0x11, Op.SetBlockBatch (some batchA) (constTimer 5)]

/-- The storage after, in addition, `blockA1` was marked as proved. -/
def provedState : BlockStorage :=
  runOps sampleEnv BlockStorage.empty
    [Op.SetProvedStateRoot 0x11, Op.SetBlockBatch (some batchA) (constTimer 5),
      Op.SetBlockAsProved idA1]

/-- A second batch, of blocks other than those of `batchA`: its main block
extends `blockA1`. -/
def batchB : BlockBatch :=
  { Id := 8,
    MainShardBlock :=
      { Hash := 0xB1, ParentHash := 0xA1, ShardId := 0, Number := 2, ChildBlocksRootHash := 0x33,
        Transactions := [4], ChildBlocks := [] },
    ChildBlocks := [] }

/-- The entry of `blockA1` once it is proved. -/
def entryA1 : blockEntry :=
  { Block := blockA1, IsProved := true, BatchId := 7, FetchedAt := 5 }

/-- The entry that the scan of `TryGetNextProposalData` selects: the first entry
of the `blocks` table, in scan order, that is a valid proposal candidate. -/
def firstCandidate (db : Store) (parentHash : common.Hash) : Option blockEntry :=
  (db.blocks.find? (fun kv => isValidProposalCandidate kv.2 parentHash)).map (fun kv => kv.2)

/-- The transactions of a list of entries, one entry after the other. -/
def concatTransactions (env : Env) : List blockEntry → List Transaction
  | [] => []
  | entry :: rest => env.BlockTransactions entry.Block ++ concatTransactions env rest

/-- The batch of `blockA1` from which its child was left out. -/
def batchMissingChild : BlockBatch :=
  { Id := 7, MainShardBlock := blockA1, ChildBlocks := [] }

/-- The storage after the state root was seeded and `blockA1` was ingested
without its child and marked as proved. -/
def missingChildState : BlockStorage :=
  runOps sampleEnv BlockStorage.empty
    [Op.SetProvedStateRoot 0x11, Op.SetBlockBatch (some batchMissingChild) (constTimer 5),
      Op.SetBlockAsProved idA1]

/-- The identifier of `blockC1`, the child of `blockA1`. -/
def idC1 : BlockId := ⟨1, 0xC1⟩

/-- The `blocks` table holds a proposal candidate in the words of the spec: an
entry that is a main-shard block, is proved, and whose parent hash equals
`next_to_propose_parent`. -/
def HasCandidate (db : Store) : Prop :=
  ∃ kv ∈ db.blocks, kv.2.Block.ShardId = types.MainShardId ∧ kv.2.IsProved = true ∧
    getParentOfNextToPropose db = some kv.2.Block.ParentHash

/-- The storage after `batchA` was ingested and `blockA1` was marked as proved,
the state root never having been seeded. -/
def unseededState : BlockStorage :=
  runOps sampleEnv BlockStorage.empty
    [Op.SetBlockBatch (some batchA) (constTimer 5), Op.SetBlockAsProved idA1]

/-- The storage after the state root was seeded and nothing else was done. -/
def rootOnlyState : BlockStorage :=
  runOps sampleEnv BlockStorage.empty [Op.SetProvedStateRoot 0x11]

/-- A main-shard block without children whose parent hash is its own hash. -/
def blockS : RPCBlock :=
  { Hash := 0xA1, ParentHash := 0xA1, ShardId := 0, Number := 1, ChildBlocksRootHash := 0x22,
    Transactions := [1], ChildBlocks := [] }

/-- A main-shard block that extends `blockS` and references the block of shard 1
with hash `0xD1`. -/
def blockT : RPCBlock :=
  { Hash := 0xB1, ParentHash := 0xA1, ShardId := 0, Number := 2, ChildBlocksRootHash := 0x33,
    Transactions := [2], ChildBlocks := [0xD1] }

/-- The entry of `blockS` once it is proved. -/
def entryS : blockEntry :=
  { Block := blockS, IsProved := true, BatchId := 1, FetchedAt := 5 }

/-- The entry of `blockT` once it is proved. -/
def entryT : blockEntry :=
  { Block := blockT, IsProved := true, BatchId := 2, FetchedAt := 6 }

/-- The storage after the state root was seeded, `blockS` and then `blockT` were
ingested, each in a batch without child blocks, and both were marked as proved. -/
def twoCandidatesState : BlockStorage :=
  runOps sampleEnv BlockStorage.empty
    [Op.SetProvedStateRoot 0x11,
      Op.SetBlockBatch (some { Id := 1, MainShardBlock := blockS, ChildBlocks := [] })
        (constTimer 5),
      Op.SetBlockBatch (some { Id := 2, MainShardBlock := blockT, ChildBlocks := [] })
        (constTimer 6),
      Op.SetBlockAsProved ⟨0, 0xA1⟩, Op.SetBlockAsProved ⟨0, 0xB1⟩]

/-- A main-shard block without children whose `ChildBlocksRootHash` is the
all-zero hash. -/
def blockZ : RPCBlock :=
  { Hash := 0xA1, ParentHash := 0xA0, ShardId := 0, Number := 1, ChildBlocksRootHash := 0,
    Transactions := [1], ChildBlocks := [] }

/-- The calls that seed the state root, ingest `blockZ`, mark it as proved and
mark it as proposed. -/
def proposeBlockZ : List Op :=
  [Op.SetProvedStateRoot 0x11,
    Op.SetBlockBatch (some { Id := 1, MainShardBlock := blockZ, ChildBlocks := [] })
      (constTimer 5),
    Op.SetBlockAsProved ⟨0, 0xA1⟩, Op.SetBlockAsProposed ⟨0, 0xA1⟩]

/-- The entries of the `blocks` table sit under the key of their own block:
the key of every pair is `IdFromBlock` of the block in its entry. -/
def KeysAgree (db : Store) : Prop :=
  ∀ kv ∈ db.blocks, IdFromBlock kv.2.Block = kv.1

/-! ## The task handler -/

/-- The kinds of proof tasks (`types.TaskType`).  The handler tells
`AggregateProofs` apart from every other kind. -/
inductive TaskType where
  | AggregateProofs
  | other (code : Nat)
  deriving DecidableEq, Repr

/-- The fields of `types.Task` that the handler reads. -/
structure Task where
  TaskType : TaskType
  ShardId : types.ShardId
  BlockHash : common.Hash
  BatchId : BatchId
  deriving DecidableEq, Repr

/-- A task result (`types.TaskResult`), reduced to what `IsSuccess()` returns. -/
structure TaskResult where
  IsSuccess : Bool
  deriving DecidableEq, Repr

/-- The error of the handler: the error of the block setter, wrapped with the
identifier of the block (`failed to set block with id=%s as proved: %w`). -/
structure HandlerError where
  blockId : BlockId
  cause : Error
  deriving DecidableEq, Repr

/-- The method `taskStateChangeHandler.OnTaskTerminated`.  The block setter is
the interface `ProvedBlockSetter`: a call on the state `σ` behind it that
returns an error or not. -/
def OnTaskTerminated {σ : Type} (blockSetter : σ → BlockId → Except Error Unit × σ)
    (s : σ) (task : Task) (result : TaskResult) : Except HandlerError Unit × σ :=
  if task.TaskType ≠ TaskType.AggregateProofs then (Except.ok (), s)
  else if result.IsSuccess = false then (Except.ok (), s)
  else
    let blockId := NewBlockId task.ShardId task.BlockHash
    match blockSetter s blockId with
    | (Except.error err, s') => (Except.error ⟨blockId, err⟩, s')
    | (Except.ok _, s') => (Except.ok (), s')

/-- A block setter that keeps, next to the state of the setter it wraps, the
list of the identifiers it was called with, in the order of the calls. -/
def recordingSetter {σ : Type} (blockSetter : σ → BlockId → Except Error Unit × σ) :
    σ × List BlockId → BlockId → Except Error Unit × (σ × List BlockId) :=
  fun s blockId => ((blockSetter s.1 blockId).1, ((blockSetter s.1 blockId).2, s.2 ++ [blockId]))

/-- A task of kind `AggregateProofs` for `blockA1`. -/
def taskA1 : Task :=
  { TaskType := TaskType.AggregateProofs, ShardId := 0, BlockHash := 0xA1, BatchId := 7 }

/-! ## Further sample batches -/

/-- The working copy of the database of `setBlockBatchImpl` once the entries of
the batch are written, before the frontier and the latest reference are looked at. -/
def batchWritten (timer : Nat → Time) (db : Store) (batch : BlockBatch) : Store :=
  putChildBlocks timer batch.Id (putBlockTx db (timer 0) batch.Id batch.MainShardBlock)
    1 batch.ChildBlocks

/-- A batch whose main block does not extend `blockA1`: its parent hash is
`0xBEEF`. -/
def batchMismatch : BlockBatch :=
  { Id := 9,
    MainShardBlock :=
      { Hash := 0xB1, ParentHash := 0xBEEF, ShardId := 0, Number := 2,
        ChildBlocksRootHash := 0x33, Transactions := [4], ChildBlocks := [] },
    ChildBlocks := [] }

/-- A batch whose main block has the number 3 and an empty parent hash. -/
def batchEmptyParent : BlockBatch :=
  { Id := 10,
    MainShardBlock :=
      { Hash := 0xE1, ParentHash := 0, ShardId := 0, Number := 3,
        ChildBlocksRootHash := 0x55, Transactions := [], ChildBlocks := [] },
    ChildBlocks := [] }

/-- The frontier is seeded once a block was fetched: when `latest_fetched` holds a
reference, `next_to_propose_parent` holds a hash. -/
def FrontierSeeded (db : Store) : Prop :=
  db.latestFetched ≠ none → db.nextToPropose ≠ none

/-- The reference that `NewBlockRef` makes of a block. -/
def refOf (block : RPCBlock) : MainBlockRef :=
  { Hash := block.Hash, ParentHash := block.ParentHash, Number := block.Number,
    ShardId := block.ShardId }

/-! ## Sequences of batches -/

/-- Every call of a sequence of `SetBlockBatch` calls, each with its batch and its
timer and made on the storage the calls before it left, is accepted. -/
def AllAccepted (env : Env) : BlockStorage → List (BlockBatch × (Nat → Time)) → Prop
  | _, [] => True
  | bs, call :: rest =>
    (SetBlockBatch env bs (some call.1) call.2).1 = Except.ok () ∧
      AllAccepted env (SetBlockBatch env bs (some call.1) call.2).2 rest

/-- The storage after a sequence of `SetBlockBatch` calls. -/
def ingestAll (env : Env) : BlockStorage → List (BlockBatch × (Nat → Time)) → BlockStorage
  | bs, [] => bs
  | bs, call :: rest => ingestAll env (SetBlockBatch env bs (some call.1) call.2).2 rest

/-- The main block of the last batch of a sequence that comes after `block`. -/
def lastMainBlock : RPCBlock → List (BlockBatch × (Nat → Time)) → RPCBlock
  | block, [] => block
  | _, call :: rest => lastMainBlock call.1.MainShardBlock rest

/-- Each main block of the sequence has the hash of the main block before it as
its parent hash, the first one that of `block`. -/
def Linked : RPCBlock → List (BlockBatch × (Nat → Time)) → Prop
  | _, [] => True
  | block, call :: rest =>
    call.1.MainShardBlock.ParentHash = block.Hash ∧ Linked call.1.MainShardBlock rest

/-- The keys of the `blocks` table are pairwise distinct, as the keys of a
key-value table are. -/
def KeysNodup (db : Store) : Prop :=
  (db.blocks.map Prod.fst).Nodup

/-! ## A substrate that fails once -/

/-- The substrate that fails to open the first transaction of a call and opens
every later one. -/
def firstFails : Nat → Bool :=
  fun attempt => decide (attempt = 0)

/-- The substrate that opens the first transaction of a call and fails to open
every later one. -/
def onlyFirstOpens : Nat → Bool :=
  fun attempt => decide (attempt ≠ 0)

/-- The substrate that fails to open every transaction. -/
def alwaysFails : Nat → Bool :=
  fun _ => true

/-! ## The outcome of an attempt of a batch -/

/-- The outcome of an attempt of a batch, which the checks on the frontier and on
the latest reference decide; it does not depend on the timer. -/
def batchOutcome (db : Store) (batch : BlockBatch) : Except Error Unit :=
  if batch.MainShardBlock.ShardId ≠ types.MainShardId then Except.ok ()
  else if db.nextToPropose = none ∧ batch.MainShardBlock.Number > 0
      ∧ batch.MainShardBlock.ParentHash = common.EmptyHash then
    Except.error (Error.emptyParentHash batch.MainShardBlock.Hash)
  else if MainBlockRef.Equals db.latestFetched batch.MainShardBlock = true then Except.ok ()
  else MainBlockRef.ValidateChild db.latestFetched batch.MainShardBlock

/-! ## Proposal candidates -/

/-- An entry is a proposal candidate of the database in the words of the spec: it
is a main-shard block, it is proved, and its parent hash is
`next_to_propose_parent`. -/
def IsCandidate (db : Store) (entry : blockEntry) : Prop :=
  entry.Block.ShardId = types.MainShardId ∧ entry.IsProved = true ∧
    getParentOfNextToPropose db = some entry.Block.ParentHash

/-- At most one entry of the `blocks` table is a proposal candidate. -/
def AtMostOneCandidate (db : Store) : Prop :=
  ∀ kv1 ∈ db.blocks, ∀ kv2 ∈ db.blocks,
    IsCandidate db kv1.2 → IsCandidate db kv2.2 → kv1 = kv2

/-- The call carries blocks of one chain: if it is a `SetBlockBatch`, no child
block of the batch is a main-shard block, and the main block, when it is a
main-shard block, has the number that `numberAfter` gives for its parent hash, so
that main blocks with the same parent hash have the same number. -/
def Op.ofOneChain (numberAfter : common.Hash → types.BlockNumber) : Op → Prop
  | Op.SetBlockBatch (some batch) _ =>
    (∀ child ∈ batch.ChildBlocks, child.ShardId ≠ types.MainShardId) ∧
      (batch.MainShardBlock.ShardId = types.MainShardId →
        batch.MainShardBlock.Number = numberAfter batch.MainShardBlock.ParentHash)
  | _ => True

/-- The main-shard entries of the table belong to one chain that ends at the
latest reference: each has the number that `numberAfter` gives for its parent
hash, a number not above that of the latest reference, and the hash of the latest
reference when it has its number; and two of them with the same number have the
same hash. -/
def ChainInv (numberAfter : common.Hash → types.BlockNumber) (db : Store) : Prop :=
  (∀ kv ∈ db.blocks, kv.2.Block.ShardId = types.MainShardId →
    kv.2.Block.Number = numberAfter kv.2.Block.ParentHash ∧
      ∃ ref, db.latestFetched = some ref ∧ kv.2.Block.Number ≤ ref.Number ∧
        (kv.2.Block.Number = ref.Number → kv.2.Block.Hash = ref.Hash)) ∧
  (∀ kv1 ∈ db.blocks, ∀ kv2 ∈ db.blocks,
    kv1.2.Block.ShardId = types.MainShardId → kv2.2.Block.ShardId = types.MainShardId →
    kv1.2.Block.Number = kv2.2.Block.Number → kv1.2.Block.Hash = kv2.2.Block.Hash)

/-- The number that the sample chain gives for a parent hash: `blockA1`, of
number 1, follows the hash `0xA0`, and the blocks after it have the number 2. -/
def sampleNumberAfter : common.Hash → types.BlockNumber :=
  fun h => if h = 0xA0 then 1 else 2

/-- The calls that seed the state root, ingest `batchA` and `batchB` and mark
both main blocks as proved. -/
def chainOps : List Op :=
  [Op.SetProvedStateRoot 0x11, Op.SetBlockBatch (some batchA) (constTimer 5),
    Op.SetBlockBatch (some batchB) (constTimer 9), Op.SetBlockAsProved idA1,
    Op.SetBlockAsProved ⟨0, 0xB1⟩]

/-! ## Lemmas on tables -/

theorem tableGet_tablePut_self {κ ν : Type} [DecidableEq κ] (t : Table κ ν) (key : κ)
    (value : ν) : tableGet (tablePut t key value) key = some value := by
  induction t with
  | nil => simp [tablePut, tableGet]
  | cons kv rest ih =>
    obtain ⟨k, v⟩ := kv
    by_cases h : k = key
    · simp [tablePut, tableGet, h]
    · simp [tablePut, tableGet, h, ih]

theorem tableGet_tablePut_ne {κ ν : Type} [DecidableEq κ] (t : Table κ ν) (key other : κ)
    (value : ν) (hne : other ≠ key) :
    tableGet (tablePut t key value) other = tableGet t other := by
  induction t with
  | nil =>
    have : ¬ key = other := fun h => hne h.symm
    simp [tablePut, tableGet, this]
  | cons kv rest ih =>
    obtain ⟨k, v⟩ := kv
    by_cases h : k = key
    · subst h
      have : ¬ k = other := fun h => hne h.symm
      simp [tablePut, tableGet, this]
    · by_cases h2 : k = other
      · subst h2
        simp [tablePut, tableGet, h]
      · simp [tablePut, tableGet, h, h2, ih]

theorem tableGet_tableDelete_self {κ ν : Type} [DecidableEq κ] (t : Table κ ν) (key : κ) :
    tableGet (tableDelete t key) key = none := by
  induction t with
  | nil => simp [tableDelete, tableGet]
  | cons kv rest ih =>
    obtain ⟨k, v⟩ := kv
    by_cases h : k = key
    · simpa [tableDelete, List.filter_cons, h] using ih
    · simpa [tableDelete, List.filter_cons, h, tableGet] using ih

theorem tableGet_tableDelete_ne {κ ν : Type} [DecidableEq κ] (t : Table κ ν) (key other : κ)
    (hne : other ≠ key) : tableGet (tableDelete t key) other = tableGet t other := by
  induction t with
  | nil => simp [tableDelete, tableGet]
  | cons kv rest ih =>
    obtain ⟨k, v⟩ := kv
    by_cases h : k = key
    · subst h
      have : ¬ k = other := fun h => hne h.symm
      simpa [tableDelete, List.filter_cons, tableGet, this] using ih
    · by_cases h2 : k = other
      · subst h2
        simp [tableDelete, List.filter_cons, h, tableGet]
      · simpa [tableDelete, List.filter_cons, h, tableGet, h2] using ih

theorem tableGet_tableDelete_of_none {κ ν : Type} [DecidableEq κ] (t : Table κ ν)
    (key other : κ) (h : tableGet t other = none) :
    tableGet (tableDelete t key) other = none := by
  by_cases hne : other = key
  · subst hne
    exact tableGet_tableDelete_self t other
  · rw [tableGet_tableDelete_ne t key other hne]
    exact h

theorem tableGet_mem {κ ν : Type} [DecidableEq κ] (t : Table κ ν) (key : κ) (value : ν)
    (h : tableGet t key = some value) : (key, value) ∈ t := by
  induction t with
  | nil => simp [tableGet] at h
  | cons kv rest ih =>
    obtain ⟨k, v⟩ := kv
    by_cases hk : k = key
    · subst hk
      simp [tableGet] at h
      simp [h]
    · simp [tableGet, hk] at h
      exact List.mem_cons_of_mem _ (ih h)

theorem mem_tablePut {κ ν : Type} [DecidableEq κ] (t : Table κ ν) (key : κ) (value : ν)
    (kv : κ × ν) (h : kv ∈ tablePut t key value) : kv ∈ t ∨ kv = (key, value) := by
  induction t with
  | nil =>
    simp [tablePut] at h
    exact Or.inr h
  | cons hd rest ih =>
    obtain ⟨k, v⟩ := hd
    by_cases hk : k = key
    · simp [tablePut, hk] at h
      rcases h with h | h
      · exact Or.inr h
      · exact Or.inl (List.mem_cons_of_mem _ h)
    · simp [tablePut, hk] at h
      rcases h with h | h
      · exact Or.inl (by simp [h])
      · rcases ih h with h2 | h2
        · exact Or.inl (List.mem_cons_of_mem _ h2)
        · exact Or.inr h2

theorem mem_of_mem_tableDelete {κ ν : Type} [DecidableEq κ] (t : Table κ ν) (key : κ)
    (kv : κ × ν) (h : kv ∈ tableDelete t key) : kv ∈ t :=
  (List.mem_filter.mp h).1

/-! ## Lemmas on the retry runner -/

/-- When every failed attempt leaves the database as it found it, the retry
runner returns what one of the attempts returns on the database it was given. -/
theorem retryLoop_eq_attempt (action : Nat → Store → Except Error Unit × Store)
    (hroll : ∀ attempt db err db', action attempt db = (Except.error err, db') → db' = db)
    (fuel attempt : Nat) (db : Store) :
    ∃ a, retryLoop action fuel attempt db = action a db := by
  induction fuel generalizing attempt with
  | zero => exact ⟨attempt, rfl⟩
  | succ fuel ih =>
    rcases hact : action attempt db with ⟨res, db'⟩
    cases res with
    | ok u => exact ⟨attempt, by simp [retryLoop, hact]⟩
    | error err =>
      have hdb : db' = db := hroll attempt db err db' hact
      subst hdb
      by_cases hfinal : (doNotRetry err || !err.retryable) = true
      · exact ⟨attempt, by simp only [retryLoop, hact, hfinal, if_true]⟩
      · obtain ⟨a, ha⟩ := ih (attempt + 1)
        exact ⟨a, by simp only [retryLoop, hact, hfinal, Bool.false_eq_true, if_false, ha]⟩

/-- An action that does not look at the number of the attempt and leaves the
database alone when it fails is run to the same effect once or many times. -/
theorem retryLoop_const (f : Store → Except Error Unit × Store)
    (hroll : ∀ db err db', f db = (Except.error err, db') → db' = db)
    (fuel attempt : Nat) (db : Store) :
    retryLoop (fun _ d => f d) fuel attempt db = f db := by
  obtain ⟨a, ha⟩ := retryLoop_eq_attempt (fun _ d => f d)
    (fun _ d err d' h => hroll d err d' h) fuel attempt db
  exact ha

theorem Error.retryable_eq_false (err : Error) (h : err ≠ Error.transientKV) :
    err.retryable = false := by
  cases err <;> first | rfl | exact absurd rfl h

/-- A success and an error that is not the transient one end the retry runner at
the attempt that met them. -/
theorem retryLoop_of_final (action : Nat → Store → Except Error Unit × Store)
    (fuel attempt : Nat) (db : Store)
    (h : (action attempt db).1 ≠ Except.error Error.transientKV) :
    retryLoop action fuel attempt db = action attempt db := by
  cases fuel with
  | zero => rfl
  | succ fuel =>
    rcases hact : action attempt db with ⟨res, db'⟩
    cases res with
    | ok u => simp only [retryLoop, hact]
    | error err =>
      have hne : err ≠ Error.transientKV := by
        intro he
        rw [hact, he] at h
        exact h rfl
      have hfinal : (doNotRetry err || !err.retryable) = true := by
        rw [Error.retryable_eq_false err hne]
        simp
      simp only [retryLoop, hact, hfinal, if_true]

/-- Attempts that fail with the transient error are repeated while attempts
remain: after `k` of them the retry runner is at attempt `attempt + k`. -/
theorem retryLoop_skip (action : Nat → Store → Except Error Unit × Store) (k fuel : Nat)
    (attempt : Nat) (db : Store)
    (hk : ∀ j, j < k → action (attempt + j) db = (Except.error Error.transientKV, db)) :
    retryLoop action (fuel + k) attempt db = retryLoop action fuel (attempt + k) db := by
  induction k generalizing attempt with
  | zero => rfl
  | succ k ih =>
    have h0 : action attempt db = (Except.error Error.transientKV, db) := hk 0 (Nat.succ_pos k)
    have hstep : retryLoop action (fuel + k + 1) attempt db =
        retryLoop action (fuel + k) (attempt + 1) db := by
      simp [retryLoop, h0, doNotRetry, Error.retryable]
    have hrest := ih (attempt + 1) (fun j hj => by
      have := hk (j + 1) (Nat.succ_lt_succ hj)
      rwa [show attempt + (j + 1) = attempt + 1 + j by omega] at this)
    rw [show fuel + (k + 1) = fuel + k + 1 by omega, hstep, hrest,
      show attempt + 1 + k = attempt + (k + 1) by omega]

/-- When every attempt that the retry runner may make fails with the transient
error, the runner returns that error. -/
theorem retryLoop_exhausted (action : Nat → Store → Except Error Unit × Store)
    (fuel attempt : Nat) (db : Store)
    (h : ∀ j, j ≤ fuel → action (attempt + j) db = (Except.error Error.transientKV, db)) :
    retryLoop action fuel attempt db = (Except.error Error.transientKV, db) := by
  have hskip := retryLoop_skip action fuel 0 attempt db (fun j hj => h j (Nat.le_of_lt hj))
  rw [Nat.zero_add] at hskip
  rw [hskip]
  exact h fuel (Nat.le_refl fuel)

theorem openedBefore_noFaults (attempt : Nat) : openedBefore noFaults attempt = attempt := by
  induction attempt with
  | zero => rfl
  | succ n ih => simp [openedBefore, ih, noFaults]

/-- No transaction has been opened before the first attempt that opens one. -/
theorem openedBefore_of_faulty (kv : Nat → Bool) (k : Nat) (hk : ∀ j, j < k → kv j = true) :
    openedBefore kv k = 0 := by
  induction k with
  | zero => rfl
  | succ n ih =>
    simp [openedBefore, ih (fun j hj => hk j (Nat.lt_succ_of_lt hj)), hk n (Nat.lt_succ_self n)]

/-- Over a substrate whose first `k` attempts fail to open a transaction and
whose next attempt opens one, the retry runner with at least `k` further
attempts returns what an action that does not look at the number of the attempt
and leaves the database alone when it fails returns on the database of the call. -/
theorem retryLoop_createRwTx_const (kv : Nat → Bool) (f : Store → Except Error Unit × Store)
    (hroll : ∀ db err db', f db = (Except.error err, db') → db' = db)
    (k fuel : Nat) (db : Store) (hk : ∀ j, j < k → kv j = true) (hclean : kv k = false)
    (hle : k ≤ fuel) :
    retryLoop (fun attempt d => createRwTx (kv attempt) d f) fuel 0 db = f db := by
  by_cases hf : (f db).1 = Except.error Error.transientKV
  · have hfdb : f db = (Except.error Error.transientKV, db) := by
      rcases hres : f db with ⟨res, db'⟩
      rw [hres] at hf
      simp only at hf
      subst hf
      rw [hroll db _ db' hres]
    rw [hfdb]
    apply retryLoop_exhausted
    intro j _
    simp only [createRwTx]
    split
    · rfl
    · exact hfdb
  · obtain ⟨rest, hrest⟩ : ∃ rest, fuel = rest + k := ⟨fuel - k, by omega⟩
    subst hrest
    rw [retryLoop_skip _ k rest 0 db (fun j hj => by
      simp only [createRwTx, Nat.zero_add, hk j hj, if_true])]
    rw [retryLoop_of_final]
    · simp only [createRwTx, Nat.zero_add, hclean]
      rfl
    · simp only [createRwTx, Nat.zero_add, hclean]
      exact hf

/-- Over a substrate that does not fail, `SetBlockAsProved` is one call of
`setBlockAsProvedImpl` and, when the flag was set, one notification of the
metrics sink. -/
theorem SetBlockAsProved_eq (bs : BlockStorage) (id : BlockId) :
    SetBlockAsProved bs id =
      match setBlockAsProvedImpl bs.database id with
      | (Except.error err, _) => (Except.error err, bs)
      | (Except.ok wasSet, db) =>
        if wasSet then (Except.ok (), { database := db, metrics := bs.metrics + 1 })
        else (Except.ok (), { database := db, metrics := bs.metrics }) :=
  rfl

/-- A nil batch is refused whatever the substrate does. -/
theorem SetBlockBatchOn_none (kv : Nat → Bool) (env : Env) (bs : BlockStorage)
    (timer : Nat → Time) :
    SetBlockBatchOn kv env bs none timer = (Except.error Error.batchNil, bs) :=
  rfl

/-! ## Lemmas on marking a block as proposed -/

theorem setBlockAsProposedImpl_rollback (env : Env) (db : Store) (id : BlockId) (err : Error)
    (db' : Store) (h : setBlockAsProposedImpl env db id = (Except.error err, db')) :
    db' = db := by
  unfold setBlockAsProposedImpl at h
  simp only at h
  split at h
  · simp at h; exact h.2.symm
  · split at h
    · simp at h; exact h.2.symm
    · split at h
      · simp at h; exact h.2.symm
      · simp at h

theorem SetBlockAsProposed_eq (env : Env) (bs : BlockStorage) (id : BlockId) :
    SetBlockAsProposed env bs id =
      ((setBlockAsProposedImpl env bs.database id).1,
        { bs with database := (setBlockAsProposedImpl env bs.database id).2 }) := by
  unfold SetBlockAsProposed SetBlockAsProposedOn retryRunnerDo
  simp only
  rw [show (fun attempt db => createRwTx (noFaults attempt) db
        (fun db => setBlockAsProposedImpl env db id)) =
      (fun _ d => setBlockAsProposedImpl env d id) from rfl]
  rw [retryLoop_const (fun d => setBlockAsProposedImpl env d id)
    (fun d err d' h => setBlockAsProposedImpl_rollback env d id err d' h)]

theorem validateMainShardEntry_ok_iff (tx : Store) (id : BlockId) (entry : Option blockEntry) :
    validateMainShardEntry tx id entry = Except.ok () ↔
      ∃ e, entry = some e ∧ e.Block.ShardId = types.MainShardId ∧ e.IsProved = true ∧
        tx.nextToPropose = some e.Block.ParentHash := by
  unfold validateMainShardEntry getParentOfNextToPropose
  cases entry with
  | none => simp
  | some e =>
    by_cases h1 : e.Block.ShardId = types.MainShardId
    · cases h2 : e.IsProved
      · simp [h1, h2]
      · cases h3 : tx.nextToPropose with
        | none => simp [h1, h2]
        | some parentHash =>
          by_cases h4 : parentHash = e.Block.ParentHash
          · simp [h1, h2, h4]
          · simp [h1, h2, h4]
    · simp [h1]

theorem deleteChildBlocks_fields (tx : Store) (ids : List BlockId) :
    (deleteChildBlocks tx ids).latestFetched = tx.latestFetched ∧
      (deleteChildBlocks tx ids).stateRoot = tx.stateRoot ∧
      (deleteChildBlocks tx ids).nextToPropose = tx.nextToPropose := by
  induction ids generalizing tx with
  | nil => simp [deleteChildBlocks]
  | cons c rest ih =>
    simp only [deleteChildBlocks]
    have := ih { tx with blocks := tableDelete tx.blocks c }
    simpa using this

theorem deleteChildBlocks_get_of_none (tx : Store) (ids : List BlockId) (key : BlockId)
    (h : tableGet tx.blocks key = none) :
    tableGet (deleteChildBlocks tx ids).blocks key = none := by
  induction ids generalizing tx with
  | nil => simpa [deleteChildBlocks] using h
  | cons c rest ih =>
    simp only [deleteChildBlocks]
    exact ih _ (tableGet_tableDelete_of_none tx.blocks c key h)

theorem deleteChildBlocks_get_mem (tx : Store) (ids : List BlockId) (key : BlockId)
    (h : key ∈ ids) : tableGet (deleteChildBlocks tx ids).blocks key = none := by
  induction ids generalizing tx with
  | nil => simp at h
  | cons c rest ih =>
    simp only [deleteChildBlocks]
    by_cases hc : key = c
    · subst hc
      exact deleteChildBlocks_get_of_none _ rest key (tableGet_tableDelete_self tx.blocks key)
    · have hmem : key ∈ rest := by
        rcases List.mem_cons.mp h with h | h
        · exact absurd h hc
        · exact h
      exact ih _ hmem

theorem deleteChildBlocks_get_not_mem (tx : Store) (ids : List BlockId) (key : BlockId)
    (h : key ∉ ids) : tableGet (deleteChildBlocks tx ids).blocks key = tableGet tx.blocks key := by
  induction ids generalizing tx with
  | nil => simp [deleteChildBlocks]
  | cons c rest ih =>
    simp only [deleteChildBlocks]
    have hc : key ≠ c := fun hc => h (by simp [hc])
    have hrest : key ∉ rest := fun hr => h (List.mem_cons_of_mem _ hr)
    rw [ih _ hrest]
    exact tableGet_tableDelete_ne tx.blocks c key hc

theorem deleteChildBlocks_mem (tx : Store) (ids : List BlockId) (kv : BlockId × blockEntry)
    (h : kv ∈ (deleteChildBlocks tx ids).blocks) : kv ∈ tx.blocks := by
  induction ids generalizing tx with
  | nil => simpa [deleteChildBlocks] using h
  | cons c rest ih =>
    simp only [deleteChildBlocks] at h
    exact mem_of_mem_tableDelete tx.blocks c kv (ih _ h)

/-- What a successful `setBlockAsProposedImpl` did: the entry under `id` passed
the validation, its child identifiers were computed, and the committed database
is the old one with the child keys and the key of the entry's own block deleted,
the state root replaced and the frontier advanced. -/
theorem setBlockAsProposedImpl_ok (env : Env) (db : Store) (id : BlockId)
    (h : (setBlockAsProposedImpl env db id).1 = Except.ok ()) :
    ∃ e childIds, getBlockEntry db id = some e ∧
      validateMainShardEntry db id (some e) = Except.ok () ∧
      env.ChildBlockIds e.Block = Except.ok childIds ∧
      (setBlockAsProposedImpl env db id).2 =
        { blocks := tableDelete (deleteChildBlocks db childIds).blocks (IdFromBlock e.Block),
          latestFetched := db.latestFetched,
          stateRoot := some e.Block.ChildBlocksRootHash,
          nextToPropose := some e.Block.Hash } := by
  unfold setBlockAsProposedImpl at h ⊢
  simp only at h ⊢
  cases hentry : getBlockEntry db id with
  | none =>
    rw [hentry] at h
    simp [validateMainShardEntry] at h
  | some e =>
    rw [hentry] at h
    cases hval : validateMainShardEntry db id (some e) with
    | error err => rw [hval] at h; simp at h
    | ok u =>
      cases hcbi : env.ChildBlockIds e.Block with
      | error err => rw [hval] at h; simp [hcbi] at h
      | ok childIds =>
        refine ⟨e, childIds, rfl, hval, hcbi, ?_⟩
        have hf := deleteChildBlocks_fields db childIds
        simp [hval, hcbi, setParentOfNextToPropose, hf.1]

/-- The converse: when the entry under `id` passes the validation and its child
identifiers can be computed, `setBlockAsProposedImpl` succeeds. -/
theorem setBlockAsProposedImpl_ok_of (env : Env) (db : Store) (id : BlockId) (e : blockEntry)
    (childIds : List BlockId) (hentry : getBlockEntry db id = some e)
    (hval : validateMainShardEntry db id (some e) = Except.ok ())
    (hcbi : env.ChildBlockIds e.Block = Except.ok childIds) :
    (setBlockAsProposedImpl env db id).1 = Except.ok () := by
  unfold setBlockAsProposedImpl
  simp [hentry, hval, hcbi]

theorem setBlockAsProposedImpl_error_store (env : Env) (db : Store) (id : BlockId) (err : Error)
    (h : (setBlockAsProposedImpl env db id).1 = Except.error err) :
    (setBlockAsProposedImpl env db id).2 = db := by
  rcases hres : setBlockAsProposedImpl env db id with ⟨res, db'⟩
  rw [hres] at h
  simp at h
  subst h
  simpa using setBlockAsProposedImpl_rollback env db id err db' hres

/-! ## Lemmas on ingesting a batch -/

theorem setProposeParentHash_blocks (tx tx' : Store) (block : RPCBlock)
    (h : setProposeParentHash tx block = Except.ok tx') :
    tx'.blocks = tx.blocks ∧ tx'.latestFetched = tx.latestFetched ∧
      tx'.stateRoot = tx.stateRoot := by
  unfold setProposeParentHash at h
  split at h
  · simp at h; subst h; simp
  · split at h
    · simp at h; subst h; simp
    · split at h
      · simp at h
      · simp [setParentOfNextToPropose] at h; subst h; simp

theorem updateLatestFetched_blocks (tx tx' : Store) (block : RPCBlock)
    (h : updateLatestFetched tx block = Except.ok tx') :
    tx'.blocks = tx.blocks ∧ tx'.stateRoot = tx.stateRoot ∧
      tx'.nextToPropose = tx.nextToPropose := by
  unfold updateLatestFetched at h
  split at h
  · simp at h; subst h; simp
  · simp only at h
    split at h
    · simp at h; subst h; simp
    · split at h
      · simp at h
      · simp [NewBlockRef, putLatestFetchedBlockTx] at h; subst h; simp

theorem setBlockBatchImpl_rollback (timer : Nat → Time) (db : Store) (batch : BlockBatch)
    (err : Error) (db' : Store)
    (h : setBlockBatchImpl timer db batch = (Except.error err, db')) : db' = db := by
  unfold setBlockBatchImpl at h
  simp only at h
  split at h
  · simp at h; exact h.2.symm
  · split at h
    · simp at h; exact h.2.symm
    · simp at h

/-- The committed database of a `setBlockBatchImpl` that succeeded holds the
blocks table in which the batch was written; the state root is the old one. -/
theorem setBlockBatchImpl_ok (timer : Nat → Time) (db : Store) (batch : BlockBatch)
    (h : (setBlockBatchImpl timer db batch).1 = Except.ok ()) :
    (setBlockBatchImpl timer db batch).2.blocks =
        (putChildBlocks timer batch.Id (putBlockTx db (timer 0) batch.Id batch.MainShardBlock)
          1 batch.ChildBlocks).blocks ∧
      (setBlockBatchImpl timer db batch).2.stateRoot =
        (putChildBlocks timer batch.Id (putBlockTx db (timer 0) batch.Id batch.MainShardBlock)
          1 batch.ChildBlocks).stateRoot := by
  unfold setBlockBatchImpl at h ⊢
  simp only at h ⊢
  cases h1 : setProposeParentHash
      (putChildBlocks timer batch.Id (putBlockTx db (timer 0) batch.Id batch.MainShardBlock)
        1 batch.ChildBlocks) batch.MainShardBlock with
  | error err => rw [h1] at h; simp at h
  | ok tx1 =>
    cases h2 : updateLatestFetched tx1 batch.MainShardBlock with
    | error err => rw [h1] at h; simp [h2] at h
    | ok tx2 =>
      have e1 := setProposeParentHash_blocks _ _ _ h1
      have e2 := updateLatestFetched_blocks _ _ _ h2
      simp [h2, e1.1, e2.1, e1.2.2, e2.2.1]

/-- A call of `SetBlockBatch` with a batch ends as one attempt of
`setBlockBatchImpl` on the database of the call ends. -/
theorem SetBlockBatch_eq_attempt (env : Env) (bs : BlockStorage) (batch : BlockBatch)
    (timer : Nat → Time) :
    ∃ a, SetBlockBatch env bs (some batch) timer =
      ((setBlockBatchImpl (attemptTimer timer batch a) bs.database batch).1,
        { bs with database :=
            (setBlockBatchImpl (attemptTimer timer batch a) bs.database batch).2 }) := by
  obtain ⟨a, ha⟩ := retryLoop_eq_attempt
    (fun attempt db => setBlockBatchImpl (attemptTimer timer batch attempt) db batch)
    (fun attempt db err db' h => setBlockBatchImpl_rollback _ db batch err db' h)
    env.retries 0 bs.database
  refine ⟨a, ?_⟩
  unfold SetBlockBatch SetBlockBatchOn retryRunnerDo
  simp only
  rw [show (fun attempt db => createRwTx (noFaults attempt) db (fun db =>
        setBlockBatchImpl (attemptTimer timer batch (openedBefore noFaults attempt)) db batch)) =
      (fun attempt db => setBlockBatchImpl (attemptTimer timer batch attempt) db batch) from by
    funext attempt db
    rw [openedBefore_noFaults]
    rfl]
  rw [ha]

theorem setBlockBatchImpl_error_store (timer : Nat → Time) (db : Store) (batch : BlockBatch)
    (err : Error) (h : (setBlockBatchImpl timer db batch).1 = Except.error err) :
    (setBlockBatchImpl timer db batch).2 = db := by
  rcases hres : setBlockBatchImpl timer db batch with ⟨res, db'⟩
  rw [hres] at h
  simp at h
  subst h
  simpa using setBlockBatchImpl_rollback timer db batch err db' hres

theorem putBlockTx_fields (tx : Store) (t : Time) (batchId : BatchId) (block : RPCBlock) :
    (putBlockTx tx t batchId block).latestFetched = tx.latestFetched ∧
      (putBlockTx tx t batchId block).stateRoot = tx.stateRoot ∧
      (putBlockTx tx t batchId block).nextToPropose = tx.nextToPropose := by
  simp [putBlockTx]

theorem putChildBlocks_fields (timer : Nat → Time) (batchId : BatchId) (tx : Store) (n : Nat)
    (blocks : List RPCBlock) :
    (putChildBlocks timer batchId tx n blocks).latestFetched = tx.latestFetched ∧
      (putChildBlocks timer batchId tx n blocks).stateRoot = tx.stateRoot ∧
      (putChildBlocks timer batchId tx n blocks).nextToPropose = tx.nextToPropose := by
  induction blocks generalizing tx n with
  | nil => simp [putChildBlocks]
  | cons b rest ih =>
    simp only [putChildBlocks]
    have h1 := ih (putBlockTx tx (timer n) batchId b) (n + 1)
    have h2 := putBlockTx_fields tx (timer n) batchId b
    exact ⟨h1.1.trans h2.1, h1.2.1.trans h2.2.1, h1.2.2.trans h2.2.2⟩

/-! ## Keys and entries agree in every reachable state -/

theorem putBlockTx_keysAgree (tx : Store) (t : Time) (batchId : BatchId) (block : RPCBlock)
    (h : KeysAgree tx) : KeysAgree (putBlockTx tx t batchId block) := by
  intro kv hkv
  simp only [putBlockTx] at hkv
  rcases mem_tablePut _ _ _ _ hkv with hmem | heq
  · exact h kv hmem
  · subst heq
    rfl

theorem putChildBlocks_keysAgree (timer : Nat → Time) (batchId : BatchId) (tx : Store) (n : Nat)
    (blocks : List RPCBlock) (h : KeysAgree tx) :
    KeysAgree (putChildBlocks timer batchId tx n blocks) := by
  induction blocks generalizing tx n with
  | nil => simpa [putChildBlocks] using h
  | cons b rest ih =>
    simp only [putChildBlocks]
    exact ih _ _ (putBlockTx_keysAgree tx (timer n) batchId b h)

theorem setBlockBatchImpl_keysAgree (timer : Nat → Time) (db : Store) (batch : BlockBatch)
    (h : KeysAgree db) : KeysAgree (setBlockBatchImpl timer db batch).2 := by
  cases hres : (setBlockBatchImpl timer db batch).1 with
  | error err =>
    rw [setBlockBatchImpl_error_store timer db batch err hres]
    exact h
  | ok u =>
    intro kv hkv
    rw [(setBlockBatchImpl_ok timer db batch hres).1] at hkv
    exact putChildBlocks_keysAgree timer batch.Id _ 1 batch.ChildBlocks
      (putBlockTx_keysAgree db (timer 0) batch.Id batch.MainShardBlock h) kv hkv

theorem setBlockAsProvedImpl_keysAgree (db : Store) (id : BlockId) (h : KeysAgree db) :
    KeysAgree (setBlockAsProvedImpl db id).2 := by
  unfold setBlockAsProvedImpl
  cases hentry : getBlockEntry db id with
  | none => simpa using h
  | some entry =>
    cases hp : entry.IsProved
    · intro kv hkv
      simp [hp] at hkv
      rcases mem_tablePut _ _ _ _ hkv with hmem | heq
      · exact h kv hmem
      · subst heq
        exact h (id, entry) (tableGet_mem db.blocks id entry hentry)
    · simpa [hp] using h

theorem setBlockAsProposedImpl_keysAgree (env : Env) (db : Store) (id : BlockId)
    (h : KeysAgree db) : KeysAgree (setBlockAsProposedImpl env db id).2 := by
  cases hres : (setBlockAsProposedImpl env db id).1 with
  | error err =>
    rw [setBlockAsProposedImpl_error_store env db id err hres]
    exact h
  | ok u =>
    obtain ⟨e, childIds, _, _, _, hdb⟩ := setBlockAsProposedImpl_ok env db id hres
    rw [hdb]
    intro kv hkv
    exact h kv (deleteChildBlocks_mem db childIds kv (mem_of_mem_tableDelete _ _ kv hkv))

theorem opApply_keysAgree (env : Env) (bs : BlockStorage) (op : Op)
    (h : KeysAgree bs.database) : KeysAgree (op.apply env bs).database := by
  cases op with
  | SetProvedStateRoot stateRoot =>
    simp only [Op.apply, SetProvedStateRoot]
    split
    · exact h
    · exact h
  | SetBlockBatch batch timer =>
    cases batch with
    | none => exact h
    | some batch =>
      obtain ⟨a, ha⟩ := SetBlockBatch_eq_attempt env bs batch timer
      simp only [Op.apply, ha]
      exact setBlockBatchImpl_keysAgree _ bs.database batch h
  | SetBlockAsProved id =>
    have := setBlockAsProvedImpl_keysAgree bs.database id h
    simp only [Op.apply, SetBlockAsProved_eq]
    rcases hres : setBlockAsProvedImpl bs.database id with ⟨res, db'⟩
    rw [hres] at this
    cases res with
    | error err =>
      simp only
      exact h
    | ok wasSet =>
      cases wasSet
      · simpa using this
      · simpa using this
  | SetBlockAsProposed id =>
    simp only [Op.apply, SetBlockAsProposed_eq]
    exact setBlockAsProposedImpl_keysAgree env bs.database id h

/-- In every state that the public operations reach from the empty storage, each
entry of the `blocks` table sits under the key of its own block. -/
theorem Reachable.keysAgree (env : Env) (bs : BlockStorage) (h : Reachable env bs) :
    KeysAgree bs.database := by
  induction h with
  | empty => intro kv hkv; simp [BlockStorage.empty, Store.empty] at hkv
  | step bs op _ ih => exact opApply_keysAgree env bs op ih

theorem Reachable.runOps (env : Env) (bs : BlockStorage) (ops : List Op)
    (h : Reachable env bs) : Reachable env (Storage.runOps env bs ops) := by
  induction ops generalizing bs with
  | nil => exact h
  | cons op rest ih => exact ih _ (Reachable.step bs op h)

/-! ## Marking a block as proposed: the contract -/

/-- Claim C1. In every state that the public operations reach, a successful
`SetBlockAsProposed(id)` leaves the proved state root equal to the
`ChildBlocksRootHash` of the main entry that was stored under `id`, leaves
`next_to_propose_parent` equal to the hash of `id`, and leaves no entry under
`id` nor under any child identifier that the main block references. -/
theorem SetBlockAsProposed_postcondition (env : Env) (bs : BlockStorage) (id : BlockId)
    (hreach : Reachable env bs)
    (hok : (SetBlockAsProposed env bs id).1 = Except.ok ()) :
    ∃ entry childIds,
      getBlockEntry bs.database id = some entry ∧
      env.ChildBlockIds entry.Block = Except.ok childIds ∧
      TryGetProvedStateRoot (SetBlockAsProposed env bs id).2 =
        Except.ok (some entry.Block.ChildBlocksRootHash) ∧
      getParentOfNextToPropose (SetBlockAsProposed env bs id).2.database = some id.Hash ∧
      TryGetBlock (SetBlockAsProposed env bs id).2 id = Except.ok none ∧
      ∀ childId ∈ childIds,
        TryGetBlock (SetBlockAsProposed env bs id).2 childId = Except.ok none := by
  rw [SetBlockAsProposed_eq] at hok ⊢
  simp only at hok ⊢
  obtain ⟨e, childIds, hentry, _, hcbi, hdb⟩ := setBlockAsProposedImpl_ok env bs.database id hok
  have hkey : IdFromBlock e.Block = id :=
    Reachable.keysAgree env bs hreach (id, e) (tableGet_mem _ id e hentry)
  refine ⟨e, childIds, hentry, hcbi, ?_, ?_, ?_, ?_⟩
  · simp [TryGetProvedStateRoot, getProvedStateRoot, hdb]
  · have hhash : e.Block.Hash = id.Hash := by
      rw [← hkey]
      rfl
    simp [getParentOfNextToPropose, hdb, hhash]
  · simp only [TryGetBlock, getBlockEntry, hdb, hkey]
    rw [tableGet_tableDelete_self]
  · intro childId hmem
    simp only [TryGetBlock, getBlockEntry, hdb]
    rw [tableGet_tableDelete_of_none _ _ _ (deleteChildBlocks_get_mem bs.database childIds childId hmem)]

/-- The contract of claim C1 at the sample state in which `blockA1` is proved. -/
theorem SetBlockAsProposed_postcondition_witness :
    Reachable sampleEnv provedState ∧
    (SetBlockAsProposed sampleEnv provedState idA1).1 = Except.ok () ∧
    ∃ entry childIds,
      getBlockEntry provedState.database idA1 = some entry ∧
      sampleEnv.ChildBlockIds entry.Block = Except.ok childIds ∧
      TryGetProvedStateRoot (SetBlockAsProposed sampleEnv provedState idA1).2 =
        Except.ok (some entry.Block.ChildBlocksRootHash) ∧
      getParentOfNextToPropose (SetBlockAsProposed sampleEnv provedState idA1).2.database =
        some idA1.Hash ∧
      TryGetBlock (SetBlockAsProposed sampleEnv provedState idA1).2 idA1 = Except.ok none ∧
      ∀ childId ∈ childIds,
        TryGetBlock (SetBlockAsProposed sampleEnv provedState idA1).2 childId = Except.ok none :=
  ⟨Reachable.runOps sampleEnv _ _ Reachable.empty, rfl,
    SetBlockAsProposed_postcondition sampleEnv provedState idA1
      (Reachable.runOps sampleEnv _ _ Reachable.empty) rfl⟩

/-- Claim C2. Provided the child identifiers of a main-shard block can always be
computed, `SetBlockAsProposed(id)` fails exactly when the entry for `id` is
missing, or is not a main-shard block, or is not proved, or
`next_to_propose_parent` is unset, or it differs from the parent hash of the
entry; and a failed call leaves the storage, all four tables, as it was. -/
theorem SetBlockAsProposed_fails_iff (env : Env) (bs : BlockStorage) (id : BlockId)
    (hcbi : ∀ block : RPCBlock, block.ShardId = types.MainShardId →
      ∃ ids, env.ChildBlockIds block = Except.ok ids) :
    ((∃ err, (SetBlockAsProposed env bs id).1 = Except.error err) ↔
      (getBlockEntry bs.database id = none ∨
        ∃ entry, getBlockEntry bs.database id = some entry ∧
          (entry.Block.ShardId ≠ types.MainShardId ∨ entry.IsProved = false ∨
            getParentOfNextToPropose bs.database = none ∨
            ∃ parentHash, getParentOfNextToPropose bs.database = some parentHash ∧
              parentHash ≠ entry.Block.ParentHash))) ∧
    (∀ err, (SetBlockAsProposed env bs id).1 = Except.error err →
      (SetBlockAsProposed env bs id).2 = bs) := by
  rw [SetBlockAsProposed_eq]
  simp only
  constructor
  · constructor
    · rintro ⟨err, herr⟩
      cases hentry : getBlockEntry bs.database id with
      | none => exact Or.inl rfl
      | some e =>
        refine Or.inr ⟨e, rfl, ?_⟩
        by_contra hcon
        push_neg at hcon
        obtain ⟨h1, h2, h3, h4⟩ := hcon
        obtain ⟨parentHash, hp⟩ := Option.ne_none_iff_exists'.mp h3
        have h5 := h4 parentHash hp
        have hval : validateMainShardEntry bs.database id (some e) = Except.ok () := by
          rw [validateMainShardEntry_ok_iff]
          refine ⟨e, rfl, h1, by simpa using h2, ?_⟩
          simp only [getParentOfNextToPropose] at hp
          rw [hp, h5]
        obtain ⟨ids, hids⟩ := hcbi e.Block h1
        have := setBlockAsProposedImpl_ok_of env bs.database id e ids hentry hval hids
        rw [this] at herr
        cases herr
    · intro h
      cases hres : (setBlockAsProposedImpl env bs.database id).1 with
      | error err => exact ⟨err, rfl⟩
      | ok u =>
        exfalso
        obtain ⟨e, childIds, hentry, hval, _, _⟩ :=
          setBlockAsProposedImpl_ok env bs.database id hres
        obtain ⟨e', he', h1, h2, h3⟩ := (validateMainShardEntry_ok_iff _ _ _).mp hval
        cases he'
        rcases h with h | ⟨entry, hentry', h⟩
        · rw [hentry] at h; cases h
        · rw [hentry] at hentry'
          cases hentry'
          simp only [getParentOfNextToPropose] at h
          rcases h with h | h | h | ⟨parentHash, hp, hne⟩
          · exact h h1
          · rw [h2] at h; cases h
          · rw [h3] at h; cases h
          · rw [h3] at hp
            cases hp
            exact hne rfl
  · intro err herr
    rw [setBlockAsProposedImpl_error_store env bs.database id err herr]

/-- The contract of claim C2 at the sample state in which `blockA1` is fetched
but not yet proved: the call fails and nothing changes. -/
theorem SetBlockAsProposed_fails_iff_witness :
    (∀ block : RPCBlock, block.ShardId = types.MainShardId →
      ∃ ids, sampleEnv.ChildBlockIds block = Except.ok ids) ∧
    (SetBlockAsProposed sampleEnv fetchedState idA1).1 = Except.error (Error.notProved idA1) ∧
    (((∃ err, (SetBlockAsProposed sampleEnv fetchedState idA1).1 = Except.error err) ↔
      (getBlockEntry fetchedState.database idA1 = none ∨
        ∃ entry, getBlockEntry fetchedState.database idA1 = some entry ∧
          (entry.Block.ShardId ≠ types.MainShardId ∨ entry.IsProved = false ∨
            getParentOfNextToPropose fetchedState.database = none ∨
            ∃ parentHash, getParentOfNextToPropose fetchedState.database = some parentHash ∧
              parentHash ≠ entry.Block.ParentHash))) ∧
    (∀ err, (SetBlockAsProposed sampleEnv fetchedState idA1).1 = Except.error err →
      (SetBlockAsProposed sampleEnv fetchedState idA1).2 = fetchedState)) :=
  ⟨fun block h => ⟨positionalChildIds 0 block.ChildBlocks, by simp [sampleEnv, h]⟩, rfl,
    SetBlockAsProposed_fails_iff sampleEnv fetchedState idA1
      (fun block h => ⟨positionalChildIds 0 block.ChildBlocks, by simp [sampleEnv, h]⟩)⟩

/-! ## Lemmas on marking a block as proved -/

theorem SetBlockAsProved_missing (bs : BlockStorage) (id : BlockId)
    (h : getBlockEntry bs.database id = none) :
    SetBlockAsProved bs id = (Except.error (Error.blockNotFound id), bs) := by
  simp [SetBlockAsProved_eq, setBlockAsProvedImpl, h]

theorem SetBlockAsProved_proved (bs : BlockStorage) (id : BlockId) (entry : blockEntry)
    (h : getBlockEntry bs.database id = some entry) (hp : entry.IsProved = true) :
    SetBlockAsProved bs id = (Except.ok (), bs) := by
  simp [SetBlockAsProved_eq, setBlockAsProvedImpl, h, hp]

theorem SetBlockAsProved_unproved (bs : BlockStorage) (id : BlockId) (entry : blockEntry)
    (h : getBlockEntry bs.database id = some entry) (hp : entry.IsProved = false) :
    SetBlockAsProved bs id =
      (Except.ok (),
        { database :=
            { bs.database with
              blocks := tablePut bs.database.blocks id { entry with IsProved := true } },
          metrics := bs.metrics + 1 }) := by
  simp [SetBlockAsProved_eq, setBlockAsProvedImpl, h, hp]

/-! ## The proved flag along sequences of calls -/

theorem tableGet_tableDelete_cases {κ ν : Type} [DecidableEq κ] (t : Table κ ν) (key other : κ) :
    tableGet (tableDelete t key) other = tableGet t other ∨
      tableGet (tableDelete t key) other = none := by
  by_cases h : other = key
  · subst h
    exact Or.inr (tableGet_tableDelete_self t other)
  · exact Or.inl (tableGet_tableDelete_ne t key other h)

theorem deleteChildBlocks_get_cases (tx : Store) (ids : List BlockId) (key : BlockId) :
    tableGet (deleteChildBlocks tx ids).blocks key = tableGet tx.blocks key ∨
      tableGet (deleteChildBlocks tx ids).blocks key = none := by
  by_cases h : key ∈ ids
  · exact Or.inr (deleteChildBlocks_get_mem tx ids key h)
  · exact Or.inl (deleteChildBlocks_get_not_mem tx ids key h)

theorem putBlockTx_get_ne (tx : Store) (t : Time) (batchId : BatchId) (block : RPCBlock)
    (id : BlockId) (h : IdFromBlock block ≠ id) :
    tableGet (putBlockTx tx t batchId block).blocks id = tableGet tx.blocks id := by
  simp only [putBlockTx]
  exact tableGet_tablePut_ne tx.blocks (IdFromBlock block) id _ (fun he => h he.symm)

theorem putChildBlocks_get_ne (timer : Nat → Time) (batchId : BatchId) (tx : Store) (n : Nat)
    (blocks : List RPCBlock) (id : BlockId) (h : ∀ b ∈ blocks, IdFromBlock b ≠ id) :
    tableGet (putChildBlocks timer batchId tx n blocks).blocks id = tableGet tx.blocks id := by
  induction blocks generalizing tx n with
  | nil => simp [putChildBlocks]
  | cons b rest ih =>
    simp only [putChildBlocks]
    rw [ih _ _ (fun b' hb' => h b' (List.mem_cons_of_mem _ hb'))]
    exact putBlockTx_get_ne tx (timer n) batchId b id (h b (by simp))

/-- The entry under `id` across one attempt of a batch that carries no block
with that identifier. -/
theorem setBlockBatchImpl_get_ne (timer : Nat → Time) (db : Store) (batch : BlockBatch)
    (id : BlockId) (hmain : IdFromBlock batch.MainShardBlock ≠ id)
    (hchildren : ∀ b ∈ batch.ChildBlocks, IdFromBlock b ≠ id) :
    getBlockEntry (setBlockBatchImpl timer db batch).2 id = getBlockEntry db id := by
  cases hres : (setBlockBatchImpl timer db batch).1 with
  | error err => rw [setBlockBatchImpl_error_store timer db batch err hres]
  | ok u =>
    simp only [getBlockEntry]
    rw [(setBlockBatchImpl_ok timer db batch hres).1,
      putChildBlocks_get_ne timer batch.Id _ 1 batch.ChildBlocks id hchildren]
    exact putBlockTx_get_ne db (timer 0) batch.Id batch.MainShardBlock id hmain

/-- One call that writes no block under `id` either leaves the entry under `id`
as it was, or sets the proved flag of an entry that was not proved, or is a
`SetBlockAsProposed` after which there is no entry under `id`. -/
theorem opApply_get_cases (env : Env) (bs : BlockStorage) (op : Op) (id : BlockId)
    (hno : ¬ op.ingests id) :
    getBlockEntry (op.apply env bs).database id = getBlockEntry bs.database id ∨
      (∃ e, getBlockEntry bs.database id = some e ∧ e.IsProved = false) ∨
      (getBlockEntry (op.apply env bs).database id = none ∧
        ∃ proposed, op = Op.SetBlockAsProposed proposed) := by
  cases op with
  | SetProvedStateRoot stateRoot =>
    refine Or.inl ?_
    simp only [Op.apply, SetProvedStateRoot]
    split
    · rfl
    · rfl
  | SetBlockBatch batch timer =>
    refine Or.inl ?_
    cases batch with
    | none => rfl
    | some batch =>
      simp only [Op.ingests, not_or, not_exists, not_and] at hno
      obtain ⟨a, ha⟩ := SetBlockBatch_eq_attempt env bs batch timer
      simp only [Op.apply, ha]
      exact setBlockBatchImpl_get_ne _ bs.database batch id hno.1 hno.2
  | SetBlockAsProved proved =>
    simp only [Op.apply]
    cases hentry : getBlockEntry bs.database proved with
    | none => exact Or.inl (by rw [SetBlockAsProved_missing bs proved hentry])
    | some entry =>
      cases hp : entry.IsProved
      · by_cases hid : id = proved
        · subst hid
          exact Or.inr (Or.inl ⟨entry, hentry, hp⟩)
        · refine Or.inl ?_
          rw [SetBlockAsProved_unproved bs proved entry hentry hp]
          simp only [getBlockEntry]
          exact tableGet_tablePut_ne bs.database.blocks proved id _ hid
      · exact Or.inl (by rw [SetBlockAsProved_proved bs proved entry hentry hp])
  | SetBlockAsProposed proposed =>
    simp only [Op.apply, SetBlockAsProposed_eq]
    cases hres : (setBlockAsProposedImpl env bs.database proposed).1 with
    | error err =>
      exact Or.inl (by rw [setBlockAsProposedImpl_error_store env bs.database proposed err hres])
    | ok u =>
      obtain ⟨e, childIds, _, _, _, hdb⟩ := setBlockAsProposedImpl_ok env bs.database proposed hres
      simp only [getBlockEntry, hdb]
      rcases tableGet_tableDelete_cases (deleteChildBlocks bs.database childIds).blocks
        (IdFromBlock e.Block) id with h1 | h1
      · rcases deleteChildBlocks_get_cases bs.database childIds id with h2 | h2
        · exact Or.inl (h1.trans h2)
        · exact Or.inr (Or.inr ⟨h1.trans h2, proposed, rfl⟩)
      · exact Or.inr (Or.inr ⟨h1, proposed, rfl⟩)

/-- Calls that write no block under `id` do not create an entry under `id`. -/
theorem runOps_get_none (env : Env) (bs : BlockStorage) (ops : List Op) (id : BlockId)
    (hno : ∀ op ∈ ops, ¬ op.ingests id) (hnone : getBlockEntry bs.database id = none) :
    getBlockEntry (runOps env bs ops).database id = none := by
  induction ops generalizing bs with
  | nil => exact hnone
  | cons op rest ih =>
    simp only [runOps, List.foldl_cons]
    refine ih _ (fun o ho => hno o (List.mem_cons_of_mem _ ho)) ?_
    rcases opApply_get_cases env bs op id (hno op (by simp)) with h | ⟨e, he, _⟩ | ⟨h, _⟩
    · rw [h, hnone]
    · rw [hnone] at he; cases he
    · exact h

/-- The re-ingest of a batch resets the proved flag (against claim C3): after
`batchA` is ingested and `blockA1` is marked as proved its entry is proved; the
same batch is then accepted once more, no block is proposed, and the entry of
`blockA1` is not proved any more. -/
theorem proved_reverts_on_reingest :
    (getBlockEntry (runOps sampleEnv BlockStorage.empty
        [Op.SetBlockBatch (some batchA) (constTimer 5), Op.SetBlockAsProved idA1]).database
      idA1).map (fun e => e.IsProved) = some true ∧
    (SetBlockBatch sampleEnv (runOps sampleEnv BlockStorage.empty
        [Op.SetBlockBatch (some batchA) (constTimer 5), Op.SetBlockAsProved idA1])
      (some batchA) (constTimer 6)).1 = Except.ok () ∧
    (getBlockEntry (runOps sampleEnv BlockStorage.empty
        [Op.SetBlockBatch (some batchA) (constTimer 5), Op.SetBlockAsProved idA1,
          Op.SetBlockBatch (some batchA) (constTimer 6)]).database
      idA1).map (fun e => e.IsProved) = some false :=
  ⟨rfl, rfl, rfl⟩

/-- Claim C3, amended. Along every sequence of calls of the public operations in
which no `SetBlockBatch` carries a block with the identifier `id`, an entry
under `id` that is proved stays as it is, proved, until a `SetBlockAsProposed`
deletes it: after the sequence either the same entry is stored under `id`, or
no entry is and the sequence contains a `SetBlockAsProposed`. -/
theorem proved_stays_proved (env : Env) (bs : BlockStorage) (ops : List Op) (id : BlockId)
    (entry : blockEntry)
    (hentry : getBlockEntry bs.database id = some entry)
    (hproved : entry.IsProved = true)
    (hno : ∀ op ∈ ops, ¬ op.ingests id) :
    getBlockEntry (runOps env bs ops).database id = some entry ∨
      (getBlockEntry (runOps env bs ops).database id = none ∧
        ∃ proposed, Op.SetBlockAsProposed proposed ∈ ops) := by
  induction ops generalizing bs with
  | nil => exact Or.inl hentry
  | cons op rest ih =>
    simp only [runOps, List.foldl_cons]
    have hrest : ∀ o ∈ rest, ¬ o.ingests id := fun o ho => hno o (List.mem_cons_of_mem _ ho)
    rcases opApply_get_cases env bs op id (hno op (by simp)) with h | ⟨e, he, hfalse⟩ | ⟨h, p, hp⟩
    · rcases ih (op.apply env bs) (h.trans hentry) hrest with h2 | ⟨h2, p, hp⟩
      · exact Or.inl h2
      · exact Or.inr ⟨h2, p, List.mem_cons_of_mem _ hp⟩
    · rw [hentry] at he
      cases he
      rw [hproved] at hfalse
      cases hfalse
    · refine Or.inr ⟨runOps_get_none env _ rest id hrest h, p, ?_⟩
      rw [hp]
      simp

/-- The amended claim C3 at the sample state in which `blockA1` is proved, along
a sequence that marks it proved again, replaces the state root and ingests
another batch. -/
theorem proved_stays_proved_witness :
    getBlockEntry provedState.database idA1 = some entryA1 ∧
    entryA1.IsProved = true ∧
    (∀ op ∈ [Op.SetBlockAsProved idA1, Op.SetProvedStateRoot 0x44,
        Op.SetBlockBatch (some batchB) (constTimer 9)], ¬ op.ingests idA1) ∧
    (getBlockEntry (runOps sampleEnv provedState
        [Op.SetBlockAsProved idA1, Op.SetProvedStateRoot 0x44,
          Op.SetBlockBatch (some batchB) (constTimer 9)]).database idA1 = some entryA1 ∨
      (getBlockEntry (runOps sampleEnv provedState
        [Op.SetBlockAsProved idA1, Op.SetProvedStateRoot 0x44,
          Op.SetBlockBatch (some batchB) (constTimer 9)]).database idA1 = none ∧
        ∃ proposed, Op.SetBlockAsProposed proposed ∈
          [Op.SetBlockAsProved idA1, Op.SetProvedStateRoot 0x44,
            Op.SetBlockBatch (some batchB) (constTimer 9)])) :=
  ⟨rfl, rfl, by simp [Op.ingests, batchB, idA1, IdFromBlock, NewBlockId],
    proved_stays_proved sampleEnv provedState _ idA1 entryA1 rfl rfl
      (by simp [Op.ingests, batchB, idA1, IdFromBlock, NewBlockId])⟩

/-! ## Lemmas on selecting the next proposal -/

theorem iterateLoop_selectCandidate (parentHash : common.Hash)
    (entries : List (BlockId × blockEntry)) (st : Option blockEntry) :
    iterateLoop (selectCandidate parentHash) entries st =
      Except.ok
        (match entries.find? (fun kv => isValidProposalCandidate kv.2 parentHash) with
         | some kv => some kv.2
         | none => st) := by
  induction entries generalizing st with
  | nil => simp [iterateLoop]
  | cons kv rest ih =>
    obtain ⟨k, entry⟩ := kv
    cases hc : isValidProposalCandidate entry parentHash
    · simp [iterateLoop, selectCandidate, hc, ih, List.find?_cons]
    · simp [iterateLoop, selectCandidate, hc, List.find?_cons]

theorem iterateOverEntries_selectCandidate (tx : Store) (parentHash : common.Hash) :
    iterateOverEntries tx (selectCandidate parentHash) none =
      Except.ok (firstCandidate tx parentHash) := by
  unfold iterateOverEntries firstCandidate
  rw [iterateLoop_selectCandidate]
  cases tx.blocks.find? (fun kv => isValidProposalCandidate kv.2 parentHash) <;> rfl

/-- The entry that the scan selects is an entry of the table and is a candidate. -/
theorem firstCandidate_some (db : Store) (parentHash : common.Hash) (m : blockEntry)
    (h : firstCandidate db parentHash = some m) :
    (∃ key, (key, m) ∈ db.blocks) ∧ isValidProposalCandidate m parentHash = true := by
  unfold firstCandidate at h
  cases hfind : db.blocks.find? (fun kv => isValidProposalCandidate kv.2 parentHash) with
  | none => rw [hfind] at h; simp at h
  | some kv =>
    rw [hfind] at h
    simp at h
    subst h
    exact ⟨⟨kv.1, List.mem_of_find?_eq_some hfind⟩, by simpa using List.find?_some hfind⟩

/-- The scan selects nothing exactly when no entry of the table is a candidate. -/
theorem firstCandidate_none_iff (db : Store) (parentHash : common.Hash) :
    firstCandidate db parentHash = none ↔
      ∀ kv ∈ db.blocks, isValidProposalCandidate kv.2 parentHash = false := by
  unfold firstCandidate
  simp [List.find?_eq_none]

/-- The method `TryGetNextProposalData` with the scan replaced by its result. -/
theorem TryGetNextProposalData_eq (env : Env) (bs : BlockStorage) :
    TryGetNextProposalData env bs =
      match getProvedStateRoot bs.database with
      | none => Except.error Error.stateRootNotInitialized
      | some currentProvedStateRoot =>
        match getParentOfNextToPropose bs.database with
        | none => Except.ok none
        | some parentHash =>
          match firstCandidate bs.database parentHash with
          | none => Except.ok none
          | some mainShardEntry =>
            match env.ChildBlockIds mainShardEntry.Block with
            | Except.error err => Except.error err
            | Except.ok childIds =>
              match appendChildTransactions env bs.database childIds
                  (env.BlockTransactions mainShardEntry.Block) with
              | Except.error err => Except.error err
              | Except.ok transactions =>
                Except.ok (some
                  { MainShardBlockHash := mainShardEntry.Block.Hash,
                    Transactions := transactions,
                    OldProvedStateRoot := currentProvedStateRoot,
                    NewProvedStateRoot := mainShardEntry.Block.ChildBlocksRootHash,
                    MainBlockFetchedAt := mainShardEntry.FetchedAt }) := by
  unfold TryGetNextProposalData
  simp only
  cases getProvedStateRoot bs.database with
  | none => rfl
  | some root =>
    cases getParentOfNextToPropose bs.database with
    | none => rfl
    | some parentHash =>
      simp only [iterateOverEntries_selectCandidate]
      cases firstCandidate bs.database parentHash <;> rfl

/-- The loop over the child ids succeeds exactly when every child id has an
entry, and then it has appended the transactions of those entries in order. -/
theorem appendChildTransactions_ok_iff (env : Env) (tx : Store) (ids : List BlockId)
    (acc result : List Transaction) :
    appendChildTransactions env tx ids acc = Except.ok result ↔
      ∃ children : List blockEntry,
        ids.map (getBlockEntry tx) = children.map some ∧
        result = acc ++ concatTransactions env children := by
  induction ids generalizing acc with
  | nil =>
    constructor
    · intro h
      simp [appendChildTransactions] at h
      exact ⟨[], by simp, by simp [concatTransactions, h]⟩
    · rintro ⟨children, hmap, hres⟩
      cases children with
      | nil => simp [appendChildTransactions, hres, concatTransactions]
      | cons c rest => simp at hmap
  | cons id rest ih =>
    cases hget : getBlockEntry tx id with
    | none =>
      constructor
      · intro h
        simp [appendChildTransactions, hget] at h
      · rintro ⟨children, hmap, _⟩
        cases children with
        | nil => simp at hmap
        | cons c cs => simp [hget] at hmap
    | some e =>
      simp only [appendChildTransactions, hget, ih]
      constructor
      · rintro ⟨children, hmap, hres⟩
        exact ⟨e :: children, by simp [hget, hmap], by simp [concatTransactions, hres]⟩
      · rintro ⟨children, hmap, hres⟩
        cases children with
        | nil => simp at hmap
        | cons c cs =>
          simp [hget] at hmap
          obtain ⟨hc, hcs⟩ := hmap
          subst hc
          exact ⟨cs, by simpa using hcs, by simp [concatTransactions, hres]⟩

/-- When every child id has an entry, the loop over the child ids succeeds. -/
theorem appendChildTransactions_ok_of (env : Env) (tx : Store) (ids : List BlockId)
    (acc : List Transaction) (h : ∀ c ∈ ids, ∃ e, getBlockEntry tx c = some e) :
    ∃ result, appendChildTransactions env tx ids acc = Except.ok result := by
  induction ids generalizing acc with
  | nil => exact ⟨acc, rfl⟩
  | cons id rest ih =>
    obtain ⟨e, he⟩ := h id (by simp)
    simp only [appendChildTransactions, he]
    exact ih _ (fun c hc => h c (List.mem_cons_of_mem _ hc))

/-- When the loop over the child ids succeeds, every child id has an entry. -/
theorem appendChildTransactions_resolved (env : Env) (tx : Store) (ids : List BlockId)
    (acc result : List Transaction)
    (h : appendChildTransactions env tx ids acc = Except.ok result) :
    ∀ c ∈ ids, ∃ e, getBlockEntry tx c = some e := by
  induction ids generalizing acc with
  | nil => intro c hc; simp at hc
  | cons id rest ih =>
    cases hget : getBlockEntry tx id with
    | none => simp [appendChildTransactions, hget] at h
    | some e =>
      simp only [appendChildTransactions, hget] at h
      intro c hc
      rcases List.mem_cons.mp hc with hc | hc
      · subst hc
        exact ⟨e, hget⟩
      · exact ih _ h c hc

/-- When some child id has no entry, the loop over the child ids fails at the
first such child. -/
theorem appendChildTransactions_missing (env : Env) (tx : Store) (ids : List BlockId)
    (acc : List Transaction) (h : ∃ c ∈ ids, getBlockEntry tx c = none) :
    ∃ c ∈ ids, getBlockEntry tx c = none ∧
      appendChildTransactions env tx ids acc = Except.error (Error.childBlockNotFound c) := by
  induction ids generalizing acc with
  | nil =>
    obtain ⟨c, hc, _⟩ := h
    simp at hc
  | cons id rest ih =>
    cases hget : getBlockEntry tx id with
    | none => exact ⟨id, by simp, hget, by simp [appendChildTransactions, hget]⟩
    | some e =>
      obtain ⟨c, hc, hnone⟩ := h
      have hrest : ∃ c ∈ rest, getBlockEntry tx c = none := by
        rcases List.mem_cons.mp hc with hc | hc
        · subst hc
          rw [hget] at hnone
          cases hnone
        · exact ⟨c, hc, hnone⟩
      obtain ⟨c', hc', hnone', herr⟩ := ih (acc ++ env.BlockTransactions e.Block) hrest
      exact ⟨c', List.mem_cons_of_mem _ hc', hnone', by simp [appendChildTransactions, hget, herr]⟩

/-- The proposals that `TryGetNextProposalData` returns: the state root is seeded,
the frontier is set, the scan selects an entry, the child ids of its block are
computed, every child has an entry, and the proposal is assembled from these. -/
theorem TryGetNextProposalData_some (env : Env) (bs : BlockStorage) (p : ProposalData) :
    TryGetNextProposalData env bs = Except.ok (some p) ↔
      ∃ root parentHash m ids transactions,
        getProvedStateRoot bs.database = some root ∧
        getParentOfNextToPropose bs.database = some parentHash ∧
        firstCandidate bs.database parentHash = some m ∧
        env.ChildBlockIds m.Block = Except.ok ids ∧
        appendChildTransactions env bs.database ids (env.BlockTransactions m.Block) =
          Except.ok transactions ∧
        p = { MainShardBlockHash := m.Block.Hash,
              Transactions := transactions,
              OldProvedStateRoot := root,
              NewProvedStateRoot := m.Block.ChildBlocksRootHash,
              MainBlockFetchedAt := m.FetchedAt } := by
  rw [TryGetNextProposalData_eq]
  cases h1 : getProvedStateRoot bs.database with
  | none => simp
  | some root =>
    cases h2 : getParentOfNextToPropose bs.database with
    | none => simp
    | some parentHash =>
      cases h3 : firstCandidate bs.database parentHash with
      | none => simp [h3]
      | some m =>
        cases h4 : env.ChildBlockIds m.Block with
        | error err => simp [h3, h4]
        | ok ids =>
          cases h5 : appendChildTransactions env bs.database ids
              (env.BlockTransactions m.Block) with
          | error err => simp [h3, h4, h5]
          | ok transactions =>
            simp only [h3, h4, h5]
            constructor
            · intro h
              simp only [Except.ok.injEq, Option.some.injEq] at h
              exact ⟨root, parentHash, m, ids, transactions, rfl, rfl, h3, h4, h5, h.symm⟩
            · rintro ⟨root', parentHash', m', ids', transactions', e1, e2, e3, e4, e5, hp⟩
              cases e1
              cases e2
              rw [h3] at e3
              cases e3
              rw [h4] at e4
              cases e4
              rw [h5] at e5
              cases e5
              rw [hp]

/-- The method `TryGetNextProposalData` returns none without error exactly when
the state root is seeded and the frontier is unset or the scan selects nothing. -/
theorem TryGetNextProposalData_none (env : Env) (bs : BlockStorage) :
    TryGetNextProposalData env bs = Except.ok none ↔
      ∃ root, getProvedStateRoot bs.database = some root ∧
        (getParentOfNextToPropose bs.database = none ∨
          ∃ parentHash, getParentOfNextToPropose bs.database = some parentHash ∧
            firstCandidate bs.database parentHash = none) := by
  rw [TryGetNextProposalData_eq]
  cases h1 : getProvedStateRoot bs.database with
  | none => simp
  | some root =>
    cases h2 : getParentOfNextToPropose bs.database with
    | none => simp
    | some parentHash =>
      cases h3 : firstCandidate bs.database parentHash with
      | none => simp [h3]
      | some m =>
        cases h4 : env.ChildBlockIds m.Block with
        | error err => simp [h3, h4]
        | ok ids =>
          cases h5 : appendChildTransactions env bs.database ids
              (env.BlockTransactions m.Block) with
          | error err => simp [h3, h4, h5]
          | ok transactions => simp [h3, h4, h5]

/-- The table holds a candidate, in the words of the spec, exactly when the
frontier is set and the scan selects an entry. -/
theorem hasCandidate_iff (db : Store) :
    HasCandidate db ↔
      ∃ parentHash m, getParentOfNextToPropose db = some parentHash ∧
        firstCandidate db parentHash = some m := by
  constructor
  · rintro ⟨kv, hmem, hmain, hproved, hparent⟩
    refine ⟨kv.2.Block.ParentHash, ?_⟩
    cases hfirst : firstCandidate db kv.2.Block.ParentHash with
    | some m => exact ⟨m, hparent, rfl⟩
    | none =>
      have := (firstCandidate_none_iff db _).mp hfirst kv hmem
      simp [isValidProposalCandidate, hmain, hproved] at this
  · rintro ⟨parentHash, m, hparent, hfirst⟩
    obtain ⟨⟨key, hmem⟩, hcand⟩ := firstCandidate_some db parentHash m hfirst
    simp [isValidProposalCandidate] at hcand
    exact ⟨(key, m), hmem, hcand.1.1, hcand.1.2, by rw [hparent, hcand.2]⟩

/-! ## Child completeness -/

/-- A block is proposed although its child has no entry (against claim C4): in the
sample state in which `blockA1` was ingested without its child and proved, the
block references the child `idC1`, that child has no entry, and
`SetBlockAsProposed` succeeds. -/
theorem proposed_with_missing_child :
    getBlockEntry missingChildState.database idA1 = some entryA1 ∧
    sampleEnv.ChildBlockIds entryA1.Block = Except.ok [idC1] ∧
    getBlockEntry missingChildState.database idC1 = none ∧
    (SetBlockAsProposed sampleEnv missingChildState idA1).1 = Except.ok () :=
  ⟨rfl, rfl, rfl, rfl⟩

/-- Claim C4, amended. Child completeness is checked when the proposal is built and
not when it is committed: whenever `TryGetNextProposalData` returns a proposal,
every child id referenced by the main block it selected has an entry; and
`SetBlockAsProposed(id)` succeeds exactly when the entry under `id` exists, is a
main-shard block, is proved and matches `next_to_propose_parent`, and the child
ids of its block can be computed, whether or not those child ids have entries. -/
theorem child_completeness_at_selection (env : Env) (bs : BlockStorage) :
    (∀ p, TryGetNextProposalData env bs = Except.ok (some p) →
      ∃ parentHash m ids,
        getParentOfNextToPropose bs.database = some parentHash ∧
        firstCandidate bs.database parentHash = some m ∧
        p.MainShardBlockHash = m.Block.Hash ∧
        env.ChildBlockIds m.Block = Except.ok ids ∧
        ∀ childId ∈ ids, ∃ e, getBlockEntry bs.database childId = some e) ∧
    (∀ id, (SetBlockAsProposed env bs id).1 = Except.ok () ↔
      ∃ e ids, getBlockEntry bs.database id = some e ∧
        e.Block.ShardId = types.MainShardId ∧ e.IsProved = true ∧
        getParentOfNextToPropose bs.database = some e.Block.ParentHash ∧
        env.ChildBlockIds e.Block = Except.ok ids) := by
  constructor
  · intro p hp
    obtain ⟨root, parentHash, m, ids, transactions, _, h2, h3, h4, h5, h6⟩ :=
      (TryGetNextProposalData_some env bs p).mp hp
    exact ⟨parentHash, m, ids, h2, h3, by rw [h6], h4,
      appendChildTransactions_resolved env bs.database ids _ transactions h5⟩
  · intro id
    rw [SetBlockAsProposed_eq]
    simp only
    constructor
    · intro hok
      obtain ⟨e, ids, hentry, hval, hcbi, _⟩ := setBlockAsProposedImpl_ok env bs.database id hok
      obtain ⟨e', he', h1, h2, h3⟩ := (validateMainShardEntry_ok_iff _ _ _).mp hval
      cases he'
      exact ⟨e, ids, hentry, h1, h2, h3, hcbi⟩
    · rintro ⟨e, ids, hentry, h1, h2, h3, hcbi⟩
      exact setBlockAsProposedImpl_ok_of env bs.database id e ids hentry
        ((validateMainShardEntry_ok_iff _ _ _).mpr ⟨e, rfl, h1, h2, h3⟩) hcbi

/-- The amended claim C4 at the sample state in which `blockA1` and its child are
stored and `blockA1` is proved: a proposal is returned, so the child resolves. -/
theorem child_completeness_at_selection_witness :
    (∃ p, TryGetNextProposalData sampleEnv provedState = Except.ok (some p)) ∧
    ∃ ids, sampleEnv.ChildBlockIds blockA1 = Except.ok ids ∧
      ∀ childId ∈ ids, ∃ e, getBlockEntry provedState.database childId = some e := by
  refine ⟨⟨_, rfl⟩, ?_⟩
  obtain ⟨parentHash, m, ids, h1, h2, _, h4, h5⟩ :=
    (child_completeness_at_selection sampleEnv provedState).1 _ rfl
  have hparent : parentHash = 0xA0 := by
    have : getParentOfNextToPropose provedState.database = some 0xA0 := rfl
    rw [this] at h1
    exact (Option.some.inj h1).symm
  subst hparent
  have hm : m = entryA1 := by
    have : firstCandidate provedState.database 0xA0 = some entryA1 := rfl
    rw [this] at h2
    exact (Option.some.inj h2).symm
  subst hm
  exact ⟨ids, h4, h5⟩

/-! ## The state root -/

/-- The state root becomes the all-zero hash (against claim C5): starting from the
empty storage, the state root is seeded, a main-shard block whose
`ChildBlocksRootHash` is the all-zero hash is ingested, proved and proposed;
every call succeeds and the `state_root` table then holds the all-zero hash. -/
theorem state_root_empty_after_proposal :
    Reachable sampleEnv (runOps sampleEnv BlockStorage.empty proposeBlockZ) ∧
    (SetBlockAsProposed sampleEnv
      (runOps sampleEnv BlockStorage.empty
        [Op.SetProvedStateRoot 0x11,
          Op.SetBlockBatch (some { Id := 1, MainShardBlock := blockZ, ChildBlocks := [] })
            (constTimer 5),
          Op.SetBlockAsProved ⟨0, 0xA1⟩]) ⟨0, 0xA1⟩).1 = Except.ok () ∧
    TryGetProvedStateRoot (runOps sampleEnv BlockStorage.empty proposeBlockZ) =
      Except.ok (some common.EmptyHash) :=
  ⟨Reachable.runOps sampleEnv _ _ Reachable.empty, rfl, rfl⟩

/-! ## Selecting the next proposal: the contract -/

/-- A candidate exists and no proposal is returned (against claim C6): in the
sample state in which `blockA1` is stored and proved and matches the frontier,
but the state root was never seeded, `TryGetNextProposalData` fails. -/
theorem candidate_without_proposal :
    ((idA1, entryA1) ∈ unseededState.database.blocks ∧
      entryA1.Block.ShardId = types.MainShardId ∧ entryA1.IsProved = true ∧
      getParentOfNextToPropose unseededState.database = some entryA1.Block.ParentHash) ∧
    TryGetNextProposalData sampleEnv unseededState =
      Except.error Error.stateRootNotInitialized :=
  ⟨⟨by decide, rfl, rfl, rfl⟩, rfl⟩

/-- Claim C6, amended. For every storage state: `TryGetNextProposalData` returns a
proposal only if some entry of the `blocks` table is a main-shard block, is
proved and has the parent hash `next_to_propose_parent`; it returns none without
error exactly when the state root is seeded and there is no such entry; and when
the state root is seeded and there is such an entry, it returns a proposal
exactly when the child ids of the first such entry in scan order can be computed
and all have entries. -/
theorem TryGetNextProposalData_some_iff (env : Env) (bs : BlockStorage) :
    ((∃ p, TryGetNextProposalData env bs = Except.ok (some p)) → HasCandidate bs.database) ∧
    (TryGetNextProposalData env bs = Except.ok none ↔
      (∃ root, getProvedStateRoot bs.database = some root) ∧ ¬ HasCandidate bs.database) ∧
    (∀ root, getProvedStateRoot bs.database = some root → HasCandidate bs.database →
      ∃ parentHash m, getParentOfNextToPropose bs.database = some parentHash ∧
        firstCandidate bs.database parentHash = some m ∧
        ((∃ p, TryGetNextProposalData env bs = Except.ok (some p)) ↔
          ∃ ids, env.ChildBlockIds m.Block = Except.ok ids ∧
            ∀ childId ∈ ids, ∃ e, getBlockEntry bs.database childId = some e)) := by
  refine ⟨?_, ?_, ?_⟩
  · rintro ⟨p, hp⟩
    obtain ⟨root, parentHash, m, ids, transactions, _, h2, h3, _⟩ :=
      (TryGetNextProposalData_some env bs p).mp hp
    exact (hasCandidate_iff bs.database).mpr ⟨parentHash, m, h2, h3⟩
  · rw [TryGetNextProposalData_none, hasCandidate_iff]
    constructor
    · rintro ⟨root, hroot, h⟩
      refine ⟨⟨root, hroot⟩, ?_⟩
      rintro ⟨parentHash, m, hparent, hfirst⟩
      rcases h with h | ⟨parentHash', hparent', hnone⟩
      · rw [h] at hparent; cases hparent
      · rw [hparent'] at hparent
        cases hparent
        rw [hnone] at hfirst
        cases hfirst
    · rintro ⟨⟨root, hroot⟩, hno⟩
      refine ⟨root, hroot, ?_⟩
      cases hparent : getParentOfNextToPropose bs.database with
      | none => exact Or.inl rfl
      | some parentHash =>
        refine Or.inr ⟨parentHash, rfl, ?_⟩
        cases hfirst : firstCandidate bs.database parentHash with
        | none => rfl
        | some m => exact absurd ⟨parentHash, m, hparent, hfirst⟩ hno
  · intro root hroot hcand
    obtain ⟨parentHash, m, hparent, hfirst⟩ := (hasCandidate_iff bs.database).mp hcand
    refine ⟨parentHash, m, hparent, hfirst, ?_⟩
    constructor
    · rintro ⟨p, hp⟩
      obtain ⟨root', parentHash', m', ids, transactions, _, h2, h3, h4, h5, _⟩ :=
        (TryGetNextProposalData_some env bs p).mp hp
      rw [hparent] at h2
      cases h2
      rw [hfirst] at h3
      cases h3
      exact ⟨ids, h4, appendChildTransactions_resolved env bs.database ids _ transactions h5⟩
    · rintro ⟨ids, hids, hall⟩
      obtain ⟨transactions, ht⟩ :=
        appendChildTransactions_ok_of env bs.database ids (env.BlockTransactions m.Block) hall
      exact ⟨_, (TryGetNextProposalData_some env bs _).mpr
        ⟨root, parentHash, m, ids, transactions, hroot, hparent, hfirst, hids, ht, rfl⟩⟩

/-- The amended claim C6 at the sample state in which `blockA1` and its child are
stored and `blockA1` is proved: a proposal is returned, so a candidate exists. -/
theorem TryGetNextProposalData_some_iff_witness :
    (∃ p, TryGetNextProposalData sampleEnv provedState = Except.ok (some p)) ∧
    HasCandidate provedState.database :=
  ⟨⟨_, rfl⟩, (TryGetNextProposalData_some_iff sampleEnv provedState).1 ⟨_, rfl⟩⟩

/-- Claim C7. Whenever `TryGetNextProposalData` returns a proposal `p`, there is a
selected main entry `m`, an entry of the `blocks` table that is a valid
candidate for the frontier, such that the transactions of `p` are those of `m`
followed by those of its child entries in the order of the child ids of `m`, the
main hash of `p` is the hash of `m`, the old state root is the stored state
root, the new state root is the `ChildBlocksRootHash` of `m`, and the fetch time
is that of `m`. -/
theorem TryGetNextProposalData_contents (env : Env) (bs : BlockStorage) (p : ProposalData)
    (hp : TryGetNextProposalData env bs = Except.ok (some p)) :
    ∃ root parentHash m ids children,
      getProvedStateRoot bs.database = some root ∧
      getParentOfNextToPropose bs.database = some parentHash ∧
      (∃ key, (key, m) ∈ bs.database.blocks) ∧
      isValidProposalCandidate m parentHash = true ∧
      firstCandidate bs.database parentHash = some m ∧
      env.ChildBlockIds m.Block = Except.ok ids ∧
      ids.map (getBlockEntry bs.database) = children.map some ∧
      p.Transactions = env.BlockTransactions m.Block ++ concatTransactions env children ∧
      p.MainShardBlockHash = m.Block.Hash ∧
      p.OldProvedStateRoot = root ∧
      p.NewProvedStateRoot = m.Block.ChildBlocksRootHash ∧
      p.MainBlockFetchedAt = m.FetchedAt := by
  obtain ⟨root, parentHash, m, ids, transactions, h1, h2, h3, h4, h5, h6⟩ :=
    (TryGetNextProposalData_some env bs p).mp hp
  obtain ⟨children, hmap, htx⟩ := (appendChildTransactions_ok_iff env bs.database ids _ _).mp h5
  obtain ⟨hmem, hcand⟩ := firstCandidate_some bs.database parentHash m h3
  refine ⟨root, parentHash, m, ids, children, h1, h2, hmem, hcand, h3, h4, hmap, ?_, ?_, ?_, ?_, ?_⟩
  · rw [h6, htx]
  · rw [h6]
  · rw [h6]
  · rw [h6]
  · rw [h6]

/-- The contract of claim C7 at the sample state in which `blockA1` and its child
are stored and `blockA1` is proved: the proposal lists the transactions of
`blockA1` and then those of `blockC1`. -/
theorem TryGetNextProposalData_contents_witness :
    TryGetNextProposalData sampleEnv provedState =
      Except.ok (some
        { MainShardBlockHash := 0xA1, Transactions := [1, 2, 3], OldProvedStateRoot := 0x11,
          NewProvedStateRoot := 0x22, MainBlockFetchedAt := 5 }) ∧
    ∃ root parentHash m ids children,
      getProvedStateRoot provedState.database = some root ∧
      getParentOfNextToPropose provedState.database = some parentHash ∧
      (∃ key, (key, m) ∈ provedState.database.blocks) ∧
      isValidProposalCandidate m parentHash = true ∧
      firstCandidate provedState.database parentHash = some m ∧
      sampleEnv.ChildBlockIds m.Block = Except.ok ids ∧
      ids.map (getBlockEntry provedState.database) = children.map some ∧
      [1, 2, 3] = sampleEnv.BlockTransactions m.Block ++ concatTransactions sampleEnv children ∧
      0xA1 = m.Block.Hash ∧
      0x11 = root ∧
      0x22 = m.Block.ChildBlocksRootHash ∧
      5 = m.FetchedAt :=
  ⟨rfl, TryGetNextProposalData_contents sampleEnv provedState
    { MainShardBlockHash := 0xA1, Transactions := [1, 2, 3], OldProvedStateRoot := 0x11,
      NewProvedStateRoot := 0x22, MainBlockFetchedAt := 5 } rfl⟩

/-- A matching entry lacks a child and a proposal is returned all the same
(against claim C8): in the sample state with the two proved main-shard entries of
`blockS` and `blockT`, both of parent hash `0xA1`, the frontier, the state root is
seeded, the entry of `blockT` matches the frontier and its child has no entry,
and `TryGetNextProposalData` returns the proposal of `blockS`, which the scan
meets first. -/
theorem missing_child_not_selected :
    twoCandidatesState.database =
      { blocks := [(⟨0, 0xA1⟩, entryS), (⟨0, 0xB1⟩, entryT)],
        latestFetched := some { Hash := 0xB1, ParentHash := 0xA1, Number := 2, ShardId := 0 },
        stateRoot := some 0x11,
        nextToPropose := some 0xA1 } ∧
    (entryT.Block.ShardId = types.MainShardId ∧ entryT.IsProved = true ∧
      getParentOfNextToPropose twoCandidatesState.database = some entryT.Block.ParentHash) ∧
    sampleEnv.ChildBlockIds entryT.Block = Except.ok [⟨1, 0xD1⟩] ∧
    getBlockEntry twoCandidatesState.database ⟨1, 0xD1⟩ = none ∧
    TryGetNextProposalData sampleEnv twoCandidatesState =
      Except.ok (some
        { MainShardBlockHash := 0xA1, Transactions := [1], OldProvedStateRoot := 0x11,
          NewProvedStateRoot := 0x22, MainBlockFetchedAt := 5 }) :=
  ⟨rfl, ⟨rfl, rfl, rfl⟩, rfl, rfl, rfl⟩

/-- Claim C8, amended. If the state root is seeded and the entry that the scan
selects, the first proved main-shard entry in scan order whose parent hash is
`next_to_propose_parent`, references a child id that has no entry in `blocks`,
then `TryGetNextProposalData` fails with the error that names a missing child;
it returns neither a proposal nor none. -/
theorem TryGetNextProposalData_missing_child (env : Env) (bs : BlockStorage)
    (root parentHash : common.Hash) (m : blockEntry) (ids : List BlockId)
    (hroot : getProvedStateRoot bs.database = some root)
    (hparent : getParentOfNextToPropose bs.database = some parentHash)
    (hfirst : firstCandidate bs.database parentHash = some m)
    (hids : env.ChildBlockIds m.Block = Except.ok ids)
    (hmissing : ∃ childId ∈ ids, getBlockEntry bs.database childId = none) :
    ∃ childId ∈ ids, getBlockEntry bs.database childId = none ∧
      TryGetNextProposalData env bs = Except.error (Error.childBlockNotFound childId) := by
  obtain ⟨c, hc, hnone, herr⟩ :=
    appendChildTransactions_missing env bs.database ids (env.BlockTransactions m.Block) hmissing
  refine ⟨c, hc, hnone, ?_⟩
  rw [TryGetNextProposalData_eq]
  simp only [hroot, hparent, hfirst, hids, herr]

/-- The amended claim C8 at the sample state in which `blockA1` was ingested
without its child and proved: the call fails and names the child `idC1`. -/
theorem TryGetNextProposalData_missing_child_witness :
    TryGetNextProposalData sampleEnv missingChildState =
      Except.error (Error.childBlockNotFound idC1) ∧
    ∃ childId ∈ [idC1], getBlockEntry missingChildState.database childId = none ∧
      TryGetNextProposalData sampleEnv missingChildState =
        Except.error (Error.childBlockNotFound childId) :=
  ⟨rfl, TryGetNextProposalData_missing_child sampleEnv missingChildState 0x11 0xA0 entryA1
    [idC1] rfl rfl rfl rfl ⟨idC1, by simp, rfl⟩⟩

/-- Claim C9. Whenever the `state_root` table is empty `TryGetNextProposalData`
fails, whatever the other tables hold; when the state root is seeded and
`next_to_propose_parent` is unset it returns none without error. -/
theorem TryGetNextProposalData_uninitialized (env : Env) (bs : BlockStorage) :
    (getProvedStateRoot bs.database = none →
      TryGetNextProposalData env bs = Except.error Error.stateRootNotInitialized) ∧
    (∀ root, getProvedStateRoot bs.database = some root →
      getParentOfNextToPropose bs.database = none →
      TryGetNextProposalData env bs = Except.ok none) := by
  constructor
  · intro h
    rw [TryGetNextProposalData_eq]
    simp only [h]
  · intro root hroot hparent
    rw [TryGetNextProposalData_eq]
    simp only [hroot, hparent]

/-- The contract of claim C9 at two sample states: one that holds a proved block
but no state root, and one that holds a state root and nothing else. -/
theorem TryGetNextProposalData_uninitialized_witness :
    (getProvedStateRoot unseededState.database = none ∧
      TryGetNextProposalData sampleEnv unseededState =
        Except.error Error.stateRootNotInitialized) ∧
    (getProvedStateRoot rootOnlyState.database = some 0x11 ∧
      getParentOfNextToPropose rootOnlyState.database = none ∧
      TryGetNextProposalData sampleEnv rootOnlyState = Except.ok none) :=
  ⟨⟨rfl, (TryGetNextProposalData_uninitialized sampleEnv unseededState).1 rfl⟩,
    ⟨rfl, rfl, (TryGetNextProposalData_uninitialized sampleEnv rootOnlyState).2 0x11 rfl rfl⟩⟩

/-! ## Marking a block as proved: idempotence -/

/-- Claim C10. When a call of `SetBlockAsProved(id)` has succeeded, a second call
right after it finds the flag set: `setBlockAsProvedImpl` reports `wasSet = false`
without error, and the call returns success and leaves the storage, the four
tables and the count of the metrics sink, exactly as the first call left it. -/
theorem SetBlockAsProved_idempotent (bs : BlockStorage) (id : BlockId)
    (hfirst : (SetBlockAsProved bs id).1 = Except.ok ()) :
    setBlockAsProvedImpl (SetBlockAsProved bs id).2.database id =
        (Except.ok false, (SetBlockAsProved bs id).2.database) ∧
      SetBlockAsProved (SetBlockAsProved bs id).2 id =
        (Except.ok (), (SetBlockAsProved bs id).2) := by
  cases hentry : getBlockEntry bs.database id with
  | none =>
    rw [SetBlockAsProved_missing bs id hentry] at hfirst
    cases hfirst
  | some entry =>
    have key : ∀ bs' : BlockStorage, ∀ e : blockEntry,
        getBlockEntry bs'.database id = some e → e.IsProved = true →
        setBlockAsProvedImpl bs'.database id = (Except.ok false, bs'.database) ∧
          SetBlockAsProved bs' id = (Except.ok (), bs') := by
      intro bs' e he hpe
      exact ⟨by simp [setBlockAsProvedImpl, he, hpe], SetBlockAsProved_proved bs' id e he hpe⟩
    cases hp : entry.IsProved
    · rw [SetBlockAsProved_unproved bs id entry hentry hp]
      exact key _ { entry with IsProved := true }
        (by simp only [getBlockEntry]; exact tableGet_tablePut_self _ _ _) rfl
    · rw [SetBlockAsProved_proved bs id entry hentry hp]
      exact key bs entry hentry hp

/-- The contract of claim C10 at the sample state in which `blockA1` is fetched
and not yet proved: the first call sets the flag and notifies the metrics sink,
the second changes nothing. -/
theorem SetBlockAsProved_idempotent_witness :
    (SetBlockAsProved fetchedState idA1).1 = Except.ok () ∧
    (SetBlockAsProved fetchedState idA1).2.metrics = fetchedState.metrics + 1 ∧
    setBlockAsProvedImpl (SetBlockAsProved fetchedState idA1).2.database idA1 =
        (Except.ok false, (SetBlockAsProved fetchedState idA1).2.database) ∧
      SetBlockAsProved (SetBlockAsProved fetchedState idA1).2 idA1 =
        (Except.ok (), (SetBlockAsProved fetchedState idA1).2) :=
  ⟨rfl, rfl, SetBlockAsProved_idempotent fetchedState idA1 rfl⟩

/-! ## Marking a block as proved: frame and metrics -/

theorem tablePut_keys_of_get {κ ν : Type} [DecidableEq κ] (t : Table κ ν) (key : κ)
    (old value : ν) (h : tableGet t key = some old) :
    (tablePut t key value).map Prod.fst = t.map Prod.fst := by
  induction t with
  | nil => simp [tableGet] at h
  | cons kv rest ih =>
    obtain ⟨k, v⟩ := kv
    by_cases hk : k = key
    · simp [tablePut, hk]
    · simp only [tableGet, hk, if_false] at h
      simp [tablePut, hk, ih h]

/-- Claim C11. `SetBlockAsProved(id)` fails and leaves the storage as it was when
there is no entry under `id`.  When the entry under `id` is not proved the call
succeeds, and afterwards the entry under `id` is proved and has the block, the
batch id and the fetch time it had; every other identifier has the entry it had
and the table has the keys it had, in the same order; and the `latest_fetched`,
`state_root` and `next_to_propose_parent` tables are unchanged. -/
theorem SetBlockAsProved_frame (bs : BlockStorage) (id : BlockId) :
    (getBlockEntry bs.database id = none →
      SetBlockAsProved bs id = (Except.error (Error.blockNotFound id), bs)) ∧
    (∀ entry, getBlockEntry bs.database id = some entry → entry.IsProved = false →
      (SetBlockAsProved bs id).1 = Except.ok () ∧
      (∃ updated, getBlockEntry (SetBlockAsProved bs id).2.database id = some updated ∧
        updated.IsProved = true ∧ updated.Block = entry.Block ∧
        updated.BatchId = entry.BatchId ∧ updated.FetchedAt = entry.FetchedAt) ∧
      (∀ other, other ≠ id →
        getBlockEntry (SetBlockAsProved bs id).2.database other =
          getBlockEntry bs.database other) ∧
      (SetBlockAsProved bs id).2.database.blocks.map Prod.fst =
        bs.database.blocks.map Prod.fst ∧
      (SetBlockAsProved bs id).2.database.latestFetched = bs.database.latestFetched ∧
      (SetBlockAsProved bs id).2.database.stateRoot = bs.database.stateRoot ∧
      (SetBlockAsProved bs id).2.database.nextToPropose = bs.database.nextToPropose) := by
  constructor
  · exact SetBlockAsProved_missing bs id
  · intro entry hentry hp
    rw [SetBlockAsProved_unproved bs id entry hentry hp]
    refine ⟨rfl, ⟨{ entry with IsProved := true }, ?_, rfl, rfl, rfl, rfl⟩, ?_, ?_, rfl, rfl, rfl⟩
    · simp only [getBlockEntry]
      exact tableGet_tablePut_self _ _ _
    · intro other hne
      simp only [getBlockEntry]
      exact tableGet_tablePut_ne _ _ _ _ hne
    · exact tablePut_keys_of_get _ _ entry _ hentry

/-- The contract of claim C11 at two sample states: the empty storage, where the
call fails, and the state in which `blockA1` is fetched and not yet proved. -/
theorem SetBlockAsProved_frame_witness :
    SetBlockAsProved BlockStorage.empty idA1 =
      (Except.error (Error.blockNotFound idA1), BlockStorage.empty) ∧
    ((SetBlockAsProved fetchedState idA1).1 = Except.ok () ∧
      (∃ updated, getBlockEntry (SetBlockAsProved fetchedState idA1).2.database idA1 =
          some updated ∧
        updated.IsProved = true ∧ updated.Block = blockA1 ∧
        updated.BatchId = 7 ∧ updated.FetchedAt = 5) ∧
      (∀ other, other ≠ idA1 →
        getBlockEntry (SetBlockAsProved fetchedState idA1).2.database other =
          getBlockEntry fetchedState.database other) ∧
      (SetBlockAsProved fetchedState idA1).2.database.blocks.map Prod.fst =
        fetchedState.database.blocks.map Prod.fst ∧
      (SetBlockAsProved fetchedState idA1).2.database.latestFetched =
        fetchedState.database.latestFetched ∧
      (SetBlockAsProved fetchedState idA1).2.database.stateRoot =
        fetchedState.database.stateRoot ∧
      (SetBlockAsProved fetchedState idA1).2.database.nextToPropose =
        fetchedState.database.nextToPropose) :=
  ⟨(SetBlockAsProved_frame BlockStorage.empty idA1).1 rfl,
    (SetBlockAsProved_frame fetchedState idA1).2
      { Block := blockA1, IsProved := false, BatchId := 7, FetchedAt := 5 } rfl rfl⟩

/-- Claim C12. `SetBlockAsProved(id)` notifies the metrics sink exactly once when
the entry under `id` was not proved: the call succeeds, the entry is proved
afterwards and the count of notifications has grown by one.  In every other case,
a missing entry or an entry that is proved already, the storage and the count are
as they were; in particular a call that returns an error notifies nothing. -/
theorem SetBlockAsProved_metrics (bs : BlockStorage) (id : BlockId) :
    ((∃ entry, getBlockEntry bs.database id = some entry ∧ entry.IsProved = false) →
      (SetBlockAsProved bs id).1 = Except.ok () ∧
      (SetBlockAsProved bs id).2.metrics = bs.metrics + 1 ∧
      ∃ updated, getBlockEntry (SetBlockAsProved bs id).2.database id = some updated ∧
        updated.IsProved = true) ∧
    ((¬ ∃ entry, getBlockEntry bs.database id = some entry ∧ entry.IsProved = false) →
      (SetBlockAsProved bs id).2 = bs) ∧
    (∀ err, (SetBlockAsProved bs id).1 = Except.error err →
      (SetBlockAsProved bs id).2.metrics = bs.metrics) := by
  refine ⟨?_, ?_, ?_⟩
  · rintro ⟨entry, hentry, hp⟩
    rw [SetBlockAsProved_unproved bs id entry hentry hp]
    refine ⟨rfl, rfl, { entry with IsProved := true }, ?_, rfl⟩
    simp only [getBlockEntry]
    exact tableGet_tablePut_self _ _ _
  · intro hno
    cases hentry : getBlockEntry bs.database id with
    | none => rw [SetBlockAsProved_missing bs id hentry]
    | some entry =>
      cases hp : entry.IsProved
      · exact absurd ⟨entry, hentry, hp⟩ hno
      · rw [SetBlockAsProved_proved bs id entry hentry hp]
  · intro err herr
    cases hentry : getBlockEntry bs.database id with
    | none => rw [SetBlockAsProved_missing bs id hentry]
    | some entry =>
      cases hp : entry.IsProved
      · rw [SetBlockAsProved_unproved bs id entry hentry hp] at herr
        cases herr
      · rw [SetBlockAsProved_proved bs id entry hentry hp]

/-- The contract of claim C12 at three sample states: with `blockA1` fetched and
not proved the sink is notified once; with `blockA1` proved already, and with no
entry at all, it is not notified. -/
theorem SetBlockAsProved_metrics_witness :
    (SetBlockAsProved fetchedState idA1).2.metrics = fetchedState.metrics + 1 ∧
    (SetBlockAsProved provedState idA1).2 = provedState ∧
    (SetBlockAsProved BlockStorage.empty idA1).2.metrics = BlockStorage.empty.metrics :=
  ⟨((SetBlockAsProved_metrics fetchedState idA1).1
      ⟨{ Block := blockA1, IsProved := false, BatchId := 7, FetchedAt := 5 }, rfl, rfl⟩).2.1,
    (SetBlockAsProved_metrics provedState idA1).2.1 (by
      rintro ⟨entry, hentry, hp⟩
      have : getBlockEntry provedState.database idA1 = some entryA1 := rfl
      rw [this] at hentry
      cases hentry
      cases hp),
    (SetBlockAsProved_metrics BlockStorage.empty idA1).2.2 (Error.blockNotFound idA1) rfl⟩

/-! ## Lemmas on the frontier and the latest reference -/

theorem setBlockBatchImpl_eq (timer : Nat → Time) (db : Store) (batch : BlockBatch) :
    setBlockBatchImpl timer db batch =
      match setProposeParentHash (batchWritten timer db batch) batch.MainShardBlock with
      | Except.error err => (Except.error err, db)
      | Except.ok tx =>
        match updateLatestFetched tx batch.MainShardBlock with
        | Except.error err => (Except.error err, db)
        | Except.ok tx => (Except.ok (), tx) :=
  rfl

theorem batchWritten_fields (timer : Nat → Time) (db : Store) (batch : BlockBatch) :
    (batchWritten timer db batch).latestFetched = db.latestFetched ∧
      (batchWritten timer db batch).stateRoot = db.stateRoot ∧
      (batchWritten timer db batch).nextToPropose = db.nextToPropose := by
  have h1 := putChildBlocks_fields timer batch.Id
    (putBlockTx db (timer 0) batch.Id batch.MainShardBlock) 1 batch.ChildBlocks
  have h2 := putBlockTx_fields db (timer 0) batch.Id batch.MainShardBlock
  exact ⟨h1.1.trans h2.1, h1.2.1.trans h2.2.1, h1.2.2.trans h2.2.2⟩

theorem setProposeParentHash_of_set (tx : Store) (block : RPCBlock) (h : common.Hash)
    (hset : tx.nextToPropose = some h) : setProposeParentHash tx block = Except.ok tx := by
  unfold setProposeParentHash getParentOfNextToPropose
  split
  · rfl
  · simp [hset]

theorem setProposeParentHash_of_not_main (tx : Store) (block : RPCBlock)
    (h : block.ShardId ≠ types.MainShardId) : setProposeParentHash tx block = Except.ok tx := by
  simp [setProposeParentHash, h]

theorem setProposeParentHash_of_unset (tx : Store) (block : RPCBlock)
    (hmain : block.ShardId = types.MainShardId) (hunset : tx.nextToPropose = none) :
    setProposeParentHash tx block =
      if block.Number > 0 ∧ block.ParentHash = common.EmptyHash then
        Except.error (Error.emptyParentHash block.Hash)
      else Except.ok { tx with nextToPropose := some block.ParentHash } := by
  simp [setProposeParentHash, getParentOfNextToPropose, hmain, hunset, common.Hash.Empty,
    setParentOfNextToPropose]

theorem setProposeParentHash_error (tx : Store) (block : RPCBlock) (err : Error)
    (h : setProposeParentHash tx block = Except.error err) :
    err = Error.emptyParentHash block.Hash := by
  unfold setProposeParentHash at h
  split at h
  · simp at h
  · split at h
    · simp at h
    · split at h
      · simp at h
        exact h.symm
      · simp at h

theorem setProposeParentHash_latestFetched (tx tx' : Store) (block : RPCBlock)
    (h : setProposeParentHash tx block = Except.ok tx') :
    tx'.latestFetched = tx.latestFetched :=
  (setProposeParentHash_blocks tx tx' block h).2.1

theorem updateLatestFetched_error (tx : Store) (block : RPCBlock) (err : Error)
    (h : updateLatestFetched tx block = Except.error err) : err = Error.blockMismatch := by
  unfold updateLatestFetched at h
  split at h
  · simp at h
  · simp only at h
    split at h
    · simp at h
    · split at h
      · rename_i e hv
        simp at h
        subst h
        unfold MainBlockRef.ValidateChild at hv
        split at hv
        · simp at hv
        · split at hv
          · simp at hv
          · simp at hv
            exact hv.symm
      · simp [NewBlockRef] at h

theorem updateLatestFetched_of_not_main (tx : Store) (block : RPCBlock)
    (h : block.ShardId ≠ types.MainShardId) : updateLatestFetched tx block = Except.ok tx := by
  simp [updateLatestFetched, h]

theorem updateLatestFetched_of_equals (tx : Store) (block : RPCBlock)
    (h : MainBlockRef.Equals tx.latestFetched block = true) :
    updateLatestFetched tx block = Except.ok tx := by
  unfold updateLatestFetched getLatestFetchedMainTx
  split
  · rfl
  · simp [h]

theorem updateLatestFetched_of_main (tx : Store) (block : RPCBlock)
    (hmain : block.ShardId = types.MainShardId)
    (hne : MainBlockRef.Equals tx.latestFetched block = false) :
    updateLatestFetched tx block =
      match MainBlockRef.ValidateChild tx.latestFetched block with
      | Except.error err => Except.error err
      | Except.ok _ =>
        Except.ok { tx with latestFetched := some (MainBlockRef.mk block.Hash block.ParentHash
          block.Number block.ShardId) } := by
  simp only [updateLatestFetched, getLatestFetchedMainTx, hmain, hne, ne_eq, not_true_eq_false,
    if_false, NewBlockRef, putLatestFetchedBlockTx]
  cases MainBlockRef.ValidateChild tx.latestFetched block <;> simp

/-- The failures of one attempt of a batch: the frontier cannot be seeded
because the parent hash is empty, or the block does not extend the latest one. -/
theorem setBlockBatchImpl_error (timer : Nat → Time) (db : Store) (batch : BlockBatch)
    (err : Error) (h : (setBlockBatchImpl timer db batch).1 = Except.error err) :
    err = Error.blockMismatch ∨ err = Error.emptyParentHash batch.MainShardBlock.Hash := by
  rw [setBlockBatchImpl_eq] at h
  cases h1 : setProposeParentHash (batchWritten timer db batch) batch.MainShardBlock with
  | error e =>
    rw [h1] at h
    simp at h
    subst h
    exact Or.inr (setProposeParentHash_error _ _ _ h1)
  | ok tx1 =>
    rw [h1] at h
    cases h2 : updateLatestFetched tx1 batch.MainShardBlock with
    | error e =>
      simp [h2] at h
      subst h
      exact Or.inl (updateLatestFetched_error _ _ _ h2)
    | ok tx2 => simp [h2] at h

/-- The singleton tables after a call of `SetBlockBatch`: the state root and the
metrics count are as before, and so is a frontier that was set. -/
theorem SetBlockBatch_fields (env : Env) (bs : BlockStorage) (batch : Option BlockBatch)
    (timer : Nat → Time) :
    (SetBlockBatch env bs batch timer).2.database.stateRoot = bs.database.stateRoot ∧
      (SetBlockBatch env bs batch timer).2.metrics = bs.metrics ∧
      (∀ h, bs.database.nextToPropose = some h →
        (SetBlockBatch env bs batch timer).2.database.nextToPropose = some h) := by
  cases batch with
  | none => exact ⟨rfl, rfl, fun h hh => hh⟩
  | some batch =>
    obtain ⟨a, ha⟩ := SetBlockBatch_eq_attempt env bs batch timer
    rw [ha]
    simp only
    cases hres : (setBlockBatchImpl (attemptTimer timer batch a) bs.database batch).1 with
    | error err =>
      rw [setBlockBatchImpl_error_store _ _ _ err hres]
      exact ⟨rfl, trivial, fun h hh => hh⟩
    | ok u =>
      refine ⟨?_, trivial, ?_⟩
      · rw [(setBlockBatchImpl_ok _ _ _ hres).2]
        exact (putChildBlocks_fields _ _ _ _ _).2.1.trans (putBlockTx_fields _ _ _ _).2.1
      · intro h hh
        have hw := batchWritten_fields (attemptTimer timer batch a) bs.database batch
        have hset : (batchWritten (attemptTimer timer batch a) bs.database batch).nextToPropose =
            some h := hw.2.2.trans hh
        rw [setBlockBatchImpl_eq, setProposeParentHash_of_set _ _ h hset] at hres ⊢
        simp only at hres ⊢
        cases h2 : updateLatestFetched (batchWritten (attemptTimer timer batch a) bs.database batch)
            batch.MainShardBlock with
        | error e => rw [h2] at hres; simp at hres
        | ok tx2 =>
          simp only
          rw [(updateLatestFetched_blocks _ _ _ h2).2.2]
          exact hset

/-! ## Ingesting a batch: atomicity and the frontier -/

/-- Claim C14. Whenever `SetBlockBatch` fails, the storage, all four tables, is
exactly as before the call; and the failure is the nil batch, the block mismatch
of the linearity check, or the empty parent hash of a block whose number is
positive.  The entries of the batch and the frontier seed are written to the
working copy of the transaction only, which a failed call drops. -/
theorem SetBlockBatch_atomic (env : Env) (bs : BlockStorage) (batch : Option BlockBatch)
    (timer : Nat → Time) (err : Error)
    (h : (SetBlockBatch env bs batch timer).1 = Except.error err) :
    (SetBlockBatch env bs batch timer).2 = bs ∧
      (err = Error.batchNil ∨ err = Error.blockMismatch ∨
        ∃ hash, err = Error.emptyParentHash hash) := by
  cases batch with
  | none =>
    simp only [SetBlockBatch, SetBlockBatchOn] at h ⊢
    simp only [Except.error.injEq] at h
    exact ⟨trivial, Or.inl h.symm⟩
  | some batch =>
    obtain ⟨a, ha⟩ := SetBlockBatch_eq_attempt env bs batch timer
    rw [ha] at h ⊢
    simp only at h ⊢
    rw [setBlockBatchImpl_error_store _ _ _ err h]
    refine ⟨rfl, Or.inr ?_⟩
    rcases setBlockBatchImpl_error _ _ _ err h with h1 | h1
    · exact Or.inl h1
    · exact Or.inr ⟨_, h1⟩

/-- The contract of claim C14 at the sample state in which `blockA1` is fetched,
for a batch whose main block does not extend it: the call fails with the block
mismatch and the storage is as before, although the working copy of the
transaction held the entry of the new block. -/
theorem SetBlockBatch_atomic_witness :
    (SetBlockBatch sampleEnv fetchedState (some batchMismatch) (constTimer 6)).1 =
      Except.error Error.blockMismatch ∧
    getBlockEntry (batchWritten (constTimer 6) fetchedState.database batchMismatch) ⟨0, 0xB1⟩ ≠
      none ∧
    getBlockEntry fetchedState.database ⟨0, 0xB1⟩ = none ∧
    ((SetBlockBatch sampleEnv fetchedState (some batchMismatch) (constTimer 6)).2 =
        fetchedState ∧
      (Error.blockMismatch = Error.batchNil ∨ Error.blockMismatch = Error.blockMismatch ∨
        ∃ hash, Error.blockMismatch = Error.emptyParentHash hash)) :=
  ⟨rfl, by decide, rfl,
    SetBlockBatch_atomic sampleEnv fetchedState (some batchMismatch) (constTimer 6)
      Error.blockMismatch rfl⟩

/-- Claim C17. For a batch whose main block is a main-shard block: a successful
`SetBlockBatch` on a storage whose `next_to_propose_parent` is unset stores the
parent hash of the main block there; on such a storage the call fails when the
main block has a positive number and an empty parent hash; and when
`next_to_propose_parent` is set, no call of `SetBlockBatch` changes it. -/
theorem SetBlockBatch_frontier (env : Env) (bs : BlockStorage) (batch : BlockBatch)
    (timer : Nat → Time) (hmain : batch.MainShardBlock.ShardId = types.MainShardId) :
    (bs.database.nextToPropose = none →
      (SetBlockBatch env bs (some batch) timer).1 = Except.ok () →
      (SetBlockBatch env bs (some batch) timer).2.database.nextToPropose =
        some batch.MainShardBlock.ParentHash) ∧
    (bs.database.nextToPropose = none →
      batch.MainShardBlock.Number > 0 →
      batch.MainShardBlock.ParentHash = common.EmptyHash →
      (SetBlockBatch env bs (some batch) timer).1 =
        Except.error (Error.emptyParentHash batch.MainShardBlock.Hash)) ∧
    (∀ (any : Option BlockBatch) (anyTimer : Nat → Time) (h : common.Hash),
      bs.database.nextToPropose = some h →
      (SetBlockBatch env bs any anyTimer).2.database.nextToPropose = some h) := by
  obtain ⟨a, ha⟩ := SetBlockBatch_eq_attempt env bs batch timer
  have hw := batchWritten_fields (attemptTimer timer batch a) bs.database batch
  refine ⟨?_, ?_, ?_⟩
  · intro hunset hok
    rw [ha] at hok ⊢
    simp only at hok ⊢
    rw [setBlockBatchImpl_eq,
      setProposeParentHash_of_unset _ _ hmain (hw.2.2.trans hunset)] at hok ⊢
    by_cases hc : batch.MainShardBlock.Number > 0 ∧
        batch.MainShardBlock.ParentHash = common.EmptyHash
    · simp [hc] at hok
    · simp only [hc, if_false] at hok ⊢
      cases h2 : updateLatestFetched
          { batchWritten (attemptTimer timer batch a) bs.database batch with
            nextToPropose := some batch.MainShardBlock.ParentHash }
          batch.MainShardBlock with
      | error e => rw [h2] at hok; simp at hok
      | ok tx2 =>
        simp only
        rw [(updateLatestFetched_blocks _ _ _ h2).2.2]
  · intro hunset hnum hparent
    rw [ha]
    simp only
    rw [setBlockBatchImpl_eq,
      setProposeParentHash_of_unset _ _ hmain (hw.2.2.trans hunset)]
    simp [hnum, hparent]
  · intro any anyTimer h hset
    exact (SetBlockBatch_fields env bs any anyTimer).2.2 h hset

/-- The contract of claim C17 at sample states: on the storage that holds only a
state root, `batchA` seeds the frontier with the parent hash `0xA0` of `blockA1`
and a block of number 3 with an empty parent hash is refused; on the storage in
which `blockA1` is fetched the frontier stays `0xA0` when `batchB` is ingested. -/
theorem SetBlockBatch_frontier_witness :
    (SetBlockBatch sampleEnv rootOnlyState (some batchA) (constTimer 5)).2.database.nextToPropose =
      some 0xA0 ∧
    (SetBlockBatch sampleEnv rootOnlyState (some batchEmptyParent) (constTimer 5)).1 =
      Except.error (Error.emptyParentHash 0xE1) ∧
    (SetBlockBatch sampleEnv fetchedState (some batchB) (constTimer 9)).2.database.nextToPropose =
      some 0xA0 :=
  ⟨(SetBlockBatch_frontier sampleEnv rootOnlyState batchA (constTimer 5) rfl).1 rfl rfl,
    (SetBlockBatch_frontier sampleEnv rootOnlyState batchEmptyParent (constTimer 5) rfl).2.1
      rfl (by decide) rfl,
    (SetBlockBatch_frontier sampleEnv fetchedState batchA (constTimer 5) rfl).2.2
      (some batchB) (constTimer 9) 0xA0 rfl⟩

/-! ## The state root and the ownership of the singleton tables -/

/-- Claim C18. `SetProvedStateRoot(h)` fails exactly when `h` is the all-zero hash,
and then the storage is as it was.  For every other `h` and every storage it
succeeds, `TryGetProvedStateRoot` returns `h` afterwards, and the `blocks`,
`latest_fetched` and `next_to_propose_parent` tables are unchanged. -/
theorem SetProvedStateRoot_contract (bs : BlockStorage) (h : common.Hash) :
    ((∃ err, (SetProvedStateRoot bs h).1 = Except.error err) ↔ h = common.EmptyHash) ∧
    (h = common.EmptyHash → (SetProvedStateRoot bs h).2 = bs) ∧
    (h ≠ common.EmptyHash →
      (SetProvedStateRoot bs h).1 = Except.ok () ∧
      TryGetProvedStateRoot (SetProvedStateRoot bs h).2 = Except.ok (some h) ∧
      (SetProvedStateRoot bs h).2.database.blocks = bs.database.blocks ∧
      (SetProvedStateRoot bs h).2.database.latestFetched = bs.database.latestFetched ∧
      (SetProvedStateRoot bs h).2.database.nextToPropose = bs.database.nextToPropose) := by
  by_cases hz : h = common.EmptyHash
  · simp [SetProvedStateRoot, hz]
  · simp [SetProvedStateRoot, hz, TryGetProvedStateRoot, getProvedStateRoot]

/-- The contract of claim C18 at the sample state in which `blockA1` is fetched:
the all-zero hash is refused and `0x44` replaces the state root. -/
theorem SetProvedStateRoot_contract_witness :
    (SetProvedStateRoot fetchedState common.EmptyHash).2 = fetchedState ∧
    ((SetProvedStateRoot fetchedState 0x44).1 = Except.ok () ∧
      TryGetProvedStateRoot (SetProvedStateRoot fetchedState 0x44).2 = Except.ok (some 0x44) ∧
      (SetProvedStateRoot fetchedState 0x44).2.database.blocks = fetchedState.database.blocks ∧
      (SetProvedStateRoot fetchedState 0x44).2.database.latestFetched =
        fetchedState.database.latestFetched ∧
      (SetProvedStateRoot fetchedState 0x44).2.database.nextToPropose =
        fetchedState.database.nextToPropose) :=
  ⟨(SetProvedStateRoot_contract fetchedState common.EmptyHash).2.1 rfl,
    (SetProvedStateRoot_contract fetchedState 0x44).2.2 (by decide)⟩

theorem SetBlockAsProved_fields (bs : BlockStorage) (id : BlockId) :
    (SetBlockAsProved bs id).2.database.latestFetched = bs.database.latestFetched ∧
      (SetBlockAsProved bs id).2.database.stateRoot = bs.database.stateRoot ∧
      (SetBlockAsProved bs id).2.database.nextToPropose = bs.database.nextToPropose := by
  cases hentry : getBlockEntry bs.database id with
  | none =>
    rw [SetBlockAsProved_missing bs id hentry]
    exact ⟨rfl, rfl, rfl⟩
  | some entry =>
    cases hp : entry.IsProved
    · rw [SetBlockAsProved_unproved bs id entry hentry hp]
      exact ⟨rfl, rfl, rfl⟩
    · rw [SetBlockAsProved_proved bs id entry hentry hp]
      exact ⟨rfl, rfl, rfl⟩

theorem SetBlockAsProposed_latestFetched (env : Env) (bs : BlockStorage) (id : BlockId) :
    (SetBlockAsProposed env bs id).2.database.latestFetched = bs.database.latestFetched := by
  rw [SetBlockAsProposed_eq]
  simp only
  cases hres : (setBlockAsProposedImpl env bs.database id).1 with
  | error err => rw [setBlockAsProposedImpl_error_store env bs.database id err hres]
  | ok u =>
    obtain ⟨e, childIds, _, _, _, hdb⟩ := setBlockAsProposedImpl_ok env bs.database id hres
    rw [hdb]

theorem SetProvedStateRoot_fields (bs : BlockStorage) (h : common.Hash) :
    (SetProvedStateRoot bs h).2.database.latestFetched = bs.database.latestFetched ∧
      (SetProvedStateRoot bs h).2.database.nextToPropose = bs.database.nextToPropose := by
  unfold SetProvedStateRoot
  split
  · exact ⟨rfl, rfl⟩
  · exact ⟨rfl, rfl⟩

/-- Claim C20. Of the calls that write to the storage, only `SetBlockBatch`
changes `latest_fetched`; only `SetProvedStateRoot` and `SetBlockAsProposed`
change `state_root`; and `next_to_propose_parent` is changed only by
`SetBlockAsProposed` and by a `SetBlockBatch` that found it unset.  Every other
call leaves the table as it was.  (The read operations return a value and no
storage, so they change nothing.) -/
theorem singleton_tables_ownership (env : Env) (bs : BlockStorage) (op : Op) :
    ((op.apply env bs).database.latestFetched ≠ bs.database.latestFetched →
      ∃ batch timer, op = Op.SetBlockBatch batch timer) ∧
    ((op.apply env bs).database.stateRoot ≠ bs.database.stateRoot →
      (∃ h, op = Op.SetProvedStateRoot h) ∨ ∃ id, op = Op.SetBlockAsProposed id) ∧
    ((op.apply env bs).database.nextToPropose ≠ bs.database.nextToPropose →
      (∃ id, op = Op.SetBlockAsProposed id) ∨
        ((∃ batch timer, op = Op.SetBlockBatch batch timer) ∧
          bs.database.nextToPropose = none)) := by
  cases op with
  | SetProvedStateRoot h =>
    have hf := SetProvedStateRoot_fields bs h
    refine ⟨fun hne => absurd hf.1 hne, fun _ => Or.inl ⟨h, rfl⟩, fun hne => absurd hf.2 hne⟩
  | SetBlockBatch batch timer =>
    have hf := SetBlockBatch_fields env bs batch timer
    refine ⟨fun _ => ⟨batch, timer, rfl⟩, fun hne => absurd hf.1 hne, fun hne => ?_⟩
    refine Or.inr ⟨⟨batch, timer, rfl⟩, ?_⟩
    cases hfront : bs.database.nextToPropose with
    | none => rfl
    | some h =>
      exfalso
      apply hne
      show (SetBlockBatch env bs batch timer).2.database.nextToPropose = bs.database.nextToPropose
      rw [hf.2.2 h hfront, hfront]
  | SetBlockAsProved id =>
    have hf := SetBlockAsProved_fields bs id
    exact ⟨fun hne => absurd hf.1 hne, fun hne => absurd hf.2.1 hne,
      fun hne => absurd hf.2.2 hne⟩
  | SetBlockAsProposed id =>
    have hf := SetBlockAsProposed_latestFetched env bs id
    exact ⟨fun hne => absurd hf hne, fun _ => Or.inr ⟨id, rfl⟩, fun _ => Or.inl ⟨id, rfl⟩⟩

/-- The contract of claim C20 at the sample state in which `blockA1` is fetched:
ingesting `batchB` moves `latest_fetched`, and the call is a `SetBlockBatch`. -/
theorem singleton_tables_ownership_witness :
    ((Op.SetBlockBatch (some batchB) (constTimer 9)).apply sampleEnv
        fetchedState).database.latestFetched ≠ fetchedState.database.latestFetched ∧
    ∃ batch timer, Op.SetBlockBatch (some batchB) (constTimer 9) = Op.SetBlockBatch batch timer :=
  ⟨by decide,
    (singleton_tables_ownership sampleEnv fetchedState
      (Op.SetBlockBatch (some batchB) (constTimer 9))).1 (by decide)⟩

/-! ## Lemmas on the linearity check -/

theorem ValidateChild_some (ref : MainBlockRef) (block : RPCBlock) :
    MainBlockRef.ValidateChild (some ref) block =
      if block.ParentHash = ref.Hash ∧ block.Number = ref.Number + 1
          ∧ block.ShardId = types.MainShardId then Except.ok ()
      else Except.error Error.blockMismatch :=
  rfl

theorem Equals_refOf (block : RPCBlock) :
    MainBlockRef.Equals (some (refOf block)) block = true := by
  simp [MainBlockRef.Equals, refOf]

theorem setProposeParentHash_ok_main (tx tx1 : Store) (block : RPCBlock)
    (hmain : block.ShardId = types.MainShardId)
    (h : setProposeParentHash tx block = Except.ok tx1) : tx1.nextToPropose ≠ none := by
  cases hfront : tx.nextToPropose with
  | some f =>
    rw [setProposeParentHash_of_set tx block f hfront] at h
    simp at h
    subst h
    rw [hfront]
    simp
  | none =>
    rw [setProposeParentHash_of_unset tx block hmain hfront] at h
    split at h
    · simp at h
    · simp at h
      subst h
      simp

/-- What a successful attempt of a batch with a main-shard main block did to the
latest reference: the block equals the latest reference and the reference stays,
or the block is a valid child of it and becomes the latest reference.  The
frontier is set afterwards. -/
theorem setBlockBatchImpl_ok_latest (timer : Nat → Time) (db : Store) (batch : BlockBatch)
    (hmain : batch.MainShardBlock.ShardId = types.MainShardId)
    (hok : (setBlockBatchImpl timer db batch).1 = Except.ok ()) :
    (setBlockBatchImpl timer db batch).2.nextToPropose ≠ none ∧
    ((MainBlockRef.Equals db.latestFetched batch.MainShardBlock = true ∧
        (setBlockBatchImpl timer db batch).2.latestFetched = db.latestFetched) ∨
      (MainBlockRef.Equals db.latestFetched batch.MainShardBlock = false ∧
        MainBlockRef.ValidateChild db.latestFetched batch.MainShardBlock = Except.ok () ∧
        (setBlockBatchImpl timer db batch).2.latestFetched =
          some (refOf batch.MainShardBlock))) := by
  have hw := batchWritten_fields timer db batch
  rw [setBlockBatchImpl_eq] at hok ⊢
  cases h1 : setProposeParentHash (batchWritten timer db batch) batch.MainShardBlock with
  | error e => rw [h1] at hok; simp at hok
  | ok tx1 =>
    rw [h1] at hok
    simp only at hok ⊢
    have hfront := setProposeParentHash_ok_main _ _ _ hmain h1
    have hlatest : tx1.latestFetched = db.latestFetched :=
      (setProposeParentHash_latestFetched _ _ _ h1).trans hw.1
    cases h2 : updateLatestFetched tx1 batch.MainShardBlock with
    | error e => rw [h2] at hok; simp at hok
    | ok tx2 =>
      simp only
      refine ⟨by rw [(updateLatestFetched_blocks _ _ _ h2).2.2]; exact hfront, ?_⟩
      cases heq : MainBlockRef.Equals db.latestFetched batch.MainShardBlock
      · refine Or.inr ⟨rfl, ?_⟩
        rw [updateLatestFetched_of_main tx1 _ hmain (by rw [hlatest]; exact heq), hlatest] at h2
        cases hv : MainBlockRef.ValidateChild db.latestFetched batch.MainShardBlock with
        | error e => rw [hv] at h2; simp at h2
        | ok u =>
          rw [hv] at h2
          simp at h2
          subst h2
          exact ⟨rfl, rfl⟩
      · refine Or.inl ⟨rfl, ?_⟩
        rw [updateLatestFetched_of_equals tx1 _ (by rw [hlatest]; exact heq)] at h2
        simp at h2
        subst h2
        exact hlatest

/-- The outcome of an attempt of a batch with a main-shard main block on a
database whose frontier is set: it succeeds when the block equals the latest
reference, and otherwise it is the outcome of `ValidateChild`. -/
theorem setBlockBatchImpl_result (timer : Nat → Time) (db : Store) (batch : BlockBatch)
    (f : common.Hash) (hmain : batch.MainShardBlock.ShardId = types.MainShardId)
    (hset : db.nextToPropose = some f) :
    (setBlockBatchImpl timer db batch).1 =
      if MainBlockRef.Equals db.latestFetched batch.MainShardBlock = true then Except.ok ()
      else MainBlockRef.ValidateChild db.latestFetched batch.MainShardBlock := by
  have hw := batchWritten_fields timer db batch
  rw [setBlockBatchImpl_eq, setProposeParentHash_of_set _ _ f (hw.2.2.trans hset)]
  simp only
  cases heq : MainBlockRef.Equals db.latestFetched batch.MainShardBlock
  · rw [updateLatestFetched_of_main _ _ hmain (by rw [hw.1]; exact heq), hw.1]
    cases hv : MainBlockRef.ValidateChild db.latestFetched batch.MainShardBlock <;> simp
  · rw [updateLatestFetched_of_equals _ _ (by rw [hw.1]; exact heq)]
    simp

/-! ## The frontier is seeded in every reachable state -/

theorem opApply_frontierSeeded (env : Env) (bs : BlockStorage) (op : Op)
    (h : FrontierSeeded bs.database) : FrontierSeeded (op.apply env bs).database := by
  cases op with
  | SetProvedStateRoot root =>
    have hf := SetProvedStateRoot_fields bs root
    intro hl
    show (SetProvedStateRoot bs root).2.database.nextToPropose ≠ none
    rw [hf.2]
    apply h
    rw [← hf.1]
    exact hl
  | SetBlockBatch batch timer =>
    cases batch with
    | none => exact h
    | some batch =>
      obtain ⟨a, ha⟩ := SetBlockBatch_eq_attempt env bs batch timer
      simp only [Op.apply, ha]
      cases hres : (setBlockBatchImpl (attemptTimer timer batch a) bs.database batch).1 with
      | error err =>
        rw [setBlockBatchImpl_error_store _ _ _ err hres]
        exact h
      | ok u =>
        by_cases hmain : batch.MainShardBlock.ShardId = types.MainShardId
        · intro _
          exact (setBlockBatchImpl_ok_latest _ _ _ hmain hres).1
        · have hw := batchWritten_fields (attemptTimer timer batch a) bs.database batch
          rw [setBlockBatchImpl_eq, setProposeParentHash_of_not_main _ _ hmain]
          simp only
          rw [updateLatestFetched_of_not_main _ _ hmain]
          simp only
          intro hl
          rw [hw.2.2]
          apply h
          rw [← hw.1]
          exact hl
  | SetBlockAsProved id =>
    have hf := SetBlockAsProved_fields bs id
    intro hl
    show (SetBlockAsProved bs id).2.database.nextToPropose ≠ none
    rw [hf.2.2]
    apply h
    rw [← hf.1]
    exact hl
  | SetBlockAsProposed id =>
    simp only [Op.apply, SetBlockAsProposed_eq]
    cases hres : (setBlockAsProposedImpl env bs.database id).1 with
    | error err =>
      rw [setBlockAsProposedImpl_error_store env bs.database id err hres]
      exact h
    | ok u =>
      obtain ⟨e, childIds, _, _, _, hdb⟩ := setBlockAsProposedImpl_ok env bs.database id hres
      rw [hdb]
      intro _
      simp

/-- In every state that the public operations reach from the empty storage, the
frontier is set once a latest reference is stored. -/
theorem Reachable.frontierSeeded (env : Env) (bs : BlockStorage) (h : Reachable env bs) :
    FrontierSeeded bs.database := by
  induction h with
  | empty => intro hl; simp [BlockStorage.empty, Store.empty] at hl
  | step bs op _ ih => exact opApply_frontierSeeded env bs op ih

/-! ## Ingesting a batch: linearity and re-ingest -/

/-- Claim C13. In every state that the public operations reach and in which
`latest_fetched` holds a reference of hash `H` and number `N`, a `SetBlockBatch`
whose main block `b` is a main-shard block succeeds exactly when `b` equals the
latest reference (`b.hash = H` and `b.number = N`) or extends it
(`b.parent_hash = H` and `b.number = N + 1`); in every other case it fails with
the block mismatch. -/
theorem SetBlockBatch_linearity (env : Env) (bs : BlockStorage) (batch : BlockBatch)
    (timer : Nat → Time) (ref : MainBlockRef)
    (hreach : Reachable env bs)
    (hlatest : bs.database.latestFetched = some ref)
    (hmain : batch.MainShardBlock.ShardId = types.MainShardId) :
    ((SetBlockBatch env bs (some batch) timer).1 = Except.ok () ↔
      (batch.MainShardBlock.Hash = ref.Hash ∧ batch.MainShardBlock.Number = ref.Number) ∨
        (batch.MainShardBlock.ParentHash = ref.Hash ∧
          batch.MainShardBlock.Number = ref.Number + 1)) ∧
    (¬ ((batch.MainShardBlock.Hash = ref.Hash ∧ batch.MainShardBlock.Number = ref.Number) ∨
        (batch.MainShardBlock.ParentHash = ref.Hash ∧
          batch.MainShardBlock.Number = ref.Number + 1)) →
      (SetBlockBatch env bs (some batch) timer).1 = Except.error Error.blockMismatch) := by
  have hseeded := Reachable.frontierSeeded env bs hreach (by rw [hlatest]; simp)
  obtain ⟨f, hf⟩ := Option.ne_none_iff_exists'.mp hseeded
  obtain ⟨a, ha⟩ := SetBlockBatch_eq_attempt env bs batch timer
  rw [ha]
  simp only
  rw [setBlockBatchImpl_result _ _ _ f hmain hf, hlatest, ValidateChild_some]
  by_cases heq : batch.MainShardBlock.Hash = ref.Hash ∧ batch.MainShardBlock.Number = ref.Number
  · have he : MainBlockRef.Equals (some ref) batch.MainShardBlock = true := by
      simp [MainBlockRef.Equals, heq.1, heq.2]
    simp [he, heq]
  · have he : MainBlockRef.Equals (some ref) batch.MainShardBlock = false := by
      by_contra hcon
      simp [MainBlockRef.Equals] at hcon
      exact heq ⟨hcon.1.symm, hcon.2.symm⟩
    by_cases hchild : batch.MainShardBlock.ParentHash = ref.Hash ∧
        batch.MainShardBlock.Number = ref.Number + 1
    · simp [he, hchild, hmain]
    · have hne : ¬ (batch.MainShardBlock.ParentHash = ref.Hash ∧
          batch.MainShardBlock.Number = ref.Number + 1 ∧
          batch.MainShardBlock.ShardId = types.MainShardId) :=
        fun hc => hchild ⟨hc.1, hc.2.1⟩
      simp only [he, hne, heq, hchild, or_self, if_false, Bool.false_eq_true, not_false_eq_true,
        true_implies, and_true]
      simp

/-- The contract of claim C13 at the sample state in which `blockA1` is the
latest fetched block: `batchB`, whose main block extends `blockA1`, is accepted,
and `batchMismatch`, whose main block has another parent, fails with the block
mismatch. -/
theorem SetBlockBatch_linearity_witness :
    Reachable sampleEnv fetchedState ∧
    fetchedState.database.latestFetched = some (refOf blockA1) ∧
    (SetBlockBatch sampleEnv fetchedState (some batchB) (constTimer 9)).1 = Except.ok () ∧
    (SetBlockBatch sampleEnv fetchedState (some batchMismatch) (constTimer 9)).1 =
      Except.error Error.blockMismatch :=
  ⟨Reachable.runOps sampleEnv _ _ Reachable.empty, rfl,
    (SetBlockBatch_linearity sampleEnv fetchedState batchB (constTimer 9) (refOf blockA1)
      (Reachable.runOps sampleEnv _ _ Reachable.empty) rfl rfl).1.mpr (Or.inr ⟨rfl, rfl⟩),
    (SetBlockBatch_linearity sampleEnv fetchedState batchMismatch (constTimer 9) (refOf blockA1)
      (Reachable.runOps sampleEnv _ _ Reachable.empty) rfl rfl).2 (by decide)⟩

theorem putBlockTx_get_self (tx : Store) (t : Time) (batchId : BatchId) (block : RPCBlock) :
    ∃ e, getBlockEntry (putBlockTx tx t batchId block) (IdFromBlock block) = some e :=
  ⟨_, tableGet_tablePut_self _ _ _⟩

theorem putBlockTx_get_preserved (tx : Store) (t : Time) (batchId : BatchId) (block : RPCBlock)
    (id : BlockId) (h : ∃ e, getBlockEntry tx id = some e) :
    ∃ e, getBlockEntry (putBlockTx tx t batchId block) id = some e := by
  by_cases hid : IdFromBlock block = id
  · subst hid
    exact putBlockTx_get_self tx t batchId block
  · obtain ⟨e, he⟩ := h
    exact ⟨e, (putBlockTx_get_ne tx t batchId block id hid).trans he⟩

theorem putChildBlocks_get_preserved (timer : Nat → Time) (batchId : BatchId) (tx : Store)
    (n : Nat) (blocks : List RPCBlock) (id : BlockId) (h : ∃ e, getBlockEntry tx id = some e) :
    ∃ e, getBlockEntry (putChildBlocks timer batchId tx n blocks) id = some e := by
  induction blocks generalizing tx n with
  | nil => simpa [putChildBlocks] using h
  | cons b rest ih =>
    simp only [putChildBlocks]
    exact ih _ _ (putBlockTx_get_preserved tx (timer n) batchId b id h)

theorem putChildBlocks_get_child (timer : Nat → Time) (batchId : BatchId) (tx : Store)
    (n : Nat) (blocks : List RPCBlock) (b : RPCBlock) (hb : b ∈ blocks) :
    ∃ e, getBlockEntry (putChildBlocks timer batchId tx n blocks) (IdFromBlock b) = some e := by
  induction blocks generalizing tx n with
  | nil => simp at hb
  | cons c rest ih =>
    simp only [putChildBlocks]
    rcases List.mem_cons.mp hb with hc | hc
    · subst hc
      exact putChildBlocks_get_preserved timer batchId _ (n + 1) rest _
        (putBlockTx_get_self tx (timer n) batchId b)
    · exact ih _ _ hc

/-- Once the entries of a batch are written, the main block and every child
block of the batch have an entry. -/
theorem batchWritten_entries (timer : Nat → Time) (db : Store) (batch : BlockBatch) :
    (∃ e, getBlockEntry (batchWritten timer db batch) (IdFromBlock batch.MainShardBlock) =
        some e) ∧
      ∀ b ∈ batch.ChildBlocks,
        ∃ e, getBlockEntry (batchWritten timer db batch) (IdFromBlock b) = some e :=
  ⟨putChildBlocks_get_preserved timer batch.Id _ 1 batch.ChildBlocks _
      (putBlockTx_get_self db (timer 0) batch.Id batch.MainShardBlock),
    fun b hb => putChildBlocks_get_child timer batch.Id _ 1 batch.ChildBlocks b hb⟩

/-- An attempt of a batch on a database that already holds its main block as the
latest reference, with the frontier set, commits the working copy in which the
entries were written and touches nothing else. -/
theorem setBlockBatchImpl_again (timer : Nat → Time) (db : Store) (batch : BlockBatch)
    (h : batch.MainShardBlock.ShardId = types.MainShardId →
      db.nextToPropose ≠ none ∧
        MainBlockRef.Equals db.latestFetched batch.MainShardBlock = true) :
    setBlockBatchImpl timer db batch = (Except.ok (), batchWritten timer db batch) := by
  have hw := batchWritten_fields timer db batch
  rw [setBlockBatchImpl_eq]
  by_cases hmain : batch.MainShardBlock.ShardId = types.MainShardId
  · obtain ⟨hfront, heq⟩ := h hmain
    obtain ⟨f, hf⟩ := Option.ne_none_iff_exists'.mp hfront
    rw [setProposeParentHash_of_set _ _ f (hw.2.2.trans hf)]
    simp only
    rw [updateLatestFetched_of_equals _ _ (by rw [hw.1]; exact heq)]
  · rw [setProposeParentHash_of_not_main _ _ hmain]
    simp only
    rw [updateLatestFetched_of_not_main _ _ hmain]

/-- Claim C16. When `SetBlockBatch(batch)` has just succeeded, a second call with
the same batch succeeds, leaves `latest_fetched` and `next_to_propose_parent` as
the first call left them, and afterwards the main block and every child block of
the batch have an entry in `blocks`. -/
theorem SetBlockBatch_reingest (env : Env) (bs : BlockStorage) (batch : BlockBatch)
    (timer again : Nat → Time)
    (hok : (SetBlockBatch env bs (some batch) timer).1 = Except.ok ()) :
    (SetBlockBatch env (SetBlockBatch env bs (some batch) timer).2 (some batch) again).1 =
      Except.ok () ∧
    (SetBlockBatch env (SetBlockBatch env bs (some batch) timer).2
        (some batch) again).2.database.latestFetched =
      (SetBlockBatch env bs (some batch) timer).2.database.latestFetched ∧
    (SetBlockBatch env (SetBlockBatch env bs (some batch) timer).2
        (some batch) again).2.database.nextToPropose =
      (SetBlockBatch env bs (some batch) timer).2.database.nextToPropose ∧
    (∃ e, getBlockEntry
        (SetBlockBatch env (SetBlockBatch env bs (some batch) timer).2
          (some batch) again).2.database (IdFromBlock batch.MainShardBlock) = some e) ∧
    (∀ b ∈ batch.ChildBlocks, ∃ e, getBlockEntry
        (SetBlockBatch env (SetBlockBatch env bs (some batch) timer).2
          (some batch) again).2.database (IdFromBlock b) = some e) := by
  have hstate : batch.MainShardBlock.ShardId = types.MainShardId →
      (SetBlockBatch env bs (some batch) timer).2.database.nextToPropose ≠ none ∧
        MainBlockRef.Equals (SetBlockBatch env bs (some batch) timer).2.database.latestFetched
          batch.MainShardBlock = true := by
    intro hmain
    obtain ⟨a, ha⟩ := SetBlockBatch_eq_attempt env bs batch timer
    rw [ha] at hok ⊢
    simp only at hok ⊢
    obtain ⟨hfront, hl⟩ := setBlockBatchImpl_ok_latest _ _ _ hmain hok
    refine ⟨hfront, ?_⟩
    rcases hl with ⟨heq, hsame⟩ | ⟨_, _, hnew⟩
    · rw [hsame]
      exact heq
    · rw [hnew]
      exact Equals_refOf _
  obtain ⟨a2, ha2⟩ := SetBlockBatch_eq_attempt env (SetBlockBatch env bs (some batch) timer).2
    batch again
  rw [ha2]
  simp only
  rw [setBlockBatchImpl_again _ _ batch hstate]
  have hw := batchWritten_fields (attemptTimer again batch a2)
    (SetBlockBatch env bs (some batch) timer).2.database batch
  have he := batchWritten_entries (attemptTimer again batch a2)
    (SetBlockBatch env bs (some batch) timer).2.database batch
  exact ⟨rfl, hw.1, hw.2.2, he.1, he.2⟩

/-- The contract of claim C16 at the sample state that holds only a state root:
`batchA` is ingested twice, the second time at a later reading of the timer. -/
theorem SetBlockBatch_reingest_witness :
    (SetBlockBatch sampleEnv rootOnlyState (some batchA) (constTimer 5)).1 = Except.ok () ∧
    (SetBlockBatch sampleEnv
        (SetBlockBatch sampleEnv rootOnlyState (some batchA) (constTimer 5)).2
        (some batchA) (constTimer 6)).1 = Except.ok () ∧
    (SetBlockBatch sampleEnv
        (SetBlockBatch sampleEnv rootOnlyState (some batchA) (constTimer 5)).2
        (some batchA) (constTimer 6)).2.database.latestFetched = some (refOf blockA1) :=
  ⟨rfl,
    (SetBlockBatch_reingest sampleEnv rootOnlyState batchA (constTimer 5) (constTimer 6) rfl).1,
    (SetBlockBatch_reingest sampleEnv rootOnlyState batchA (constTimer 5) (constTimer 6)
      rfl).2.1.trans rfl⟩

/-! ## Sequences of accepted batches -/

/-- The chain that accepted batches build on a latest reference: from a storage
whose latest reference has the hash and number of `block`, accepted batches of
main-shard main blocks with hashes that differ from one another and from that of
`block` leave the last main block as the latest reference, its number is the
number of `block` plus the number of batches, and the main blocks are linked. -/
theorem ingestAll_chain (env : Env) (calls : List (BlockBatch × (Nat → Time)))
    (bs : BlockStorage) (block : RPCBlock) (ref0 : MainBlockRef)
    (hlatest : bs.database.latestFetched = some ref0)
    (hhash : ref0.Hash = block.Hash) (hnumber : ref0.Number = block.Number)
    (hmain : ∀ call ∈ calls, call.1.MainShardBlock.ShardId = types.MainShardId)
    (hdistinct : (block.Hash :: calls.map (fun call => call.1.MainShardBlock.Hash)).Nodup)
    (hacc : AllAccepted env bs calls) :
    ∃ ref, (ingestAll env bs calls).database.latestFetched = some ref ∧
      ref.Hash = (lastMainBlock block calls).Hash ∧
      ref.Number = (lastMainBlock block calls).Number ∧
      ref.Number = block.Number + calls.length ∧
      Linked block calls := by
  induction calls generalizing bs block ref0 with
  | nil => exact ⟨ref0, hlatest, hhash, hnumber, by simpa using hnumber, trivial⟩
  | cons call rest ih =>
    obtain ⟨hok, hrest⟩ := hacc
    have hm : call.1.MainShardBlock.ShardId = types.MainShardId := hmain call (by simp)
    have hne : block.Hash ≠ call.1.MainShardBlock.Hash := by
      intro heq
      have := (List.nodup_cons.mp hdistinct).1
      apply this
      simp [heq]
    have htail : (call.1.MainShardBlock.Hash ::
        rest.map (fun c => c.1.MainShardBlock.Hash)).Nodup := by
      have := (List.nodup_cons.mp hdistinct).2
      simpa using this
    obtain ⟨a, ha⟩ := SetBlockBatch_eq_attempt env bs call.1 call.2
    have hok' := hok
    rw [ha] at hok'
    simp only at hok'
    have hl := (setBlockBatchImpl_ok_latest _ _ _ hm hok').2
    rw [hlatest] at hl
    rcases hl with ⟨heq, _⟩ | ⟨_, hv, hnew⟩
    · exfalso
      simp [MainBlockRef.Equals] at heq
      exact hne (hhash.symm.trans heq.1)
    · rw [ValidateChild_some] at hv
      have hcond : call.1.MainShardBlock.ParentHash = ref0.Hash ∧
          call.1.MainShardBlock.Number = ref0.Number + 1 ∧
          call.1.MainShardBlock.ShardId = types.MainShardId := by
        by_contra hc
        rw [if_neg hc] at hv
        cases hv
      have hnext : (SetBlockBatch env bs (some call.1) call.2).2.database.latestFetched =
          some (refOf call.1.MainShardBlock) := by
        rw [ha]
        exact hnew
      obtain ⟨ref, h1, h2, h3, h4, h5⟩ := ih (SetBlockBatch env bs (some call.1) call.2).2
        call.1.MainShardBlock (refOf call.1.MainShardBlock) hnext rfl rfl
        (fun c hc => hmain c (List.mem_cons_of_mem _ hc)) htail hrest
      refine ⟨ref, h1, h2, h3, ?_, ⟨hcond.1.trans hhash, h5⟩⟩
      rw [h4, hcond.2.1, hnumber]
      simp only [List.length_cons]
      exact Nat.add_assoc _ _ _ |>.trans (by rw [Nat.add_comm 1])

/-- Claim C15. For every sequence of accepted `SetBlockBatch` calls from the empty
storage, a first call and the calls after it, whose main blocks are main-shard
blocks with hashes that differ from one another: afterwards `latest_fetched`
refers to the main block of the last batch, its number is the number of the first
main block plus the number of calls minus one, and the parent hash of each main
block after the first is the hash of the main block before it. -/
theorem ingested_chain (env : Env) (first : BlockBatch × (Nat → Time))
    (rest : List (BlockBatch × (Nat → Time)))
    (hmain : ∀ call ∈ first :: rest, call.1.MainShardBlock.ShardId = types.MainShardId)
    (hdistinct : ((first :: rest).map (fun call => call.1.MainShardBlock.Hash)).Nodup)
    (hacc : AllAccepted env BlockStorage.empty (first :: rest)) :
    ∃ ref, (ingestAll env BlockStorage.empty (first :: rest)).database.latestFetched = some ref ∧
      ref.Hash = (lastMainBlock first.1.MainShardBlock rest).Hash ∧
      ref.Number = (lastMainBlock first.1.MainShardBlock rest).Number ∧
      ref.Number = first.1.MainShardBlock.Number + (rest.length + 1) - 1 ∧
      Linked first.1.MainShardBlock rest := by
  obtain ⟨hok, hrest⟩ := hacc
  have hm : first.1.MainShardBlock.ShardId = types.MainShardId := hmain first (by simp)
  obtain ⟨a, ha⟩ := SetBlockBatch_eq_attempt env BlockStorage.empty first.1 first.2
  have hok' := hok
  rw [ha] at hok'
  simp only at hok'
  have hl := (setBlockBatchImpl_ok_latest _ _ _ hm hok').2
  have hnone : BlockStorage.empty.database.latestFetched = none := rfl
  rw [hnone] at hl
  rcases hl with ⟨heq, _⟩ | ⟨_, _, hnew⟩
  · simp [MainBlockRef.Equals] at heq
  · have hnext : (SetBlockBatch env BlockStorage.empty (some first.1)
        first.2).2.database.latestFetched = some (refOf first.1.MainShardBlock) := by
      rw [ha]
      exact hnew
    obtain ⟨ref, h1, h2, h3, h4, h5⟩ := ingestAll_chain env rest
      (SetBlockBatch env BlockStorage.empty (some first.1) first.2).2
      first.1.MainShardBlock (refOf first.1.MainShardBlock) hnext rfl rfl
      (fun c hc => hmain c (List.mem_cons_of_mem _ hc)) (by simpa using hdistinct) hrest
    exact ⟨ref, h1, h2, h3, by rw [h4]; rfl, h5⟩

/-- The contract of claim C15 for `batchA` followed by `batchB`: both are
accepted, the latest reference is the main block of `batchB`, of number 2, and
that block has the hash of `blockA1` as its parent hash. -/
theorem ingested_chain_witness :
    AllAccepted sampleEnv BlockStorage.empty
      [(batchA, constTimer 5), (batchB, constTimer 9)] ∧
    ∃ ref, (ingestAll sampleEnv BlockStorage.empty
        [(batchA, constTimer 5), (batchB, constTimer 9)]).database.latestFetched = some ref ∧
      ref.Hash = 0xB1 ∧ ref.Number = 2 ∧ ref.Number = 1 + (1 + 1) - 1 ∧
      Linked blockA1 [(batchB, constTimer 9)] :=
  ⟨⟨rfl, rfl, trivial⟩,
    ingested_chain sampleEnv (batchA, constTimer 5) [(batchB, constTimer 9)]
      (by simp [batchA, batchB, blockA1, types.MainShardId])
      (by simp [batchA, batchB, blockA1])
      ⟨rfl, rfl, trivial⟩⟩

/-! ## The task handler: the contract -/

/-- Claim C19. `OnTaskTerminated` calls the block setter exactly when the task is
of kind `AggregateProofs` and the result is a success.  It then calls it once,
with the identifier made of the shard and the block hash of the task, leaves the
state the setter leaves, and returns an error exactly when the setter does, the
error of the setter wrapped.  For every other kind of task and for a failed
result it returns success, calls nothing and leaves the state as it was. -/
theorem OnTaskTerminated_contract {σ : Type}
    (blockSetter : σ → BlockId → Except Error Unit × σ) (s : σ) (calls : List BlockId)
    (task : Task) (result : TaskResult) :
    (task.TaskType = TaskType.AggregateProofs ∧ result.IsSuccess = true →
      (OnTaskTerminated (recordingSetter blockSetter) (s, calls) task result).2 =
        ((blockSetter s (NewBlockId task.ShardId task.BlockHash)).2,
          calls ++ [NewBlockId task.ShardId task.BlockHash]) ∧
      ((blockSetter s (NewBlockId task.ShardId task.BlockHash)).1 = Except.ok () →
        (OnTaskTerminated (recordingSetter blockSetter) (s, calls) task result).1 =
          Except.ok ()) ∧
      (∀ err, (blockSetter s (NewBlockId task.ShardId task.BlockHash)).1 = Except.error err →
        (OnTaskTerminated (recordingSetter blockSetter) (s, calls) task result).1 =
          Except.error ⟨NewBlockId task.ShardId task.BlockHash, err⟩)) ∧
    (¬ (task.TaskType = TaskType.AggregateProofs ∧ result.IsSuccess = true) →
      OnTaskTerminated (recordingSetter blockSetter) (s, calls) task result =
        (Except.ok (), (s, calls))) := by
  constructor
  · rintro ⟨hkind, hsuccess⟩
    unfold OnTaskTerminated recordingSetter
    simp only [hkind, hsuccess, ne_eq, not_true_eq_false, if_false, Bool.true_eq_false]
    rcases hres : blockSetter s (NewBlockId task.ShardId task.BlockHash) with ⟨res, s'⟩
    cases res with
    | error e => simp
    | ok u => simp
  · intro hnot
    unfold OnTaskTerminated
    by_cases hkind : task.TaskType = TaskType.AggregateProofs
    · have hfail : result.IsSuccess = false := by
        cases hs : result.IsSuccess
        · rfl
        · exact absurd ⟨hkind, hs⟩ hnot
      simp [hkind, hfail]
    · simp [hkind]

/-- The contract of claim C19 with `SetBlockAsProved` as the block setter, at the
sample state in which `blockA1` is fetched: a successful `AggregateProofs` task
for `blockA1` marks it as proved with one call; a failed result, and a task of
another kind, call nothing and leave the storage as it was. -/
theorem OnTaskTerminated_contract_witness :
    (OnTaskTerminated (recordingSetter SetBlockAsProved) (fetchedState, []) taskA1
        { IsSuccess := true }).2 = ((SetBlockAsProved fetchedState idA1).2, [idA1]) ∧
    OnTaskTerminated (recordingSetter SetBlockAsProved) (fetchedState, []) taskA1
        { IsSuccess := false } = (Except.ok (), (fetchedState, [])) ∧
    OnTaskTerminated (recordingSetter SetBlockAsProved) (fetchedState, [])
        { taskA1 with TaskType := TaskType.other 1 } { IsSuccess := true } =
      (Except.ok (), (fetchedState, [])) ∧
    (OnTaskTerminated (recordingSetter SetBlockAsProved) (BlockStorage.empty, []) taskA1
        { IsSuccess := true }).1 = Except.error ⟨idA1, Error.blockNotFound idA1⟩ :=
  ⟨((OnTaskTerminated_contract SetBlockAsProved fetchedState [] taskA1
      { IsSuccess := true }).1 ⟨rfl, rfl⟩).1,
    (OnTaskTerminated_contract SetBlockAsProved fetchedState [] taskA1
      { IsSuccess := false }).2 (by decide),
    (OnTaskTerminated_contract SetBlockAsProved fetchedState []
      { taskA1 with TaskType := TaskType.other 1 } { IsSuccess := true }).2 (by decide),
    ((OnTaskTerminated_contract SetBlockAsProved BlockStorage.empty [] taskA1
      { IsSuccess := true }).1 ⟨rfl, rfl⟩).2.2 (Error.blockNotFound idA1) rfl⟩

/-! ## The keys of the table are distinct in every reachable state -/

theorem mem_keys_tablePut {κ ν : Type} [DecidableEq κ] (t : Table κ ν) (key : κ) (value : ν)
    (k : κ) (h : k ∈ (tablePut t key value).map Prod.fst) :
    k ∈ t.map Prod.fst ∨ k = key := by
  obtain ⟨kv, hkv, hk⟩ := List.mem_map.mp h
  rcases mem_tablePut t key value kv hkv with hmem | heq
  · exact Or.inl (List.mem_map.mpr ⟨kv, hmem, hk⟩)
  · subst heq
    exact Or.inr hk.symm

theorem tablePut_nodup {κ ν : Type} [DecidableEq κ] (t : Table κ ν) (key : κ) (value : ν)
    (h : (t.map Prod.fst).Nodup) : ((tablePut t key value).map Prod.fst).Nodup := by
  induction t with
  | nil => simp [tablePut]
  | cons kv rest ih =>
    obtain ⟨k, v⟩ := kv
    simp only [List.map_cons, List.nodup_cons] at h
    by_cases hk : k = key
    · subst hk
      simp only [tablePut, if_true, List.map_cons, List.nodup_cons]
      exact h
    · simp only [tablePut, hk, if_false, List.map_cons, List.nodup_cons]
      refine ⟨fun hmem => ?_, ih h.2⟩
      rcases mem_keys_tablePut rest key value k hmem with h1 | h1
      · exact h.1 h1
      · exact hk h1

theorem tableDelete_nodup {κ ν : Type} [DecidableEq κ] (t : Table κ ν) (key : κ)
    (h : (t.map Prod.fst).Nodup) : ((tableDelete t key).map Prod.fst).Nodup :=
  List.Nodup.sublist (List.Sublist.map Prod.fst (List.filter_sublist t)) h

theorem tableGet_of_mem {κ ν : Type} [DecidableEq κ] (t : Table κ ν) (key : κ) (value : ν)
    (hnodup : (t.map Prod.fst).Nodup) (hmem : (key, value) ∈ t) :
    tableGet t key = some value := by
  induction t with
  | nil => simp at hmem
  | cons kv rest ih =>
    obtain ⟨k, v⟩ := kv
    simp only [List.map_cons, List.nodup_cons] at hnodup
    rcases List.mem_cons.mp hmem with heq | hrest
    · cases heq
      simp [tableGet]
    · have hne : k ≠ key := by
        intro hk
        subst hk
        exact hnodup.1 (List.mem_map.mpr ⟨(k, value), hrest, rfl⟩)
      simp only [tableGet, hne, if_false]
      exact ih hnodup.2 hrest

theorem tableGet_none_of_not_mem {κ ν : Type} [DecidableEq κ] (t : Table κ ν) (key : κ)
    (h : key ∉ t.map Prod.fst) : tableGet t key = none := by
  cases hget : tableGet t key with
  | none => rfl
  | some v => exact absurd (List.mem_map.mpr ⟨(key, v), tableGet_mem t key v hget, rfl⟩) h

theorem putBlockTx_keysNodup (tx : Store) (t : Time) (batchId : BatchId) (block : RPCBlock)
    (h : KeysNodup tx) : KeysNodup (putBlockTx tx t batchId block) :=
  tablePut_nodup tx.blocks _ _ h

theorem putChildBlocks_keysNodup (timer : Nat → Time) (batchId : BatchId) (tx : Store) (n : Nat)
    (blocks : List RPCBlock) (h : KeysNodup tx) :
    KeysNodup (putChildBlocks timer batchId tx n blocks) := by
  induction blocks generalizing tx n with
  | nil => simpa [putChildBlocks] using h
  | cons b rest ih =>
    simp only [putChildBlocks]
    exact ih _ _ (putBlockTx_keysNodup tx (timer n) batchId b h)

theorem deleteChildBlocks_keysNodup (tx : Store) (ids : List BlockId) (h : KeysNodup tx) :
    KeysNodup (deleteChildBlocks tx ids) := by
  induction ids generalizing tx with
  | nil => simpa [deleteChildBlocks] using h
  | cons c rest ih =>
    simp only [deleteChildBlocks]
    exact ih _ (tableDelete_nodup tx.blocks c h)

theorem opApply_keysNodup (env : Env) (bs : BlockStorage) (op : Op)
    (h : KeysNodup bs.database) : KeysNodup (op.apply env bs).database := by
  cases op with
  | SetProvedStateRoot stateRoot =>
    simp only [Op.apply, SetProvedStateRoot]
    split
    · exact h
    · exact h
  | SetBlockBatch batch timer =>
    cases batch with
    | none => exact h
    | some batch =>
      obtain ⟨a, ha⟩ := SetBlockBatch_eq_attempt env bs batch timer
      simp only [Op.apply, ha]
      cases hres : (setBlockBatchImpl (attemptTimer timer batch a) bs.database batch).1 with
      | error err =>
        rw [setBlockBatchImpl_error_store _ _ _ err hres]
        exact h
      | ok u =>
        unfold KeysNodup
        rw [(setBlockBatchImpl_ok _ _ _ hres).1]
        exact putChildBlocks_keysNodup _ batch.Id _ 1 batch.ChildBlocks
          (putBlockTx_keysNodup bs.database _ batch.Id batch.MainShardBlock h)
  | SetBlockAsProved id =>
    simp only [Op.apply]
    cases hentry : getBlockEntry bs.database id with
    | none =>
      rw [SetBlockAsProved_missing bs id hentry]
      exact h
    | some entry =>
      cases hp : entry.IsProved
      · rw [SetBlockAsProved_unproved bs id entry hentry hp]
        exact tablePut_nodup bs.database.blocks _ _ h
      · rw [SetBlockAsProved_proved bs id entry hentry hp]
        exact h
  | SetBlockAsProposed id =>
    simp only [Op.apply, SetBlockAsProposed_eq]
    cases hres : (setBlockAsProposedImpl env bs.database id).1 with
    | error err =>
      rw [setBlockAsProposedImpl_error_store env bs.database id err hres]
      exact h
    | ok u =>
      obtain ⟨e, childIds, _, _, _, hdb⟩ := setBlockAsProposedImpl_ok env bs.database id hres
      rw [hdb]
      exact tableDelete_nodup _ _ (deleteChildBlocks_keysNodup bs.database childIds h)

/-- In every state that the public operations reach from the empty storage, the
keys of the `blocks` table are pairwise distinct. -/
theorem Reachable.keysNodup (env : Env) (bs : BlockStorage) (h : Reachable env bs) :
    KeysNodup bs.database := by
  induction h with
  | empty => simp [KeysNodup, BlockStorage.empty, Store.empty]
  | step bs op _ ih => exact opApply_keysNodup env bs op ih

/-- In a reachable state an entry of the table is the entry that a lookup of its
key returns. -/
theorem Reachable.get_of_mem (env : Env) (bs : BlockStorage) (h : Reachable env bs)
    (key : BlockId) (entry : blockEntry) (hmem : (key, entry) ∈ bs.database.blocks) :
    getBlockEntry bs.database key = some entry :=
  tableGet_of_mem bs.database.blocks key entry (Reachable.keysNodup env bs h) hmem

/-! ## Keys and entries agree: the contract -/

/-- Claim C24. In every state that the public operations reach from the empty
storage, every entry of the `blocks` table is stored under the key of its own
block, `IdFromBlock(entry.Block)`.  Consequently a successful
`SetBlockAsProposed(id)`, which deletes the key derived from the block of the
loaded entry, deletes the key `id`: afterwards there is no entry under `id`, and
every identifier other than `id` and the child identifiers of the block has the
entry it had. -/
theorem keys_agree_with_entries (env : Env) (bs : BlockStorage) (hreach : Reachable env bs) :
    (∀ key entry, (key, entry) ∈ bs.database.blocks → key = IdFromBlock entry.Block) ∧
    (∀ id, (SetBlockAsProposed env bs id).1 = Except.ok () →
      ∃ entry childIds, getBlockEntry bs.database id = some entry ∧
        IdFromBlock entry.Block = id ∧
        env.ChildBlockIds entry.Block = Except.ok childIds ∧
        getBlockEntry (SetBlockAsProposed env bs id).2.database id = none ∧
        ∀ other, other ≠ id → other ∉ childIds →
          getBlockEntry (SetBlockAsProposed env bs id).2.database other =
            getBlockEntry bs.database other) := by
  have hagree := Reachable.keysAgree env bs hreach
  refine ⟨fun key entry hmem => (hagree (key, entry) hmem).symm, ?_⟩
  intro id hok
  rw [SetBlockAsProposed_eq] at hok ⊢
  simp only at hok ⊢
  obtain ⟨e, childIds, hentry, _, hcbi, hdb⟩ := setBlockAsProposedImpl_ok env bs.database id hok
  have hkey : IdFromBlock e.Block = id := hagree (id, e) (tableGet_mem _ id e hentry)
  refine ⟨e, childIds, hentry, hkey, hcbi, ?_, ?_⟩
  · simp only [getBlockEntry, hdb, hkey]
    exact tableGet_tableDelete_self _ _
  · intro other hne hnot
    simp only [getBlockEntry, hdb, hkey]
    rw [tableGet_tableDelete_ne _ _ _ hne]
    exact deleteChildBlocks_get_not_mem bs.database childIds other hnot

/-- The contract of claim C24 at the sample state in which `blockA1` and its child
are stored and `blockA1` is proved. -/
theorem keys_agree_with_entries_witness :
    Reachable sampleEnv provedState ∧
    (∀ key entry, (key, entry) ∈ provedState.database.blocks →
      key = IdFromBlock entry.Block) ∧
    (SetBlockAsProposed sampleEnv provedState idA1).1 = Except.ok () ∧
    getBlockEntry (SetBlockAsProposed sampleEnv provedState idA1).2.database idA1 = none :=
  ⟨Reachable.runOps sampleEnv _ _ Reachable.empty,
    (keys_agree_with_entries sampleEnv provedState
      (Reachable.runOps sampleEnv _ _ Reachable.empty)).1,
    rfl, rfl⟩

/-! ## The selector and the committer agree -/

/-- Claim C25. In every state that the public operations reach from the empty
storage, if `TryGetNextProposalData` returns a proposal `p`, then
`SetBlockAsProposed` on the identifier of the main shard and the main block hash
of `p` succeeds in that state, and afterwards the stored state root is the new
state root of `p`. -/
theorem selector_committer_agree (env : Env) (bs : BlockStorage) (p : ProposalData)
    (hreach : Reachable env bs)
    (hp : TryGetNextProposalData env bs = Except.ok (some p)) :
    (SetBlockAsProposed env bs (NewBlockId types.MainShardId p.MainShardBlockHash)).1 =
      Except.ok () ∧
    TryGetProvedStateRoot
        (SetBlockAsProposed env bs (NewBlockId types.MainShardId p.MainShardBlockHash)).2 =
      Except.ok (some p.NewProvedStateRoot) := by
  obtain ⟨root, parentHash, m, ids, transactions, _, hparent, hfirst, hids, _, hpeq⟩ :=
    (TryGetNextProposalData_some env bs p).mp hp
  obtain ⟨⟨key, hmem⟩, hcand⟩ := firstCandidate_some bs.database parentHash m hfirst
  simp [isValidProposalCandidate] at hcand
  obtain ⟨⟨hmain, hproved⟩, hpar⟩ := hcand
  have hkey : IdFromBlock m.Block = key := Reachable.keysAgree env bs hreach (key, m) hmem
  have hid : NewBlockId types.MainShardId p.MainShardBlockHash = key := by
    rw [← hkey, hpeq]
    simp [IdFromBlock, hmain]
  have hentry : getBlockEntry bs.database (NewBlockId types.MainShardId p.MainShardBlockHash) =
      some m := by
    rw [hid]
    exact Reachable.get_of_mem env bs hreach key m hmem
  have hval : validateMainShardEntry bs.database
      (NewBlockId types.MainShardId p.MainShardBlockHash) (some m) = Except.ok () :=
    (validateMainShardEntry_ok_iff _ _ _).mpr
      ⟨m, rfl, hmain, hproved, by rw [hpar]; exact hparent⟩
  have hok := setBlockAsProposedImpl_ok_of env bs.database _ m ids hentry hval hids
  rw [SetBlockAsProposed_eq]
  simp only
  refine ⟨hok, ?_⟩
  obtain ⟨e, childIds, hentry', _, _, hdb⟩ := setBlockAsProposedImpl_ok env bs.database _ hok
  rw [hentry] at hentry'
  have hem : m = e := Option.some.inj hentry'
  subst hem
  rw [hdb, hpeq]
  rfl

/-- The contract of claim C25 at the sample state in which `blockA1` and its child
are stored and `blockA1` is proved: the proposal names `blockA1`, proposing it
succeeds and the state root becomes `0x22`. -/
theorem selector_committer_agree_witness :
    Reachable sampleEnv provedState ∧
    TryGetNextProposalData sampleEnv provedState =
      Except.ok (some
        { MainShardBlockHash := 0xA1, Transactions := [1, 2, 3], OldProvedStateRoot := 0x11,
          NewProvedStateRoot := 0x22, MainBlockFetchedAt := 5 }) ∧
    (SetBlockAsProposed sampleEnv provedState (NewBlockId types.MainShardId 0xA1)).1 =
      Except.ok () ∧
    TryGetProvedStateRoot
        (SetBlockAsProposed sampleEnv provedState (NewBlockId types.MainShardId 0xA1)).2 =
      Except.ok (some 0x22) :=
  ⟨Reachable.runOps sampleEnv _ _ Reachable.empty, rfl,
    selector_committer_agree sampleEnv provedState
      { MainShardBlockHash := 0xA1, Transactions := [1, 2, 3], OldProvedStateRoot := 0x11,
        NewProvedStateRoot := 0x22, MainBlockFetchedAt := 5 }
      (Reachable.runOps sampleEnv _ _ Reachable.empty) rfl⟩

/-! ## The retry executor and the write paths -/

theorem setBlockBatchImpl_outcome (timer : Nat → Time) (db : Store) (batch : BlockBatch) :
    (setBlockBatchImpl timer db batch).1 = batchOutcome db batch := by
  have hw := batchWritten_fields timer db batch
  unfold batchOutcome
  by_cases hmain : batch.MainShardBlock.ShardId = types.MainShardId
  · cases hfront : db.nextToPropose with
    | some f =>
      rw [setBlockBatchImpl_result timer db batch f hmain hfront]
      simp [hmain]
    | none =>
      rw [setBlockBatchImpl_eq,
        setProposeParentHash_of_unset _ _ hmain (hw.2.2.trans hfront)]
      by_cases hc : batch.MainShardBlock.Number > 0 ∧
          batch.MainShardBlock.ParentHash = common.EmptyHash
      · simp [hmain, hc]
      · have hc' : ¬ (True ∧ batch.MainShardBlock.Number > 0 ∧
            batch.MainShardBlock.ParentHash = common.EmptyHash) := fun h => hc h.2
        simp only [hc, if_false, hmain, ne_eq, not_true_eq_false, true_and]
        cases heq : MainBlockRef.Equals db.latestFetched batch.MainShardBlock
        · rw [updateLatestFetched_of_main _ _ hmain (by simpa [hw.1] using heq)]
          simp only [hw.1]
          cases hv : MainBlockRef.ValidateChild db.latestFetched batch.MainShardBlock <;> simp
        · rw [updateLatestFetched_of_equals _ _ (by simpa [hw.1] using heq)]
          simp
  · rw [setBlockBatchImpl_eq, setProposeParentHash_of_not_main _ _ hmain]
    simp only
    rw [updateLatestFetched_of_not_main _ _ hmain]
    simp [hmain]

/-- A call of `SetBlockBatch` that fails leaves the storage as it was. -/
theorem SetBlockBatch_error_store (env : Env) (bs : BlockStorage) (batch : BlockBatch)
    (timer : Nat → Time) (err : Error)
    (h : (SetBlockBatch env bs (some batch) timer).1 = Except.error err) :
    (SetBlockBatch env bs (some batch) timer).2 = bs := by
  obtain ⟨a, ha⟩ := SetBlockBatch_eq_attempt env bs batch timer
  rw [ha] at h ⊢
  simp only at h ⊢
  rw [setBlockBatchImpl_error_store _ _ _ err h]

/-- An attempt of a batch never ends with the transient error of the substrate:
its errors are those of the checks on the frontier and on the latest reference. -/
theorem setBlockBatchImpl_not_transient (timer : Nat → Time) (db : Store) (batch : BlockBatch) :
    (setBlockBatchImpl timer db batch).1 ≠ Except.error Error.transientKV := by
  rw [setBlockBatchImpl_outcome]
  unfold batchOutcome MainBlockRef.ValidateChild
  intro h
  split at h
  · cases h
  · split at h
    · cases h
    · split at h
      · cases h
      · split at h
        · cases h
        · split at h
          · cases h
          · cases h

theorem attemptTimer_zero (timer : Nat → Time) (batch : BlockBatch) :
    attemptTimer timer batch 0 = timer := by
  funext n
  simp [attemptTimer]

/-- Over a substrate whose first `k` attempts fail to open a transaction and
whose next attempt opens one, a call of `SetBlockBatch` with at least `k`
further attempts ends as the first attempt that reads the timer ends. -/
theorem SetBlockBatchOn_eq_first (kv : Nat → Bool) (env : Env) (bs : BlockStorage)
    (batch : BlockBatch) (timer : Nat → Time) (k : Nat) (hk : ∀ j, j < k → kv j = true)
    (hclean : kv k = false) (hle : k ≤ env.retries) :
    SetBlockBatchOn kv env bs (some batch) timer =
      ((setBlockBatchImpl timer bs.database batch).1,
        { bs with database := (setBlockBatchImpl timer bs.database batch).2 }) := by
  have hloop : retryLoop
      (fun attempt db => createRwTx (kv attempt) db (fun db =>
        setBlockBatchImpl (attemptTimer timer batch (openedBefore kv attempt)) db batch))
      env.retries 0 bs.database = setBlockBatchImpl timer bs.database batch := by
    obtain ⟨rest, hrest⟩ : ∃ rest, env.retries = rest + k := ⟨env.retries - k, by omega⟩
    rw [hrest, retryLoop_skip _ k rest 0 bs.database (fun j hj => by
      simp only [createRwTx, Nat.zero_add, hk j hj, if_true])]
    have hk0 : createRwTx (kv (0 + k)) bs.database (fun db =>
        setBlockBatchImpl (attemptTimer timer batch (openedBefore kv (0 + k))) db batch) =
        setBlockBatchImpl timer bs.database batch := by
      simp only [createRwTx, Nat.zero_add, hclean, openedBefore_of_faulty kv k hk,
        attemptTimer_zero]
      rfl
    rw [retryLoop_of_final _ rest (0 + k) bs.database (by
      rw [hk0]
      exact setBlockBatchImpl_not_transient timer bs.database batch)]
    exact hk0
  unfold SetBlockBatchOn retryRunnerDo
  simp only
  rw [hloop]

/-- Over a substrate that fails to open a transaction in every attempt that the
retry runner may make, `SetBlockBatch` returns the transient error and leaves
the storage as it was. -/
theorem SetBlockBatchOn_exhausted (kv : Nat → Bool) (env : Env) (bs : BlockStorage)
    (batch : BlockBatch) (timer : Nat → Time) (h : ∀ j, j ≤ env.retries → kv j = true) :
    SetBlockBatchOn kv env bs (some batch) timer = (Except.error Error.transientKV, bs) := by
  unfold SetBlockBatchOn retryRunnerDo
  simp only
  rw [retryLoop_exhausted _ env.retries 0 bs.database (fun j hj => by
    simp only [createRwTx, Nat.zero_add, h j hj, if_true])]

/-- Over a substrate whose first `k` attempts fail to open a transaction and
whose next attempt opens one, a call of `SetBlockAsProposed` with at least `k`
further attempts ends as one run of `setBlockAsProposedImpl` ends. -/
theorem SetBlockAsProposedOn_eq_first (kv : Nat → Bool) (env : Env) (bs : BlockStorage)
    (id : BlockId) (k : Nat) (hk : ∀ j, j < k → kv j = true) (hclean : kv k = false)
    (hle : k ≤ env.retries) :
    SetBlockAsProposedOn kv env bs id =
      ((setBlockAsProposedImpl env bs.database id).1,
        { bs with database := (setBlockAsProposedImpl env bs.database id).2 }) := by
  unfold SetBlockAsProposedOn retryRunnerDo
  simp only
  rw [retryLoop_createRwTx_const kv (fun d => setBlockAsProposedImpl env d id)
    (fun d err d' h => setBlockAsProposedImpl_rollback env d id err d' h)
    k env.retries bs.database hk hclean hle]

/-- Over a substrate that fails to open a transaction in every attempt that the
retry runner may make, `SetBlockAsProposed` returns the transient error and
leaves the storage as it was. -/
theorem SetBlockAsProposedOn_exhausted (kv : Nat → Bool) (env : Env) (bs : BlockStorage)
    (id : BlockId) (h : ∀ j, j ≤ env.retries → kv j = true) :
    SetBlockAsProposedOn kv env bs id = (Except.error Error.transientKV, bs) := by
  unfold SetBlockAsProposedOn retryRunnerDo
  simp only
  rw [retryLoop_exhausted _ env.retries 0 bs.database (fun j hj => by
    simp only [createRwTx, Nat.zero_add, h j hj, if_true])]

/-- The one transaction of `SetBlockAsProved` failing to open ends the call. -/
theorem SetBlockAsProvedOn_of_faulty (kv : Nat → Bool) (bs : BlockStorage) (id : BlockId)
    (h : kv 0 = true) :
    SetBlockAsProvedOn kv bs id = (Except.error Error.transientKV, bs) := by
  simp only [SetBlockAsProvedOn, createRwTx, h, if_true]

theorem SetBlockAsProvedOn_of_clean (kv : Nat → Bool) (bs : BlockStorage) (id : BlockId)
    (h : kv 0 = false) :
    SetBlockAsProvedOn kv bs id = SetBlockAsProved bs id := by
  simp only [SetBlockAsProved, SetBlockAsProvedOn, createRwTx, h, noFaults]

/-- Claim C21. Over a key-value substrate whose `CreateRwTx` may fail with the
transient error (`kv n` tells whether it fails in attempt `n` of a call), and
with the retry executor of the spec under the policy of `NewBlockStorage`:
when the first transaction of a call opens, `SetBlockBatch` and
`SetBlockAsProposed` end as one run of `setBlockBatchImpl` and of
`setBlockAsProposedImpl` ends, whatever the substrate would do in later attempts,
so that every outcome of the run, a success or an error, is returned after one
attempt; transient failures are retried, the call ending as over a substrate
that does not fail when one of the attempts of the executor opens its
transaction, and with the transient error and an unchanged storage when none
does; and a nil batch is refused before the executor is entered.
`SetBlockAsProved` is not under the executor: one transient failure ends the
call with that error, however many attempts the executor of the storage has. -/
theorem retry_executor_on_write_paths (env : Env) (bs : BlockStorage) (kv : Nat → Bool) :
    (kv 0 = false →
      (∀ id, SetBlockAsProposedOn kv env bs id =
        ((setBlockAsProposedImpl env bs.database id).1,
          { bs with database := (setBlockAsProposedImpl env bs.database id).2 })) ∧
      (∀ batch timer, SetBlockBatchOn kv env bs (some batch) timer =
        ((setBlockBatchImpl timer bs.database batch).1,
          { bs with database := (setBlockBatchImpl timer bs.database batch).2 })) ∧
      (∀ id, SetBlockAsProvedOn kv bs id = SetBlockAsProved bs id)) ∧
    (∀ k, k ≤ env.retries → (∀ j, j < k → kv j = true) → kv k = false →
      (∀ id, SetBlockAsProposedOn kv env bs id = SetBlockAsProposed env bs id) ∧
      (∀ batch timer, SetBlockBatchOn kv env bs (some batch) timer =
        SetBlockBatch env bs (some batch) timer)) ∧
    ((∀ j, j ≤ env.retries → kv j = true) →
      (∀ id, SetBlockAsProposedOn kv env bs id = (Except.error Error.transientKV, bs)) ∧
      (∀ batch timer, SetBlockBatchOn kv env bs (some batch) timer =
        (Except.error Error.transientKV, bs))) ∧
    (∀ timer, SetBlockBatchOn kv env bs none timer = (Except.error Error.batchNil, bs)) ∧
    (kv 0 = true →
      ∀ id, SetBlockAsProvedOn kv bs id = (Except.error Error.transientKV, bs)) := by
  have hnone : ∀ j, j < 0 → kv j = true := fun j hj => absurd hj (Nat.not_lt_zero j)
  have hnone' : ∀ j, j < 0 → noFaults j = true := fun j hj => absurd hj (Nat.not_lt_zero j)
  refine ⟨?_, ?_, ?_, ?_, ?_⟩
  · intro h0
    exact ⟨fun id => SetBlockAsProposedOn_eq_first kv env bs id 0 hnone h0 (Nat.zero_le _),
      fun batch timer =>
        SetBlockBatchOn_eq_first kv env bs batch timer 0 hnone h0 (Nat.zero_le _),
      fun id => SetBlockAsProvedOn_of_clean kv bs id h0⟩
  · intro k hle hk hclean
    constructor
    · intro id
      rw [SetBlockAsProposedOn_eq_first kv env bs id k hk hclean hle]
      exact (SetBlockAsProposedOn_eq_first noFaults env bs id 0 hnone' rfl (Nat.zero_le _)).symm
    · intro batch timer
      rw [SetBlockBatchOn_eq_first kv env bs batch timer k hk hclean hle]
      exact (SetBlockBatchOn_eq_first noFaults env bs batch timer 0 hnone' rfl
        (Nat.zero_le _)).symm
  · intro hall
    exact ⟨fun id => SetBlockAsProposedOn_exhausted kv env bs id hall,
      fun batch timer => SetBlockBatchOn_exhausted kv env bs batch timer hall⟩
  · intro timer
    rfl
  · intro h0 id
    exact SetBlockAsProvedOn_of_faulty kv bs id h0

/-- Claim C21 at the sample states, the retry executor having two further
attempts.  Over the substrate that fails to open the first transaction of a
call, marking `blockA1` as proved fails with the transient error on the storage
that holds it, where the call succeeds over a substrate that does not fail, while
proposing `blockA1` once it is proved and ingesting the batch that extends it
succeed as they do over a substrate that does not fail.  Over the substrate that
opens the first transaction only, proposing `blockA1` before it is proved and
ingesting a batch that does not extend it fail with the error of the first
attempt.  Over the substrate that opens no transaction, proposing `blockA1`
fails with the transient error. -/
theorem retry_executor_on_write_paths_witness :
    sampleEnv.retries = 2 ∧
    (SetBlockAsProved fetchedState idA1).1 = Except.ok () ∧
    SetBlockAsProvedOn firstFails fetchedState idA1 =
      (Except.error Error.transientKV, fetchedState) ∧
    (SetBlockAsProposed sampleEnv provedState idA1).1 = Except.ok () ∧
    SetBlockAsProposedOn firstFails sampleEnv provedState idA1 =
      SetBlockAsProposed sampleEnv provedState idA1 ∧
    (SetBlockBatch sampleEnv fetchedState (some batchB) (constTimer 6)).1 = Except.ok () ∧
    SetBlockBatchOn firstFails sampleEnv fetchedState (some batchB) (constTimer 6) =
      SetBlockBatch sampleEnv fetchedState (some batchB) (constTimer 6) ∧
    (setBlockAsProposedImpl sampleEnv fetchedState.database idA1).1 =
      Except.error (Error.notProved idA1) ∧
    SetBlockAsProposedOn onlyFirstOpens sampleEnv fetchedState idA1 =
      ((setBlockAsProposedImpl sampleEnv fetchedState.database idA1).1,
        { fetchedState with
          database := (setBlockAsProposedImpl sampleEnv fetchedState.database idA1).2 }) ∧
    (setBlockBatchImpl (constTimer 6) fetchedState.database batchMismatch).1 =
      Except.error Error.blockMismatch ∧
    SetBlockBatchOn onlyFirstOpens sampleEnv fetchedState (some batchMismatch) (constTimer 6) =
      ((setBlockBatchImpl (constTimer 6) fetchedState.database batchMismatch).1,
        { fetchedState with
          database :=
            (setBlockBatchImpl (constTimer 6) fetchedState.database batchMismatch).2 }) ∧
    SetBlockAsProposedOn alwaysFails sampleEnv provedState idA1 =
      (Except.error Error.transientKV, provedState) :=
  ⟨rfl, rfl,
    (retry_executor_on_write_paths sampleEnv fetchedState firstFails).2.2.2.2 rfl idA1,
    rfl,
    ((retry_executor_on_write_paths sampleEnv provedState firstFails).2.1 1 (by decide)
      (fun j hj => by
        have hj0 : j = 0 := by omega
        subst hj0
        rfl) rfl).1 idA1,
    rfl,
    ((retry_executor_on_write_paths sampleEnv fetchedState firstFails).2.1 1 (by decide)
      (fun j hj => by
        have hj0 : j = 0 := by omega
        subst hj0
        rfl) rfl).2 batchB (constTimer 6),
    rfl,
    ((retry_executor_on_write_paths sampleEnv fetchedState onlyFirstOpens).1 rfl).1 idA1,
    rfl,
    ((retry_executor_on_write_paths sampleEnv fetchedState onlyFirstOpens).1 rfl).2.1
      batchMismatch (constTimer 6),
    ((retry_executor_on_write_paths sampleEnv provedState alwaysFails).2.2.1
      (fun _ _ => rfl)).1 idA1⟩

/-! ## The main-shard entries form one chain -/

/-- A database whose latest reference is that of `db` and whose entries carry
blocks that entries of `db` carry inherits the chain invariant of `db`. -/
theorem chainInv_of_blocks (numberAfter : common.Hash → types.BlockNumber) (db db' : Store)
    (hlatest : db'.latestFetched = db.latestFetched)
    (hblocks : ∀ kv ∈ db'.blocks, ∃ kv' ∈ db.blocks, kv'.2.Block = kv.2.Block)
    (h : ChainInv numberAfter db) : ChainInv numberAfter db' := by
  obtain ⟨h0, h2⟩ := h
  constructor
  · intro kv hkv hmain
    obtain ⟨kv', hkv', hb⟩ := hblocks kv hkv
    rw [← hb] at hmain ⊢
    rw [hlatest]
    exact h0 kv' hkv' hmain
  · intro kv1 hkv1 kv2 hkv2 hm1 hm2 hnum
    obtain ⟨kv1', hkv1', hb1⟩ := hblocks kv1 hkv1
    obtain ⟨kv2', hkv2', hb2⟩ := hblocks kv2 hkv2
    rw [← hb1] at hm1 hnum ⊢
    rw [← hb2] at hm2 hnum ⊢
    exact h2 kv1' hkv1' kv2' hkv2' hm1 hm2 hnum

theorem putBlockTx_mem (tx : Store) (t : Time) (batchId : BatchId) (block : RPCBlock)
    (kv : BlockId × blockEntry) (h : kv ∈ (putBlockTx tx t batchId block).blocks) :
    kv ∈ tx.blocks ∨ kv.2.Block = block := by
  simp only [putBlockTx] at h
  rcases mem_tablePut _ _ _ _ h with hmem | heq
  · exact Or.inl hmem
  · subst heq
    exact Or.inr rfl

theorem putChildBlocks_mem (timer : Nat → Time) (batchId : BatchId) (tx : Store) (n : Nat)
    (blocks : List RPCBlock) (kv : BlockId × blockEntry)
    (h : kv ∈ (putChildBlocks timer batchId tx n blocks).blocks) :
    kv ∈ tx.blocks ∨ kv.2.Block ∈ blocks := by
  induction blocks generalizing tx n with
  | nil => exact Or.inl (by simpa [putChildBlocks] using h)
  | cons b rest ih =>
    simp only [putChildBlocks] at h
    rcases ih _ _ h with h1 | h1
    · rcases putBlockTx_mem tx (timer n) batchId b kv h1 with h2 | h2
      · exact Or.inl h2
      · exact Or.inr (by simp [h2])
    · exact Or.inr (List.mem_cons_of_mem _ h1)

/-- The entries of the working copy in which a batch was written: the entries
there were, an entry of the main block, or an entry of a child block. -/
theorem batchWritten_mem (timer : Nat → Time) (db : Store) (batch : BlockBatch)
    (kv : BlockId × blockEntry) (h : kv ∈ (batchWritten timer db batch).blocks) :
    kv ∈ db.blocks ∨ kv.2.Block = batch.MainShardBlock ∨ kv.2.Block ∈ batch.ChildBlocks := by
  rcases putChildBlocks_mem timer batch.Id _ 1 batch.ChildBlocks kv h with h1 | h1
  · rcases putBlockTx_mem db (timer 0) batch.Id batch.MainShardBlock kv h1 with h2 | h2
    · exact Or.inl h2
    · exact Or.inr (Or.inl h2)
  · exact Or.inr (Or.inr h1)

theorem setBlockBatchImpl_ok_blocks (timer : Nat → Time) (db : Store) (batch : BlockBatch)
    (h : (setBlockBatchImpl timer db batch).1 = Except.ok ()) :
    (setBlockBatchImpl timer db batch).2.blocks = (batchWritten timer db batch).blocks :=
  (setBlockBatchImpl_ok timer db batch h).1

theorem setBlockBatchImpl_not_main_latest (timer : Nat → Time) (db : Store) (batch : BlockBatch)
    (hmain : batch.MainShardBlock.ShardId ≠ types.MainShardId) :
    (setBlockBatchImpl timer db batch).2.latestFetched = db.latestFetched := by
  rw [setBlockBatchImpl_again timer db batch (fun h => absurd h hmain)]
  exact (batchWritten_fields timer db batch).1

/-- One attempt of a batch of blocks of one chain keeps the chain invariant. -/
theorem setBlockBatchImpl_chainInv (numberAfter : common.Hash → types.BlockNumber)
    (timer : Nat → Time) (db : Store) (batch : BlockBatch)
    (hchildren : ∀ child ∈ batch.ChildBlocks, child.ShardId ≠ types.MainShardId)
    (hnumber : batch.MainShardBlock.ShardId = types.MainShardId →
      batch.MainShardBlock.Number = numberAfter batch.MainShardBlock.ParentHash)
    (h : ChainInv numberAfter db) :
    ChainInv numberAfter (setBlockBatchImpl timer db batch).2 := by
  cases hres : (setBlockBatchImpl timer db batch).1 with
  | error err =>
    rw [setBlockBatchImpl_error_store timer db batch err hres]
    exact h
  | ok u =>
    have hblocks := setBlockBatchImpl_ok_blocks timer db batch hres
    by_cases hmain : batch.MainShardBlock.ShardId = types.MainShardId
    · obtain ⟨h0, h2⟩ := h
      have hl := (setBlockBatchImpl_ok_latest timer db batch hmain hres).2
      -- what is known of an entry of the new table that is a main-shard block
      have hnew : ∀ kv ∈ (setBlockBatchImpl timer db batch).2.blocks,
          kv.2.Block.ShardId = types.MainShardId →
          kv ∈ db.blocks ∨ kv.2.Block = batch.MainShardBlock := by
        intro kv hkv hm
        rw [hblocks] at hkv
        rcases batchWritten_mem timer db batch kv hkv with h1 | h1 | h1
        · exact Or.inl h1
        · exact Or.inr h1
        · exact absurd hm (hchildren _ h1)
      rcases hl with ⟨heq, hsame⟩ | ⟨hne, hv, hnewref⟩
      · -- the block equals the latest reference, which stays
        cases hlat : db.latestFetched with
        | none => rw [hlat] at heq; simp [MainBlockRef.Equals] at heq
        | some ref =>
          rw [hlat] at heq hsame
          simp [MainBlockRef.Equals] at heq
          obtain ⟨hh, hn⟩ := heq
          constructor
          · intro kv hkv hm
            rcases hnew kv hkv hm with hold | hb
            · obtain ⟨hnum, ref', hr, hle, heqh⟩ := h0 kv hold hm
              rw [hlat] at hr
              cases hr
              exact ⟨hnum, ref, hsame, hle, heqh⟩
            · rw [hb]
              exact ⟨hnumber hmain, ref, hsame, by rw [hn], fun _ => hh.symm⟩
          · intro kv1 hkv1 kv2 hkv2 hm1 hm2 hnum
            rcases hnew kv1 hkv1 hm1 with hold1 | hb1
            · rcases hnew kv2 hkv2 hm2 with hold2 | hb2
              · exact h2 kv1 hold1 kv2 hold2 hm1 hm2 hnum
              · obtain ⟨_, ref', hr, _, heqh⟩ := h0 kv1 hold1 hm1
                rw [hlat] at hr
                cases hr
                rw [hb2] at hnum ⊢
                rw [heqh (by rw [hnum, hn]), hh]
            · rcases hnew kv2 hkv2 hm2 with hold2 | hb2
              · obtain ⟨_, ref', hr, _, heqh⟩ := h0 kv2 hold2 hm2
                rw [hlat] at hr
                cases hr
                rw [hb1] at hnum ⊢
                rw [heqh (by rw [← hnum, hn]), hh]
              · rw [hb1, hb2]
      · -- the block extends the latest reference and becomes the latest one
        have hlater : ∀ kv ∈ db.blocks, kv.2.Block.ShardId = types.MainShardId →
            kv.2.Block.Number < batch.MainShardBlock.Number := by
          intro kv hold hm
          obtain ⟨_, ref, hr, hle, _⟩ := h0 kv hold hm
          rw [hr, ValidateChild_some] at hv
          have hcond : batch.MainShardBlock.ParentHash = ref.Hash ∧
              batch.MainShardBlock.Number = ref.Number + 1 ∧
              batch.MainShardBlock.ShardId = types.MainShardId := by
            by_contra hc
            rw [if_neg hc] at hv
            cases hv
          rw [hcond.2.1]
          exact Nat.lt_succ_of_le hle
        constructor
        · intro kv hkv hm
          rcases hnew kv hkv hm with hold | hb
          · obtain ⟨hnum, _⟩ := h0 kv hold hm
            have hlt := hlater kv hold hm
            exact ⟨hnum, refOf batch.MainShardBlock, hnewref, Nat.le_of_lt hlt,
              fun heq => absurd heq (Nat.ne_of_lt hlt)⟩
          · rw [hb]
            exact ⟨hnumber hmain, refOf batch.MainShardBlock, hnewref, Nat.le_refl _,
              fun _ => rfl⟩
        · intro kv1 hkv1 kv2 hkv2 hm1 hm2 hnum
          rcases hnew kv1 hkv1 hm1 with hold1 | hb1
          · rcases hnew kv2 hkv2 hm2 with hold2 | hb2
            · exact h2 kv1 hold1 kv2 hold2 hm1 hm2 hnum
            · have hlt := hlater kv1 hold1 hm1
              rw [hb2] at hnum
              exact absurd hnum (Nat.ne_of_lt hlt)
          · rcases hnew kv2 hkv2 hm2 with hold2 | hb2
            · have hlt := hlater kv2 hold2 hm2
              rw [hb1] at hnum
              exact absurd hnum.symm (Nat.ne_of_lt hlt)
            · rw [hb1, hb2]
    · -- the main block of the batch is not a main-shard block: no new main-shard entry
      obtain ⟨h0, h2⟩ := h
      have hlat := setBlockBatchImpl_not_main_latest timer db batch hmain
      have hnew : ∀ kv ∈ (setBlockBatchImpl timer db batch).2.blocks,
          kv.2.Block.ShardId = types.MainShardId → kv ∈ db.blocks := by
        intro kv hkv hm
        rw [hblocks] at hkv
        rcases batchWritten_mem timer db batch kv hkv with h1 | h1 | h1
        · exact h1
        · rw [h1] at hm
          exact absurd hm hmain
        · exact absurd hm (hchildren _ h1)
      constructor
      · intro kv hkv hm
        rw [hlat]
        exact h0 kv (hnew kv hkv hm) hm
      · intro kv1 hkv1 kv2 hkv2 hm1 hm2 hnum
        exact h2 kv1 (hnew kv1 hkv1 hm1) kv2 (hnew kv2 hkv2 hm2) hm1 hm2 hnum

theorem opApply_chainInv (numberAfter : common.Hash → types.BlockNumber) (env : Env)
    (bs : BlockStorage) (op : Op) (hop : op.ofOneChain numberAfter)
    (h : ChainInv numberAfter bs.database) : ChainInv numberAfter (op.apply env bs).database := by
  cases op with
  | SetProvedStateRoot stateRoot =>
    refine chainInv_of_blocks numberAfter bs.database _ (SetProvedStateRoot_fields bs stateRoot).1
      ?_ h
    intro kv hkv
    refine ⟨kv, ?_, rfl⟩
    have hb : (SetProvedStateRoot bs stateRoot).2.database.blocks = bs.database.blocks := by
      unfold SetProvedStateRoot
      split <;> rfl
    rw [← hb]
    exact hkv
  | SetBlockBatch batch timer =>
    cases batch with
    | none => exact h
    | some batch =>
      obtain ⟨a, ha⟩ := SetBlockBatch_eq_attempt env bs batch timer
      simp only [Op.apply, ha]
      exact setBlockBatchImpl_chainInv numberAfter _ bs.database batch hop.1 hop.2 h
  | SetBlockAsProved id =>
    refine chainInv_of_blocks numberAfter bs.database _ (SetBlockAsProved_fields bs id).1 ?_ h
    intro kv hkv
    simp only [Op.apply] at hkv
    cases hentry : getBlockEntry bs.database id with
    | none =>
      rw [SetBlockAsProved_missing bs id hentry] at hkv
      exact ⟨kv, hkv, rfl⟩
    | some entry =>
      cases hp : entry.IsProved
      · rw [SetBlockAsProved_unproved bs id entry hentry hp] at hkv
        rcases mem_tablePut _ _ _ _ hkv with hmem | heq
        · exact ⟨kv, hmem, rfl⟩
        · subst heq
          exact ⟨(id, entry), tableGet_mem _ id entry hentry, rfl⟩
      · rw [SetBlockAsProved_proved bs id entry hentry hp] at hkv
        exact ⟨kv, hkv, rfl⟩
  | SetBlockAsProposed id =>
    refine chainInv_of_blocks numberAfter bs.database _
      (SetBlockAsProposed_latestFetched env bs id) ?_ h
    intro kv hkv
    simp only [Op.apply, SetBlockAsProposed_eq] at hkv
    cases hres : (setBlockAsProposedImpl env bs.database id).1 with
    | error err =>
      rw [setBlockAsProposedImpl_error_store env bs.database id err hres] at hkv
      exact ⟨kv, hkv, rfl⟩
    | ok u =>
      obtain ⟨e, childIds, _, _, _, hdb⟩ := setBlockAsProposedImpl_ok env bs.database id hres
      rw [hdb] at hkv
      exact ⟨kv, deleteChildBlocks_mem bs.database childIds kv
        (mem_of_mem_tableDelete _ _ kv hkv), rfl⟩

theorem runOps_chainInv (numberAfter : common.Hash → types.BlockNumber) (env : Env)
    (ops : List Op) (bs : BlockStorage) (hops : ∀ op ∈ ops, op.ofOneChain numberAfter)
    (h : ChainInv numberAfter bs.database) :
    ChainInv numberAfter (runOps env bs ops).database := by
  induction ops generalizing bs with
  | nil => exact h
  | cons op rest ih =>
    simp only [runOps, List.foldl_cons]
    exact ih _ (fun o ho => hops o (List.mem_cons_of_mem _ ho))
      (opApply_chainInv numberAfter env bs op (hops op (by simp)) h)

theorem chainInv_empty (numberAfter : common.Hash → types.BlockNumber) :
    ChainInv numberAfter BlockStorage.empty.database := by
  constructor
  · intro kv hkv
    simp [BlockStorage.empty, Store.empty] at hkv
  · intro kv hkv
    simp [BlockStorage.empty, Store.empty] at hkv

/-- In a database whose main-shard entries form one chain, whose entries sit
under the keys of their blocks and whose keys are distinct, at most one entry is
a proposal candidate. -/
theorem atMostOneCandidate_of_chainInv (numberAfter : common.Hash → types.BlockNumber)
    (db : Store) (hchain : ChainInv numberAfter db) (hagree : KeysAgree db)
    (hnodup : KeysNodup db) : AtMostOneCandidate db := by
  intro kv1 hkv1 kv2 hkv2 hc1 hc2
  obtain ⟨hm1, _, hp1⟩ := hc1
  obtain ⟨hm2, _, hp2⟩ := hc2
  have hparent : kv1.2.Block.ParentHash = kv2.2.Block.ParentHash := by
    rw [hp1] at hp2
    exact Option.some.inj hp2
  have hnum : kv1.2.Block.Number = kv2.2.Block.Number := by
    rw [(hchain.1 kv1 hkv1 hm1).1, (hchain.1 kv2 hkv2 hm2).1, hparent]
  have hhash := hchain.2 kv1 hkv1 kv2 hkv2 hm1 hm2 hnum
  have hkey : kv1.1 = kv2.1 := by
    rw [← hagree kv1 hkv1, ← hagree kv2 hkv2]
    simp [IdFromBlock, NewBlockId, hm1, hm2, hhash]
  obtain ⟨k1, e1⟩ := kv1
  obtain ⟨k2, e2⟩ := kv2
  simp only at hkey
  subst hkey
  have g1 := tableGet_of_mem db.blocks k1 e1 hnodup hkv1
  have g2 := tableGet_of_mem db.blocks k1 e2 hnodup hkv2
  rw [g1] at g2
  cases g2
  rfl

/-! ## The scan order -/

theorem tableGet_perm {κ ν : Type} [DecidableEq κ] (t t' : Table κ ν) (key : κ)
    (hperm : List.Perm t' t) (hnodup : (t.map Prod.fst).Nodup) :
    tableGet t' key = tableGet t key := by
  have hnodup' : (t'.map Prod.fst).Nodup :=
    (List.Perm.nodup_iff (List.Perm.map Prod.fst hperm)).mpr hnodup
  cases hget : tableGet t key with
  | some v =>
    exact tableGet_of_mem t' key v hnodup' (hperm.mem_iff.mpr (tableGet_mem t key v hget))
  | none =>
    cases hget' : tableGet t' key with
    | none => rfl
    | some v =>
      have := tableGet_of_mem t key v hnodup (hperm.mem_iff.mp (tableGet_mem t' key v hget'))
      rw [hget] at this
      cases this

theorem find?_perm_of_unique {α : Type} (p : α → Bool) (l l' : List α)
    (hperm : List.Perm l' l)
    (hunique : ∀ a ∈ l, ∀ b ∈ l, p a = true → p b = true → a = b) :
    l'.find? p = l.find? p := by
  cases hfind : l.find? p with
  | none =>
    rw [List.find?_eq_none] at hfind ⊢
    intro a ha
    exact hfind a (hperm.mem_iff.mp ha)
  | some a =>
    have ha : a ∈ l := List.mem_of_find?_eq_some hfind
    have hpa : p a = true := List.find?_some hfind
    cases hfind' : l'.find? p with
    | none =>
      rw [List.find?_eq_none] at hfind'
      exact absurd hpa (hfind' a (hperm.mem_iff.mpr ha))
    | some b =>
      have hb : b ∈ l := hperm.mem_iff.mp (List.mem_of_find?_eq_some hfind')
      have hpb : p b = true := List.find?_some hfind'
      rw [hunique a ha b hb hpa hpb]

theorem appendChildTransactions_congr (env : Env) (tx tx' : Store) (ids : List BlockId)
    (acc : List Transaction) (h : ∀ id, getBlockEntry tx' id = getBlockEntry tx id) :
    appendChildTransactions env tx' ids acc = appendChildTransactions env tx ids acc := by
  induction ids generalizing acc with
  | nil => rfl
  | cons id rest ih =>
    simp only [appendChildTransactions, h id]
    cases getBlockEntry tx id with
    | none => rfl
    | some e => exact ih _

/-- Two storages with the same state root and frontier, in which the scan
selects the same entry and every identifier has the same entry, give the same
result of `TryGetNextProposalData`. -/
theorem TryGetNextProposalData_congr (env : Env) (bs bs' : BlockStorage)
    (hroot : bs'.database.stateRoot = bs.database.stateRoot)
    (hfront : bs'.database.nextToPropose = bs.database.nextToPropose)
    (hfirst : ∀ parentHash, bs.database.nextToPropose = some parentHash →
      firstCandidate bs'.database parentHash = firstCandidate bs.database parentHash)
    (hget : ∀ id, getBlockEntry bs'.database id = getBlockEntry bs.database id) :
    TryGetNextProposalData env bs' = TryGetNextProposalData env bs := by
  rw [TryGetNextProposalData_eq, TryGetNextProposalData_eq]
  simp only [getProvedStateRoot, getParentOfNextToPropose, hroot, hfront]
  cases h1 : bs.database.stateRoot with
  | none => rfl
  | some root =>
    cases h2 : bs.database.nextToPropose with
    | none => rfl
    | some parentHash =>
      simp only [hfirst parentHash h2]
      cases h3 : firstCandidate bs.database parentHash with
      | none => rfl
      | some m =>
        simp only
        cases h4 : env.ChildBlockIds m.Block with
        | error err => rfl
        | ok ids =>
          simp only
          rw [appendChildTransactions_congr env bs.database bs'.database ids _ hget]

/-- When at most one entry is a candidate and the keys are distinct, the result
of `TryGetNextProposalData` is the same for every order of the `blocks` table. -/
theorem TryGetNextProposalData_perm (env : Env) (bs : BlockStorage)
    (blocks : Table BlockId blockEntry) (hperm : List.Perm blocks bs.database.blocks)
    (hnodup : KeysNodup bs.database) (hone : AtMostOneCandidate bs.database) :
    TryGetNextProposalData env
        { bs with database := { bs.database with blocks := blocks } } =
      TryGetNextProposalData env bs := by
  refine TryGetNextProposalData_congr env bs _ rfl rfl ?_ ?_
  · intro parentHash hfront
    unfold firstCandidate
    simp only
    rw [find?_perm_of_unique _ bs.database.blocks blocks hperm]
    intro a ha b hb hpa hpb
    simp [isValidProposalCandidate] at hpa hpb
    exact hone a ha b hb
      ⟨hpa.1.1, hpa.1.2, by simp [getParentOfNextToPropose, hfront, hpa.2]⟩
      ⟨hpb.1.1, hpb.1.2, by simp [getParentOfNextToPropose, hfront, hpb.2]⟩
  · intro id
    exact tableGet_perm bs.database.blocks blocks id hperm hnodup

/-! ## At most one candidate -/

/-- Two candidates in a reachable state (against claim C23): the sample state
with the entries of `blockS` and `blockT` is reached through the public
operations, both entries are proposal candidates and they differ; and the result
of `TryGetNextProposalData` depends on the scan order, a proposal when `blockS`
is met first and an error for the missing child of `blockT` when the table is
scanned in the reverse order. -/
theorem two_candidates_reachable :
    Reachable sampleEnv twoCandidatesState ∧
    ((⟨0, 0xA1⟩, entryS) ∈ twoCandidatesState.database.blocks ∧
      (⟨0, 0xB1⟩, entryT) ∈ twoCandidatesState.database.blocks ∧
      IsCandidate twoCandidatesState.database entryS ∧
      IsCandidate twoCandidatesState.database entryT ∧
      entryS ≠ entryT) ∧
    TryGetNextProposalData sampleEnv twoCandidatesState =
      Except.ok (some
        { MainShardBlockHash := 0xA1, Transactions := [1], OldProvedStateRoot := 0x11,
          NewProvedStateRoot := 0x22, MainBlockFetchedAt := 5 }) ∧
    TryGetNextProposalData sampleEnv
        { twoCandidatesState with
          database := { twoCandidatesState.database with
            blocks := twoCandidatesState.database.blocks.reverse } } =
      Except.error (Error.childBlockNotFound ⟨1, 0xD1⟩) :=
  ⟨Reachable.runOps sampleEnv _ _ Reachable.empty,
    ⟨by decide, by decide, ⟨rfl, rfl, rfl⟩, ⟨rfl, rfl, rfl⟩, by decide⟩, rfl, rfl⟩

/-- Claim C23, amended. In every state reached from the empty storage through
public operations whose batches carry blocks of one chain, no main-shard block
among the child blocks and main blocks of the same parent hash having the same
number, at most one entry of the `blocks` table is a valid proposal candidate
(main shard, proved, parent hash equal to `next_to_propose_parent`), so the
result of `TryGetNextProposalData` is the same for every scan order of the
table. -/
theorem unique_candidate_of_one_chain (env : Env)
    (numberAfter : common.Hash → types.BlockNumber) (ops : List Op)
    (hops : ∀ op ∈ ops, op.ofOneChain numberAfter) :
    AtMostOneCandidate (runOps env BlockStorage.empty ops).database ∧
    ∀ blocks : Table BlockId blockEntry,
      List.Perm blocks (runOps env BlockStorage.empty ops).database.blocks →
      TryGetNextProposalData env
          { runOps env BlockStorage.empty ops with
            database := { (runOps env BlockStorage.empty ops).database with
              blocks := blocks } } =
        TryGetNextProposalData env (runOps env BlockStorage.empty ops) := by
  have hreach : Reachable env (runOps env BlockStorage.empty ops) :=
    Reachable.runOps env _ ops Reachable.empty
  have hnodup := Reachable.keysNodup env _ hreach
  have hone : AtMostOneCandidate (runOps env BlockStorage.empty ops).database :=
    atMostOneCandidate_of_chainInv numberAfter _
      (runOps_chainInv numberAfter env ops BlockStorage.empty hops (chainInv_empty numberAfter))
      (Reachable.keysAgree env _ hreach) hnodup
  exact ⟨hone, fun blocks hperm =>
    TryGetNextProposalData_perm env _ blocks hperm hnodup hone⟩

/-- The amended claim C23 for the sample chain of `blockA1` and the block after
it, both ingested and proved: at most one entry is a candidate, and scanning the
table in the reverse order gives the same result. -/
theorem unique_candidate_of_one_chain_witness :
    (∀ op ∈ chainOps, op.ofOneChain sampleNumberAfter) ∧
    AtMostOneCandidate (runOps sampleEnv BlockStorage.empty chainOps).database ∧
    TryGetNextProposalData sampleEnv
        { runOps sampleEnv BlockStorage.empty chainOps with
          database := { (runOps sampleEnv BlockStorage.empty chainOps).database with
            blocks := (runOps sampleEnv BlockStorage.empty chainOps).database.blocks.reverse } } =
      TryGetNextProposalData sampleEnv (runOps sampleEnv BlockStorage.empty chainOps) := by
  have hops : ∀ op ∈ chainOps, op.ofOneChain sampleNumberAfter := by
    intro op hop
    simp only [chainOps, List.mem_cons, List.mem_singleton, List.not_mem_nil, or_false] at hop
    rcases hop with h | h | h | h | h <;> subst h <;>
      simp [Op.ofOneChain, batchA, batchB, blockA1, blockC1, sampleNumberAfter,
        types.MainShardId]
  have h := unique_candidate_of_one_chain sampleEnv sampleNumberAfter chainOps hops
  exact ⟨hops, h.1, h.2 _ (List.reverse_perm _)⟩

end Storage
